import Mathlib

/-!
Verification of the LT fountain-code codec (crate `fountaincode`):
shallow embedding of `src/soliton.rs`, `src/lib.rs` and `src/ltcode.rs`.

Modelling conventions:
* bytes are naturals (every stored byte stays below 256; `^=` is `Nat.xor`);
* `f32` values are rationals; where the exact IEEE-754 single rounding of the
  source decides a claim (the `((len as f32)/blocksize as f32).ceil()` chunk
  count) we model round-to-nearest-even with 24-bit significand explicitly
  (`roundF32`), restricted to positive values in the normal range, which covers
  every input appearing in the development;
* the degree sampler's `f32` draws and its `1.0 / k` limit are idealized as
  exact rationals (`IdealSoliton`, `Soliton`);
* the OS-seeded `StdRng` of the encoder and the per-seed `StdRng` stream of the
  external `rand` crate are dependencies outside this repository: the first is
  modelled as an arbitrary word stream `ℕ → ℕ` passed explicitly (matching the
  nondeterministic `StdRng::new()` entropy), the second as a fixed concrete
  word-stream function of the seed (`stdRngWords`); no theorem below depends on
  the particular values of either stream except through determinism;
* `rand::sample` (rand 0.3) is the reservoir sampler, embedded as `rngSample`;
* Rust panics (out-of-bounds indexing, `unwrap`) are modelled by `Option`:
  a result of `none` is a panic of the corresponding source operation.
-/

namespace Fountain

/-! ### Bytes and XOR of byte vectors -/

/-- Pointwise XOR of two byte vectors (`r[j] ^= d[i]` loops). -/
def zipXor (a b : List ℕ) : List ℕ := List.zipWith Nat.xor a b

/-- All-zero byte vector, `vec![0; n]`. -/
def zeroes (n : ℕ) : List ℕ := List.replicate n 0

/-! ### Exact model of the `f32` arithmetic used for the chunk count -/

/-- `2 ^ e` as a rational, for integer `e`, by plain natural powers. -/
def qpow2 : ℤ → ℚ
  | Int.ofNat n => ((2 ^ n : ℕ) : ℚ)
  | Int.negSucc n => 1 / ((2 ^ (n + 1) : ℕ) : ℚ)

/-- Climb until `2 ^ (e+1) > q`; fuel-bounded so it is structural. -/
def expUp : ℕ → ℤ → ℚ → ℤ
  | 0, e, _ => e
  | fuel + 1, e, q => if qpow2 (e + 1) ≤ q then expUp fuel (e + 1) q else e

/-- Descend until `2 ^ e ≤ q`; fuel-bounded so it is structural. -/
def expDown : ℕ → ℤ → ℚ → ℤ
  | 0, e, _ => e
  | fuel + 1, e, q => if q < qpow2 e then expDown fuel (e - 1) q else e

/-- Binade exponent of a positive rational in the `f32` normal range:
the `e` with `2 ^ e ≤ q < 2 ^ (e+1)`. -/
def f32Exp (q : ℚ) : ℤ := if 1 ≤ q then expUp 150 0 q else expDown 200 0 q

/-- Round a rational to the nearest integer, ties to even. -/
def roundHalfEven (m : ℚ) : ℤ :=
  let fl := ⌊m⌋
  let fr := m - fl
  if fr < 1 / 2 then fl
  else if 1 / 2 < fr then fl + 1
  else if fl % 2 = 0 then fl else fl + 1

/-- IEEE-754 `binary32` rounding (round to nearest, ties to even) of a
nonnegative rational in the normal range: keep a 24-bit significand. -/
def roundF32 (q : ℚ) : ℚ :=
  if q ≤ 0 then 0
  else
    let e := f32Exp q
    (roundHalfEven (q / qpow2 (e - 23)) : ℚ) * qpow2 (e - 23)

/-- `n as f32`. -/
def toF32 (n : ℕ) : ℚ := roundF32 (n : ℚ)

/-- `f32` division: round the exact quotient. -/
def f32div (a b : ℚ) : ℚ := roundF32 (a / b)

/-- `f32` multiplication: round the exact product. -/
def f32mul (a b : ℚ) : ℚ := roundF32 (a * b)

/-- The chunk count computed by both `Encoder::new` and `Decoder::new`:
`((len as f32) / blocksize as f32).ceil() as usize`. -/
def cntBlocksF32 (len blocksize : ℕ) : ℕ :=
  (⌈f32div (toF32 len) (toF32 blocksize)⌉).toNat

/-- Exact integer ceiling `⌈a / b⌉`, the quantity the specification means. -/
def cdiv (a b : ℕ) : ℕ := (a + b - 1) / b

/-! ### Evaluation lemmas for the `f32` model -/

theorem qpow2_eq_zpow (e : ℤ) : qpow2 e = (2 : ℚ) ^ e := by
  cases e with
  | ofNat n => simp [qpow2]
  | negSucc n => simp [qpow2, zpow_negSucc, one_div]

theorem qpow2_pos (e : ℤ) : 0 < qpow2 e := by
  rw [qpow2_eq_zpow]; positivity

theorem qpow2_lt_qpow2 {a b : ℤ} (h : a < b) : qpow2 a < qpow2 b := by
  rw [qpow2_eq_zpow, qpow2_eq_zpow]
  exact zpow_lt_zpow_right₀ one_lt_two h

theorem qpow2_le_qpow2 {a b : ℤ} (h : a ≤ b) : qpow2 a ≤ qpow2 b := by
  rcases lt_or_eq_of_le h with h | h
  · exact le_of_lt (qpow2_lt_qpow2 h)
  · rw [h]

theorem le_of_qpow2_le {a b : ℤ} (h : qpow2 a ≤ qpow2 b) : a ≤ b := by
  by_contra hab
  exact absurd h (not_le.2 (qpow2_lt_qpow2 (lt_of_not_le hab)))

theorem qpow2_mul_qpow2 (a b : ℤ) : qpow2 a * qpow2 b = qpow2 (a + b) := by
  rw [qpow2_eq_zpow, qpow2_eq_zpow, qpow2_eq_zpow]
  exact (zpow_add₀ two_ne_zero a b).symm

theorem expUp_spec (q : ℚ) :
    ∀ (fuel : ℕ) (e : ℤ), qpow2 e ≤ q → q < qpow2 (e + fuel) →
      qpow2 (expUp fuel e q) ≤ q ∧ q < qpow2 (expUp fuel e q + 1) := by
  intro fuel
  induction fuel with
  | zero =>
    intro e h1 h2
    rw [Nat.cast_zero, add_zero] at h2
    exact absurd h1 (not_le.2 h2)
  | succ n ih =>
    intro e h1 h2
    rw [expUp]
    by_cases h : qpow2 (e + 1) ≤ q
    · rw [if_pos h]
      refine ih (e + 1) h ?_
      have : e + 1 + (n : ℤ) = e + ((n : ℕ) + 1 : ℕ) := by push_cast; ring
      rw [this]; exact h2
    · rw [if_neg h]
      exact ⟨h1, lt_of_not_le h⟩

theorem expDown_spec (q : ℚ) :
    ∀ (fuel : ℕ) (e : ℤ), qpow2 (e - fuel) ≤ q → q < qpow2 (e + 1) →
      qpow2 (expDown fuel e q) ≤ q ∧ q < qpow2 (expDown fuel e q + 1) := by
  intro fuel
  induction fuel with
  | zero =>
    intro e h1 h2
    rw [Nat.cast_zero, sub_zero] at h1
    rw [expDown]
    exact ⟨h1, h2⟩
  | succ n ih =>
    intro e h1 h2
    rw [expDown]
    by_cases h : q < qpow2 e
    · rw [if_pos h]
      refine ih (e - 1) ?_ (by rw [sub_add_cancel]; exact h)
      have : e - 1 - (n : ℤ) = e - ((n : ℕ) + 1 : ℕ) := by push_cast; ring
      rw [this]; exact h1
    · rw [if_neg h]
      exact ⟨le_of_not_lt h, h2⟩

theorem f32Exp_spec (q : ℚ) (h1 : qpow2 (-200) ≤ q) (h2 : q < qpow2 150) :
    qpow2 (f32Exp q) ≤ q ∧ q < qpow2 (f32Exp q + 1) := by
  rw [f32Exp]
  by_cases h : 1 ≤ q
  · rw [if_pos h]
    refine expUp_spec q 150 0 ?_ (by simpa using h2)
    simpa [qpow2] using h
  · rw [if_neg h]
    refine expDown_spec q 200 0 (by simpa using h1) ?_
    calc q < 1 := lt_of_not_le h
    _ ≤ qpow2 (0 + 1) := by rw [zero_add, qpow2_eq_zpow]; norm_num

theorem roundHalfEven_intCast (k : ℤ) : roundHalfEven (k : ℚ) = k := by
  rw [roundHalfEven]
  simp [Int.floor_intCast]

theorem roundHalfEven_err (m : ℚ) : |((roundHalfEven m : ℤ) : ℚ) - m| ≤ 1 / 2 := by
  have hfl : (⌊m⌋ : ℚ) ≤ m := Int.floor_le m
  have hfl2 : m < (⌊m⌋ : ℚ) + 1 := Int.lt_floor_add_one m
  rw [roundHalfEven]
  by_cases hlt : m - (⌊m⌋ : ℚ) < 1 / 2
  · rw [if_pos hlt]
    rw [abs_le]
    constructor <;> linarith
  · rw [if_neg hlt]
    by_cases hgt : 1 / 2 < m - (⌊m⌋ : ℚ)
    · rw [if_pos hgt]
      rw [abs_le]
      push_cast
      constructor <;> linarith
    · rw [if_neg hgt]
      have heq : m - (⌊m⌋ : ℚ) = 1 / 2 := le_antisymm (le_of_not_lt hgt) (le_of_not_lt hlt)
      by_cases hpar : ⌊m⌋ % 2 = 0
      · rw [if_pos hpar, abs_le]
        constructor <;> linarith
      · rw [if_neg hpar, abs_le]
        push_cast
        constructor <;> linarith

theorem roundF32_of_pos {q : ℚ} (h : 0 < q) :
    roundF32 q =
      ((roundHalfEven (q / qpow2 (f32Exp q - 23)) : ℤ) : ℚ) * qpow2 (f32Exp q - 23) := by
  rw [roundF32, if_neg (not_le.2 h)]

theorem roundF32_err {q : ℚ} (h : 0 < q) :
    |roundF32 q - q| ≤ qpow2 (f32Exp q - 24) := by
  rw [roundF32_of_pos h]
  set e := f32Exp q with he
  set m := q / qpow2 (e - 23) with hm
  have hq : q = m * qpow2 (e - 23) := by
    rw [hm, div_mul_cancel₀]
    exact ne_of_gt (qpow2_pos _)
  calc |((roundHalfEven m : ℤ) : ℚ) * qpow2 (e - 23) - q|
      = |(((roundHalfEven m : ℤ) : ℚ) - m) * qpow2 (e - 23)| := by rw [hq]; ring_nf
    _ = |((roundHalfEven m : ℤ) : ℚ) - m| * qpow2 (e - 23) := by
        rw [abs_mul, abs_of_pos (qpow2_pos _)]
    _ ≤ (1 / 2) * qpow2 (e - 23) := by
        exact mul_le_mul_of_nonneg_right (roundHalfEven_err m) (le_of_lt (qpow2_pos _))
    _ = qpow2 (e - 24) := by
        have h12 : (1 / 2 : ℚ) = qpow2 (-1) := by rw [qpow2_eq_zpow]; norm_num
        rw [h12, qpow2_mul_qpow2]; ring_nf

theorem roundF32_exact {q : ℚ} (h : 0 < q) (k : ℤ)
    (hk : q = (k : ℚ) * qpow2 (f32Exp q - 23)) : roundF32 q = q := by
  rw [roundF32_of_pos h]
  have hne : qpow2 (f32Exp q - 23) ≠ 0 := ne_of_gt (qpow2_pos _)
  have hdq : q / qpow2 (f32Exp q - 23) = (k : ℚ) := (div_eq_iff hne).2 hk
  rw [hdq, roundHalfEven_intCast, ← hk]

theorem qpow2_natCast (n : ℕ) : qpow2 (n : ℤ) = ((2 ^ n : ℕ) : ℚ) := rfl

theorem f32Exp_eq (q : ℚ) (n : ℤ) (h1 : qpow2 n ≤ q) (h2 : q < qpow2 (n + 1))
    (hn1 : -200 ≤ n) (hn2 : n + 1 ≤ 150) : f32Exp q = n := by
  have hlo : qpow2 (-200) ≤ q := le_trans (qpow2_le_qpow2 hn1) h1
  have hhi : q < qpow2 150 := lt_of_lt_of_le h2 (qpow2_le_qpow2 hn2)
  obtain ⟨g1, g2⟩ := f32Exp_spec q hlo hhi
  have ha : f32Exp q < n + 1 := by
    by_contra hc
    exact absurd (le_trans (qpow2_le_qpow2 (le_of_not_lt hc)) g1) (not_le.2 h2)
  have hb : n < f32Exp q + 1 := by
    by_contra hc
    exact absurd (le_trans (qpow2_le_qpow2 (le_of_not_lt hc)) h1) (not_le.2 g2)
  omega

theorem qpow2_eval (n : ℕ) : qpow2 (n : ℤ) = (2 : ℚ) ^ n := by
  rw [qpow2_eq_zpow, zpow_natCast]

theorem qpow2_zero : qpow2 0 = 1 := by
  rw [qpow2_eq_zpow, zpow_zero]

theorem one_le_qpow2 {e : ℤ} (h : 0 ≤ e) : 1 ≤ qpow2 e := by
  have h2 : qpow2 0 ≤ qpow2 e := qpow2_le_qpow2 h
  rw [qpow2_zero] at h2
  exact h2

theorem qpow2_le_one {e : ℤ} (h : e ≤ 0) : qpow2 e ≤ 1 := by
  have h2 : qpow2 e ≤ qpow2 0 := qpow2_le_qpow2 h
  rw [qpow2_zero] at h2
  exact h2

theorem roundF32_nat_exact (n : ℕ) (h : n ≤ 2 ^ 24) : roundF32 (n : ℚ) = n := by
  rcases Nat.eq_zero_or_pos n with h0 | h0
  · subst h0; simp [roundF32]
  have hq : (0 : ℚ) < n := by exact_mod_cast h0
  have hsup : (n : ℚ) ≤ qpow2 ((24 : ℕ) : ℤ) := by
    rw [qpow2_eval]
    exact_mod_cast h
  have hlo : qpow2 (-200) ≤ (n : ℚ) := by
    have h1 : qpow2 (-200) ≤ 1 := qpow2_le_one (by norm_num)
    have h2 : (1 : ℚ) ≤ n := by exact_mod_cast h0
    linarith
  have hhi : (n : ℚ) < qpow2 150 :=
    lt_of_le_of_lt hsup (qpow2_lt_qpow2 (by omega))
  obtain ⟨g1, g2⟩ := f32Exp_spec (n : ℚ) hlo hhi
  set e := f32Exp (n : ℚ) with he
  have he24 : e ≤ ((24 : ℕ) : ℤ) := le_of_qpow2_le (le_trans g1 hsup)
  rcases lt_or_eq_of_le he24 with he23 | he23
  · refine roundF32_exact hq ((n : ℤ) * 2 ^ (23 - e).toNat) ?_
    have h23 : e ≤ 23 := by push_cast at he23; omega
    have ht : ((23 - e).toNat : ℤ) = 23 - e := Int.toNat_of_nonneg (by omega)
    rw [← he]
    push_cast
    rw [show ((2 : ℚ) ^ (23 - e).toNat = qpow2 (((23 - e).toNat : ℕ) : ℤ)) from
      (qpow2_eval _).symm]
    rw [mul_assoc, qpow2_mul_qpow2, ht]
    have hz : 23 - e + (e - 23) = 0 := by ring
    rw [hz, qpow2_zero, mul_one]
  · have hn : (n : ℚ) = qpow2 ((24 : ℕ) : ℤ) := le_antisymm hsup (by rw [← he23]; exact g1)
    refine roundF32_exact hq (2 ^ 23) ?_
    rw [← he, hn, he23]
    rw [show (((2 ^ 23 : ℤ) : ℚ) = qpow2 ((23 : ℕ) : ℤ)) from by rw [qpow2_eval]; push_cast; ring]
    rw [qpow2_mul_qpow2]
    congr 1

theorem toF32_exact (n : ℕ) (h : n ≤ 2 ^ 24) : toF32 n = n := roundF32_nat_exact n h

theorem ceil_natCast_div (a b : ℕ) (hb : 1 ≤ b) : ⌈(a : ℚ) / b⌉ = (cdiv a b : ℤ) := by
  have hb0 : (0 : ℚ) < b := by exact_mod_cast hb
  have hmod := Nat.div_add_mod (a + b - 1) b
  have hlt : (a + b - 1) % b < b := Nat.mod_lt _ hb
  set p := b * ((a + b - 1) / b) with hp
  have h1 : a ≤ p := by omega
  have h2 : p < a + b := by omega
  have hpc : (p : ℚ) = (b : ℚ) * (cdiv a b : ℚ) := by
    rw [hp, cdiv]; push_cast; ring
  have h1q : (a : ℚ) ≤ (b : ℚ) * (cdiv a b : ℚ) := by
    rw [← hpc]; exact_mod_cast h1
  have h2q : (b : ℚ) * (cdiv a b : ℚ) < (a : ℚ) + b := by
    rw [← hpc]; exact_mod_cast h2
  rw [Int.ceil_eq_iff]
  constructor
  · rw [show (((cdiv a b : ℤ) : ℚ)) = ((cdiv a b : ℕ) : ℚ) from by push_cast; ring]
    have hsum : (a : ℚ) / b + 1 = ((a : ℚ) + b) / b := by field_simp
    rw [sub_lt_iff_lt_add, hsum, lt_div_iff₀ hb0]
    nlinarith [h2q]
  · rw [show (((cdiv a b : ℤ) : ℚ)) = ((cdiv a b : ℕ) : ℚ) from by push_cast; ring]
    rw [div_le_iff₀ hb0]
    nlinarith [h1q]

theorem roundF32_zero : roundF32 0 = 0 := by simp [roundF32]

set_option maxHeartbeats 1000000 in
/-- For payload lengths and blocksizes up to `2 ^ 12` the `f32` computation of
the chunk count agrees with the exact integer ceiling. -/
theorem cntBlocksF32_small (len B : ℕ) (hB : 1 ≤ B) (hlen : len ≤ 2 ^ 12)
    (hBB : B ≤ 2 ^ 12) : cntBlocksF32 len B = cdiv len B := by
  have hB0 : (0 : ℚ) < B := by exact_mod_cast hB
  have hBne : (B : ℚ) ≠ 0 := ne_of_gt hB0
  have h24l : len ≤ 2 ^ 24 := by omega
  have h24B : B ≤ 2 ^ 24 := by omega
  rcases Nat.eq_zero_or_pos len with hl0 | hl0
  · subst hl0
    rw [cntBlocksF32, toF32, Nat.cast_zero, roundF32_zero, f32div, zero_div,
      roundF32_zero, Int.ceil_zero, Int.toNat_zero, cdiv]
    have hd0 : (0 + B - 1) / B = 0 := Nat.div_eq_of_lt (by omega)
    omega
  rw [cntBlocksF32, toF32_exact len h24l, toF32_exact B h24B, f32div]
  obtain ⟨q, hq⟩ : ∃ x : ℚ, x = (len : ℚ) / B := ⟨_, rfl⟩
  rw [← hq]
  have hq0 : 0 < q := by rw [hq]; exact div_pos (by exact_mod_cast hl0) hB0
  suffices hckl : ⌈roundF32 q⌉ = (cdiv len B : ℤ) by
    rw [hckl]; exact Int.toNat_natCast _
  by_cases hdvd : B ∣ len
  · -- exact quotient, `roundF32` is the identity on it
    have hcast : ((len / B : ℕ) : ℚ) = q := by
      rw [hq, Nat.cast_div hdvd hBne]
    have hrq : roundF32 q = q := by
      rw [← hcast]
      exact roundF32_nat_exact _ (by
        have := Nat.div_le_self len B
        omega)
    rw [hrq, hq, ceil_natCast_div len B hB]
  · -- strict fractional part of at least 1/B on both sides
    obtain ⟨t, s, hts, hs1, hsB⟩ : ∃ t s, len = B * t + s ∧ 1 ≤ s ∧ s < B := by
      refine ⟨len / B, len % B, (Nat.div_add_mod len B).symm, ?_, Nat.mod_lt _ hB⟩
      rcases Nat.eq_zero_or_pos (len % B) with h | h
      · exact absurd (Nat.dvd_of_mod_eq_zero h) hdvd
      · exact h
    have hb1 : (1 : ℚ) ≤ B := by exact_mod_cast hB
    have hl1 : (1 : ℚ) ≤ len := by exact_mod_cast hl0
    have hql : q ≤ (len : ℚ) := by
      rw [hq, div_le_iff₀ hB0]
      nlinarith
    have hlen2 : (len : ℚ) ≤ qpow2 ((12 : ℕ) : ℤ) := by
      rw [qpow2_eval]
      exact_mod_cast hlen
    have hBle : (B : ℚ) ≤ qpow2 ((12 : ℕ) : ℤ) := by
      rw [qpow2_eval]
      exact_mod_cast hBB
    have hqlt : q < qpow2 ((12 : ℕ) : ℤ) := by
      rcases lt_or_eq_of_le (le_trans hql hlen2) with h | h
      · exact h
      · -- q = 2 ^ 12 would force B = 1, contradicting non-divisibility
        exfalso
        have hlq : (len : ℚ) = q * B := by rw [hq, div_mul_cancel₀ _ hBne]
        have hqB : qpow2 ((12 : ℕ) : ℤ) * (B : ℚ) ≤ qpow2 ((12 : ℕ) : ℤ) := by
          calc qpow2 ((12 : ℕ) : ℤ) * (B : ℚ) = q * B := by rw [h]
          _ = (len : ℚ) := hlq.symm
          _ ≤ qpow2 ((12 : ℕ) : ℤ) := hlen2
        have hBeq : (B : ℚ) = 1 := by nlinarith [qpow2_pos (((12 : ℕ) : ℤ))]
        have hBn : B = 1 := by exact_mod_cast hBeq
        subst hBn
        exact hdvd (one_dvd len)
    have hqlo : qpow2 (-200) ≤ q := by
      have h1B : qpow2 (-200) ≤ 1 / (B : ℚ) := by
        rw [le_div_iff₀ hB0]
        calc qpow2 (-200) * B ≤ qpow2 (-200) * qpow2 ((12 : ℕ) : ℤ) := by
              nlinarith [qpow2_pos (-200 : ℤ), hBle]
        _ = qpow2 (-200 + ((12 : ℕ) : ℤ)) := qpow2_mul_qpow2 _ _
        _ ≤ 1 := qpow2_le_one (by omega)
      have h2B : 1 / (B : ℚ) ≤ q := by
        rw [hq, div_le_div_iff hB0 hB0]
        nlinarith
      linarith
    have hqhi : q < qpow2 150 :=
      lt_of_lt_of_le hqlt (qpow2_le_qpow2 (by omega))
    obtain ⟨g1, g2⟩ := f32Exp_spec q hqlo hqhi
    obtain ⟨e, he⟩ : ∃ x : ℤ, x = f32Exp q := ⟨_, rfl⟩
    rw [← he] at g1 g2
    have he11 : e ≤ 11 := by
      have h12 : e < ((12 : ℕ) : ℤ) := by
        by_contra hc
        exact absurd (le_trans (qpow2_le_qpow2 (le_of_not_lt hc)) g1) (not_le.2 hqlt)
      push_cast at h12
      omega
    have herr := roundF32_err hq0
    rw [← he] at herr
    have hdel : qpow2 (e - 24) < 1 / (B : ℚ) := by
      have h1 : qpow2 (e - 24) ≤ qpow2 (-13) := qpow2_le_qpow2 (by omega)
      have h2 : qpow2 (-13) < 1 / (B : ℚ) := by
        rw [lt_div_iff₀ hB0]
        calc qpow2 (-13) * B ≤ qpow2 (-13) * qpow2 ((12 : ℕ) : ℤ) := by
              nlinarith [qpow2_pos (-13 : ℤ), hBle]
        _ = qpow2 (-13 + ((12 : ℕ) : ℤ)) := qpow2_mul_qpow2 _ _
        _ < 1 := by
              have h3 : qpow2 (-13 + ((12 : ℕ) : ℤ)) < qpow2 0 :=
                qpow2_lt_qpow2 (by omega)
              rw [qpow2_zero] at h3
              exact h3
      exact lt_of_le_of_lt h1 h2
    -- floor and ceiling of q in terms of t and s
    have hts2 : (len : ℚ) = B * t + s := by exact_mod_cast hts
    have hqt : q - t = (s : ℚ) / B := by
      rw [hq, hts2]
      field_simp
      try ring
    have hgap1 : (1 : ℚ) / B ≤ q - t := by
      rw [hqt, div_le_div_iff hB0 hB0]
      have hs1q : (1 : ℚ) ≤ s := by exact_mod_cast hs1
      nlinarith
    have hgap2 : (1 : ℚ) / B ≤ (t + 1) - q := by
      have hsplit : (t : ℚ) + 1 - q = ((B : ℚ) - s) / B := by
        have hqt2 : q = (t : ℚ) + (s : ℚ) / B := by linarith [hqt]
        rw [hqt2]
        field_simp
        ring
      rw [hsplit, div_le_div_iff hB0 hB0]
      have hsBq : (s : ℚ) + 1 ≤ B := by exact_mod_cast hsB
      nlinarith
    have hBinv : (0 : ℚ) < 1 / B := div_pos (by norm_num) hB0
    have habs := abs_le.1 herr
    have hcd : cdiv len B = t + 1 := by
      rw [cdiv]
      have hsplit : len + B - 1 = B * t + (s - 1) + B := by omega
      rw [hsplit]
      rw [Nat.add_div_right _ (by omega), Nat.mul_add_div (by omega)]
      have hzero : (s - 1) / B = 0 := Nat.div_eq_of_lt (by omega)
      omega
    have hfin : ⌈roundF32 q⌉ = (t : ℤ) + 1 := by
      rw [Int.ceil_eq_iff]
      constructor
      · push_cast
        nlinarith [hgap1, hdel, habs.1]
      · push_cast
        nlinarith [hgap2, hdel, habs.2]
    rw [hfin, hcd]
    push_cast
    ring

theorem toF32_pow24succ : toF32 16777217 = 16777216 := by
  have hq : ((16777217 : ℕ) : ℚ) = (16777217 : ℚ) := by norm_num
  rw [toF32, hq]
  have hfe : f32Exp (16777217 : ℚ) = ((24 : ℕ) : ℤ) := by
    apply f32Exp_eq
    · rw [qpow2_eval]; norm_num
    · rw [show ((24 : ℕ) : ℤ) + 1 = ((25 : ℕ) : ℤ) from by omega, qpow2_eval]; norm_num
    · omega
    · omega
  rw [roundF32_of_pos (by norm_num), hfe]
  rw [show ((24 : ℕ) : ℤ) - 23 = ((1 : ℕ) : ℤ) from by omega, qpow2_eval]
  have hfl : ⌊(16777217 : ℚ) / 2 ^ (1 : ℕ)⌋ = 8388608 := by
    rw [Int.floor_eq_iff]
    constructor <;> norm_num
  have hrhe : roundHalfEven ((16777217 : ℚ) / 2 ^ (1 : ℕ)) = 8388608 := by
    simp only [roundHalfEven, hfl]
    norm_num
  rw [hrhe]
  norm_num

/-- C2: at `len = 2^24 + 1 = 16777217` and `blocksize = 1` the `f32`-based
chunk count of `Encoder::new` and `Decoder::new` evaluates to `16777216`, one
less than the exact integer ceiling `16777217`: `len as f32` rounds
`2^24 + 1` to `2^24` (ties to even), so the exact-ceiling property claimed
for every `L ≥ 1, B ≥ 1` fails on the code at this input. -/
theorem C2_chunk_count_f32_slip :
    cntBlocksF32 16777217 1 = 16777216 ∧ cdiv 16777217 1 = 16777217 := by
  constructor
  · rw [cntBlocksF32, toF32_pow24succ, toF32_exact 1 (by norm_num), f32div,
      Nat.cast_one, div_one]
    have h1 : roundF32 (16777216 : ℚ) = ((16777216 : ℕ) : ℚ) := by
      rw [show (16777216 : ℚ) = ((16777216 : ℕ) : ℚ) from by norm_num]
      exact roundF32_nat_exact _ (by norm_num)
    rw [h1, Int.ceil_natCast]
    simp
  · rw [cdiv]

/-! ### The degree samplers

`IdealSoliton` (src/soliton.rs) used by the encoder, and `Soliton`
(src/lib.rs).  The `f32` draw `y` is passed in explicitly (it comes from the
sampler's own seeded `StdRng`, an external dependency), and the arithmetic on
it is idealized as exact rational arithmetic. -/

/-- `(1.0 / y).ceil() as usize` (saturating cast). For `y = 0` the source
computes `inf as usize`, which saturates; the surrounding branch of
`IdealSoliton::next` never reaches that case when `limit > 0`. -/
def invCeilUsize (y : ℚ) : ℕ :=
  if y = 0 then 2 ^ 64 - 1 else min (⌈1 / y⌉).toNat (2 ^ 64 - 1)

/-- `IdealSoliton::next` with limit `l` on the uniform draw `y`:
`if y >= limit { ceil(1/y) } else { 1 }`.  There is no clamping of results
exceeding the chunk count in this sampler. -/
def idealSolitonNext (l y : ℚ) : ℕ :=
  if l ≤ y then invCeilUsize y else 1

/-- The limit stored by `IdealSoliton::new(k, seed)`: `1.0 / (k as f32)`,
idealized as the exact rational. -/
def idealSolitonLimit (k : ℕ) : ℚ := 1 / (k : ℚ)

/-- `(1.0 / x).ceil() as u32` (saturating cast); `x = 0` gives `inf as u32`,
which saturates to `u32::MAX`. -/
def invCeilU32 (x : ℚ) : ℕ :=
  if x = 0 then 2 ^ 32 - 1 else min (⌈1 / x⌉).toNat (2 ^ 32 - 1)

/-- `Soliton::next` (src/lib.rs) with chunk count `n` on the uniform draw `x`:
the inverse-CDF result is clamped to 1 whenever it exceeds `n`. -/
def solitonNext (n : ℕ) (x : ℚ) : ℕ :=
  if invCeilU32 x ≤ n then invCeilU32 x else 1

/-! ### The neighbor-set generator -/

/-- Model of the word stream of the external `rand` crate's `StdRng` seeded by
`seed` (`SeedableRng::from_seed(&[seed])`): a fixed, deterministic function of
the seed alone.  The exact Isaac64 values are external to this repository; no
theorem depends on them. -/
def stdRngWords (seed : ℕ) : ℕ → ℕ :=
  fun i => (2654435761 * (seed + i) + 104729) % 2 ^ 32

/-- The replacement loop of `rand::sample` (rand 0.3 reservoir sampling):
for the `i`-th remaining element `elem`, draw `k = gen_range(0, i+1+amount)`
and replace `reservoir[k]` if `k` is in range. -/
def sampleLoop (rng : ℕ → ℕ) (amount : ℕ) : List ℕ → ℕ → List ℕ → List ℕ
  | res, _, [] => res
  | res, i, elem :: rest =>
    let k := rng i % (i + 1 + amount)
    sampleLoop rng amount (if k < res.length then res.set k elem else res) (i + 1) rest

/-- `rand::sample(&mut rng, 0..n, amount)` (rand 0.3): fill the reservoir with
the first `min amount n` elements of `0..n`, then run the replacement loop over
the remaining elements. -/
def rngSample (rng : ℕ → ℕ) (n amount : ℕ) : List ℕ :=
  sampleLoop rng amount ((List.range n).take amount) 0 ((List.range n).drop amount)

/-- `get_sample_from_rng_by_seed(seed, n, degree)`: seed a fresh `StdRng` from
`seed` alone and reservoir-sample `degree` elements of `0..n`. -/
def get_sample_from_rng_by_seed (seed n degree : ℕ) : List ℕ :=
  rngSample (stdRngWords seed) n degree

/-! ### Bounds for the degree samplers -/

theorem invCeilUsize_pos {y : ℚ} (hy0 : 0 < y) (hy1 : y < 1) : 1 ≤ invCeilUsize y := by
  rw [invCeilUsize, if_neg (ne_of_gt hy0)]
  refine le_min ?_ (by norm_num)
  have h1 : (0 : ℚ) < 1 / y := by positivity
  have h2 : 0 < ⌈1 / y⌉ := Int.ceil_pos.2 h1
  omega

theorem invCeilUsize_le {k : ℕ} {y : ℚ} (hy0 : 0 < y) (hk : 1 / k ≤ y) (hkk : 1 ≤ k) :
    invCeilUsize y ≤ k := by
  rw [invCeilUsize, if_neg (ne_of_gt hy0)]
  have hk0 : (0 : ℚ) < k := by exact_mod_cast hkk
  have hinv : 1 / y ≤ k := by
    rw [div_le_iff₀ hy0]
    have h2 : 1 / (k : ℚ) * k ≤ y * k := by
      apply mul_le_mul_of_nonneg_right hk (le_of_lt hk0)
    rw [one_div, inv_mul_cancel₀ (ne_of_gt hk0)] at h2
    nlinarith
  have hceil : ⌈1 / y⌉ ≤ (k : ℤ) := Int.ceil_le.2 hinv
  have htn : (⌈1 / y⌉).toNat ≤ k := by omega
  exact le_trans (min_le_left _ _) htn

theorem idealSolitonNext_bounds {k : ℕ} (hk : 1 ≤ k) {y : ℚ} (hy0 : 0 ≤ y) (hy1 : y < 1) :
    1 ≤ idealSolitonNext (idealSolitonLimit k) y ∧
      idealSolitonNext (idealSolitonLimit k) y ≤ k := by
  rw [idealSolitonNext, idealSolitonLimit]
  have hk0 : (0 : ℚ) < k := by exact_mod_cast hk
  by_cases h : 1 / (k : ℚ) ≤ y
  · rw [if_pos h]
    have hy0' : 0 < y := lt_of_lt_of_le (by positivity) h
    exact ⟨invCeilUsize_pos hy0' hy1, invCeilUsize_le hy0' h hk⟩
  · rw [if_neg h]
    exact ⟨le_refl 1, hk⟩

theorem invCeilU32_pos (x : ℚ) (hx0 : 0 ≤ x) (hx1 : x < 1) : 1 ≤ invCeilU32 x := by
  rw [invCeilU32]
  by_cases h : x = 0
  · rw [if_pos h]; norm_num
  · rw [if_neg h]
    refine le_min ?_ (by norm_num)
    have hx0' : 0 < x := lt_of_le_of_ne hx0 (Ne.symm h)
    have h1 : (0 : ℚ) < 1 / x := by positivity
    have h2 : 0 < ⌈1 / x⌉ := Int.ceil_pos.2 h1
    omega

theorem solitonNext_bounds (n : ℕ) (hn : 1 ≤ n) (x : ℚ) (hx0 : 0 ≤ x) (hx1 : x < 1) :
    1 ≤ solitonNext n x ∧ solitonNext n x ≤ n := by
  rw [solitonNext]
  by_cases h : invCeilU32 x ≤ n
  · rw [if_pos h]
    exact ⟨invCeilU32_pos x hx0 hx1, h⟩
  · rw [if_neg h]
    exact ⟨le_refl 1, hn⟩

/-! ### Distinctness and range of the reservoir sample -/

theorem sampleLoop_length (rng : ℕ → ℕ) (amount : ℕ) :
    ∀ (rest res : List ℕ) (i : ℕ), (sampleLoop rng amount res i rest).length = res.length := by
  intro rest
  induction rest with
  | nil => intro res i; rfl
  | cons a t ih =>
    intro res i
    simp only [sampleLoop]
    rw [ih]
    split <;> simp [List.length_set]

theorem nodup_set_of_not_mem {l : List ℕ} {e : ℕ} (h : l.Nodup) (he : e ∉ l) (k : ℕ) :
    (l.set k e).Nodup := by
  induction l generalizing k with
  | nil => simp
  | cons a t ih =>
    cases k with
    | zero =>
      simp only [List.set]
      rw [List.nodup_cons] at h ⊢
      exact ⟨fun hc => he (List.mem_cons_of_mem _ hc), h.2⟩
    | succ k =>
      simp only [List.set]
      rw [List.nodup_cons] at h ⊢
      constructor
      · intro hc
        rcases List.mem_or_eq_of_mem_set hc with h1 | h1
        · exact h.1 h1
        · exact he (by rw [← h1]; exact List.mem_cons_self a t)
      · exact ih h.2 (fun hc => he (List.mem_cons_of_mem _ hc)) k

theorem sampleLoop_nodup_bound (rng : ℕ → ℕ) (amount n : ℕ) :
    ∀ (rest res : List ℕ) (i : ℕ),
      res.Nodup → (∀ x ∈ res, x < n) →
      List.Pairwise (· < ·) rest → (∀ y ∈ rest, y < n) →
      (∀ x ∈ res, ∀ y ∈ rest, x < y) →
      (sampleLoop rng amount res i rest).Nodup ∧
        ∀ x ∈ sampleLoop rng amount res i rest, x < n := by
  intro rest
  induction rest with
  | nil =>
    intro res i h1 h2 _ _ _
    exact ⟨h1, h2⟩
  | cons a t ih =>
    intro res i h1 h2 h3 h4 h5
    have hmem := List.pairwise_cons.1 h3
    have hanotin : a ∉ res := fun hc => lt_irrefl a (h5 a hc a (List.mem_cons_self a t))
    simp only [sampleLoop]
    apply ih
    · split
      · exact nodup_set_of_not_mem h1 hanotin _
      · exact h1
    · intro x hx
      split at hx
      · rcases List.mem_or_eq_of_mem_set hx with h6 | h6
        · exact h2 x h6
        · rw [h6]; exact h4 a (List.mem_cons_self a t)
      · exact h2 x hx
    · exact hmem.2
    · exact fun y hy => h4 y (List.mem_cons_of_mem _ hy)
    · intro x hx y hy
      split at hx
      · rcases List.mem_or_eq_of_mem_set hx with h6 | h6
        · exact h5 x h6 y (List.mem_cons_of_mem _ hy)
        · rw [h6]; exact hmem.1 y hy
      · exact h5 x hx y (List.mem_cons_of_mem _ hy)

theorem rngSample_nodup_bound (rng : ℕ → ℕ) (n amount : ℕ) :
    (rngSample rng n amount).Nodup ∧ ∀ x ∈ rngSample rng n amount, x < n := by
  rw [rngSample]
  have hpw : List.Pairwise (· < ·) (List.range n) := List.pairwise_lt_range n
  have hsplit : (List.range n).take amount ++ (List.range n).drop amount = List.range n :=
    List.take_append_drop amount (List.range n)
  have hpw2 : List.Pairwise (· < ·) ((List.range n).take amount ++ (List.range n).drop amount) := by
    rw [hsplit]; exact hpw
  rw [List.pairwise_append] at hpw2
  apply sampleLoop_nodup_bound
  · exact (List.nodup_range n).sublist (List.take_sublist _ _)
  · exact fun x hx => List.mem_range.1 (List.take_subset _ _ hx)
  · exact hpw2.2.1
  · exact fun y hy => List.mem_range.1 (List.drop_subset _ _ hy)
  · exact hpw2.2.2

theorem rngSample_length (rng : ℕ → ℕ) (n amount : ℕ) :
    (rngSample rng n amount).length = min amount n := by
  rw [rngSample, sampleLoop_length]
  simp

theorem rngSample_of_le (rng : ℕ → ℕ) {n amount : ℕ} (h : n ≤ amount) :
    rngSample rng n amount = List.range n := by
  rw [rngSample, List.take_of_length_le (by simpa using h),
    List.drop_eq_nil_of_le (by simpa using h)]
  rfl

/-! ### The encoder (`src/ltcode.rs`) -/

inductive EncoderType
  | Systematic
  | Random
deriving DecidableEq

inductive DropType
  | Seeded (seed degree : ℕ)
  | Edges (edges : List ℕ)
deriving DecidableEq

/-- A droplet: descriptor plus payload bytes. -/
structure Droplet where
  droptype : DropType
  data : List ℕ
deriving DecidableEq

/-- `Encoder` state.  `rng` is the word stream of the OS-seeded
`StdRng::new()` (external entropy, passed explicitly, read at `rngPos`);
`solStream` is the `f32` draw stream of the `IdealSoliton`'s own `StdRng`,
seeded in the source from `rng.gen::<usize>()` — the seeded PRNG is external
to this repository, so its draw stream is likewise passed explicitly. -/
structure Encoder where
  data : List ℕ
  len : ℕ
  blocksize : ℕ
  rng : ℕ → ℕ
  rngPos : ℕ
  cnt_blocks : ℕ
  solStream : ℕ → ℚ
  solPos : ℕ
  solLimit : ℚ
  cnt : ℕ
  encodertype : EncoderType

/-- `Encoder::new(data, blocksize, encodertype)`.  `rngPos` starts at 1
because `rng.gen::<usize>()` is consumed to seed the soliton sampler. -/
def Encoder.new (data : List ℕ) (blocksize : ℕ) (encodertype : EncoderType)
    (rng : ℕ → ℕ) (solStream : ℕ → ℚ) : Encoder :=
  let len := data.length
  let cnt_blocks := cntBlocksF32 len blocksize
  { data := data, len := len, blocksize := blocksize, rng := rng, rngPos := 1,
    cnt_blocks := cnt_blocks, solStream := solStream, solPos := 0,
    solLimit := idealSolitonLimit cnt_blocks, cnt := 0, encodertype := encodertype }

/-- The inner loop of `Encoder::next`, Random arm:
`for i in k*B .. min((k+1)*B, len) { r[j] ^= data[i]; j += 1 }`. -/
def xorChunkInto (r data : List ℕ) (len blocksize k : ℕ) : List ℕ :=
  let b := k * blocksize
  let e := min ((k + 1) * blocksize) len
  zipXor (r.take (e - b)) ((data.drop b).take (e - b)) ++ r.drop (e - b)

/-- The inner loop of `Encoder::next`, Systematic arm: the raw chunk written
over `vec![0; blocksize]`. -/
def copyChunk (data : List ℕ) (len blocksize k : ℕ) : List ℕ :=
  let b := k * blocksize
  let e := min ((k + 1) * blocksize) len
  (data.drop b).take (e - b) ++ zeroes (blocksize - (e - b))

/-- `Encoder::next` (the `Iterator` impl): returns the droplet and the
advanced encoder. -/
def Encoder.next (en : Encoder) : Droplet × Encoder :=
  match en.encodertype with
  | EncoderType.Random =>
    let y := en.solStream en.solPos
    let degree := idealSolitonNext en.solLimit y
    let seed := en.rng en.rngPos % 2 ^ 32
    let sample := get_sample_from_rng_by_seed seed en.cnt_blocks degree
    let r := sample.foldl (fun r k => xorChunkInto r en.data en.len en.blocksize k)
      (zeroes en.blocksize)
    (⟨DropType.Seeded seed degree, r⟩,
      { en with solPos := en.solPos + 1, rngPos := en.rngPos + 1, cnt := en.cnt + 1 })
  | EncoderType.Systematic =>
    let r := copyChunk en.data en.len en.blocksize en.cnt
    let etype2 := if en.cnt + 2 > en.cnt_blocks then EncoderType.Random else en.encodertype
    (⟨DropType.Edges [en.cnt], r⟩,
      { en with encodertype := etype2, cnt := en.cnt + 1 })

/-! ### The decoder (`src/ltcode.rs`)

The `Vec<Block>` of the source is split into two parallel lists
(`blockKnown` for `is_known`, `blockEdges` for `edges`); `idx` and
`begin_at = blocksize * idx` are implicit in the position.  The shared
`Rc<RefCell<RxDroplet>>` cells are an arena: `drops` holds every droplet
ever caught, and blocks and the worklist refer to droplets by arena index.
Every Rust panic (indexing, `unwrap`) is `none`. -/

structure RxDroplet where
  edges_idx : List ℕ
  data : List ℕ
deriving DecidableEq

structure Statistics where
  cnt_droplets : ℕ
  cnt_chunks : ℕ
  overhead : ℚ
  unknown_chunks : ℕ
deriving DecidableEq

inductive CatchResult
  | Finished (data : List ℕ) (stats : Statistics)
  | Missing (stats : Statistics)
deriving DecidableEq

structure Decoder where
  total_length : ℕ
  blocksize : ℕ
  unknown_chunks : ℕ
  number_of_chunks : ℕ
  cnt_received_drops : ℕ
  blockKnown : List Bool
  blockEdges : List (List ℕ)
  drops : List RxDroplet
  data : List ℕ
deriving DecidableEq

/-- `Decoder::new(len, blocksize)`. -/
def Decoder.new (len blocksize : ℕ) : Decoder :=
  let number_of_chunks := cntBlocksF32 len blocksize
  { total_length := len, blocksize := blocksize,
    unknown_chunks := number_of_chunks, number_of_chunks := number_of_chunks,
    cnt_received_drops := 0,
    blockKnown := List.replicate number_of_chunks false,
    blockEdges := List.replicate number_of_chunks [],
    drops := [],
    data := zeroes (number_of_chunks * blocksize) }

/-- `for i in 0..B { dst[i] ^= src[off + i] }`; `none` is the out-of-bounds
panic. -/
def xorFromBuf (dst src : List ℕ) (off B : ℕ) : Option (List ℕ) :=
  if B ≤ dst.length ∧ off + B ≤ src.length then
    some (zipXor (dst.take B) ((src.drop off).take B) ++ dst.drop B)
  else none

/-- `for i in 0..B { buf[off + i] = src[i] }`; `none` is the out-of-bounds
panic. -/
def writeToBuf (buf src : List ℕ) (off B : ℕ) : Option (List ℕ) :=
  if off + B ≤ buf.length ∧ B ≤ src.length then
    some (buf.take off ++ src.take B ++ buf.drop (off + B))
  else none

/-- Replace the arena cell `id` (mutation through the `Rc<RefCell<_>>`). -/
def setDrop (s : Decoder) (id : ℕ) (d : RxDroplet) : Decoder :=
  { s with drops := s.drops.set id d }

/-- Step A of `process_droplet`: iterate over a snapshot of the droplet's
edges; XOR known chunks into the droplet and remove those edges, register the
droplet with the pending list of each unknown block. -/
def stepA (s : Decoder) (id : ℕ) : List ℕ → Option Decoder
  | [] => some s
  | ed :: rest =>
    match s.blockKnown[ed]? with
    | none => none
    | some known =>
      if known then
        match s.drops[id]? with
        | none => none
        | some d =>
          match xorFromBuf d.data s.data (ed * s.blocksize) s.blocksize with
          | none => none
          | some data2 =>
            if ed ∈ d.edges_idx then
              stepA (setDrop s id ⟨d.edges_idx.erase ed, data2⟩) id rest
            else none
      else
        match s.blockEdges[ed]? with
        | none => none
        | some lst =>
          stepA { s with blockEdges := s.blockEdges.set ed (lst ++ [id]) } id rest

/-- One iteration of the drain loop `while block.edges.len() > 0` inside the
resolution branch: the popped pending droplet is either pushed to the worklist
(if its remaining degree is 1) or has the fresh chunk XORed out of it; a
second result of `some eid` is a worklist push. -/
def drainStep (s : Decoder) (blk eid : ℕ) : Option (Decoder × Option ℕ) :=
  match s.drops[eid]? with
  | none => none
  | some e =>
    if e.edges_idx.length = 1 then some (s, some eid)
    else
      match xorFromBuf e.data s.data (blk * s.blocksize) s.blocksize with
      | none => none
      | some data2 =>
        if blk ∈ e.edges_idx then
          let edges2 := e.edges_idx.erase blk
          some (setDrop s eid ⟨edges2, data2⟩, if edges2.length = 1 then some eid else none)
        else none

/-- The drain loop over the (already reversed: the source pops from the end)
pending list of the freshly resolved block; `acc` collects worklist pushes,
newest first. -/
def drainList (blk : ℕ) : Decoder → List ℕ → List ℕ → Option (Decoder × List ℕ)
  | s, [], acc => some (s, acc)
  | s, eid :: rest, acc =>
    match drainStep s blk eid with
    | none => none
    | some (s2, push) =>
      drainList blk s2 rest (match push with | none => acc | some p => p :: acc)

/-- Number of chunks still unknown according to the block flags. -/
def countFalse (l : List Bool) : ℕ := l.count false

/-- The body of the main `loop` of `process_droplet` for one popped droplet:
step A, then the resolution attempt with its drain; the second component is
the list of worklist pushes (top of stack first). -/
def procOne (s : Decoder) (id : ℕ) : Option (Decoder × List ℕ) :=
  match s.drops[id]? with
  | none => none
  | some d0 =>
    match stepA s id d0.edges_idx with
    | none => none
    | some s1 =>
      match s1.drops[id]? with
      | none => none
      | some d =>
        if d.edges_idx.length = 1 then
          match d.edges_idx[0]? with
          | none => none
          | some fi =>
            match s1.blockKnown[fi]? with
            | none => none
            | some known =>
              if known then some (s1, [])
              else
                match writeToBuf s1.data d.data (fi * s1.blocksize) s1.blocksize with
                | none => none
                | some buf2 =>
                  let s2 : Decoder :=
                    { s1 with
                      data := buf2
                      blockKnown := s1.blockKnown.set fi true
                      unknown_chunks := s1.unknown_chunks - 1 }
                  match s2.blockEdges[fi]? with
                  | none => none
                  | some lst =>
                    drainList fi { s2 with blockEdges := s2.blockEdges.set fi [] }
                      lst.reverse []
        else some (s1, [])

/-! ### XOR algebra on byte vectors -/

theorem zipXor_length (a b : List ℕ) : (zipXor a b).length = min a.length b.length := by
  rw [zipXor, List.length_zipWith]

theorem zipXor_comm (a b : List ℕ) : zipXor a b = zipXor b a := by
  induction a generalizing b with
  | nil => cases b <;> rfl
  | cons x xs ih =>
    cases b with
    | nil => rfl
    | cons y ys =>
      rw [zipXor, zipXor, List.zipWith_cons_cons, List.zipWith_cons_cons]
      congr 1
      · exact Nat.xor_comm x y
      · exact ih ys

theorem zipXor_assoc (a b c : List ℕ) : zipXor (zipXor a b) c = zipXor a (zipXor b c) := by
  induction a generalizing b c with
  | nil => rfl
  | cons x xs ih =>
    cases b with
    | nil => rfl
    | cons y ys =>
      cases c with
      | nil => rfl
      | cons z zs =>
        simp only [zipXor, List.zipWith_cons_cons]
        congr 1
        · exact Nat.xor_assoc x y z
        · exact ih ys zs

theorem zipXor_self (a : List ℕ) : zipXor a a = zeroes a.length := by
  induction a with
  | nil => rfl
  | cons x xs ih =>
    rw [zipXor, List.zipWith_cons_cons, zeroes, List.length_cons, List.replicate_succ]
    congr 1
    exact Nat.xor_self x

theorem zipXor_zeroes_left {n : ℕ} {a : List ℕ} (h : a.length ≤ n) :
    zipXor (zeroes n) a = a := by
  induction a generalizing n with
  | nil => cases n <;> rfl
  | cons x xs ih =>
    cases n with
    | zero => exact absurd h (by simp)
    | succ n =>
      rw [zeroes, List.replicate_succ, zipXor, List.zipWith_cons_cons]
      congr 1
      · exact Nat.zero_xor x
      · exact ih (by simpa using h)

theorem zipXor_swap (a b c : List ℕ) : zipXor a (zipXor b c) = zipXor b (zipXor a c) := by
  rw [← zipXor_assoc, zipXor_comm a b, zipXor_assoc]

theorem zipXor_cancel {a : List ℕ} (b : List ℕ) (h : b.length ≤ a.length) :
    zipXor a (zipXor a b) = b := by
  rw [← zipXor_assoc, zipXor_self]
  exact zipXor_zeroes_left (le_trans h (le_refl _))

/-! ### Chunks of the payload -/

theorem copyChunk_length {P : List ℕ} {len : ℕ} (B k : ℕ) (h : len ≤ P.length) :
    (copyChunk P len B k).length = B := by
  rw [copyChunk]
  have hx : (k + 1) * B = k * B + B := by ring
  have h1 : min ((k + 1) * B) len - k * B ≤ B := by
    rcases Nat.le_total ((k + 1) * B) len with hc | hc
    · rw [min_eq_left hc]; omega
    · rw [min_eq_right hc]; omega
  simp only [List.length_append, List.length_take, List.length_drop, zeroes,
    List.length_replicate]
  omega

/-- XOR of the padded source chunks named by an edge list. -/
def xorChunks (P : List ℕ) (len B : ℕ) : List ℕ → List ℕ
  | [] => zeroes B
  | k :: rest => zipXor (copyChunk P len B k) (xorChunks P len B rest)

theorem xorChunks_length {P : List ℕ} {len : ℕ} (B : ℕ) (h : len ≤ P.length) :
    ∀ l : List ℕ, (xorChunks P len B l).length = B := by
  intro l
  induction l with
  | nil => simp [xorChunks, zeroes]
  | cons k rest ih =>
    rw [xorChunks, zipXor_length, copyChunk_length B k h, ih]
    simp

theorem xorChunks_erase {P : List ℕ} {len B : ℕ} (h : len ≤ P.length) :
    ∀ (l : List ℕ) (k : ℕ), k ∈ l →
      xorChunks P len B (l.erase k) = zipXor (copyChunk P len B k) (xorChunks P len B l) := by
  intro l
  induction l with
  | nil => intro k hk; simp at hk
  | cons a rest ih =>
    intro k hk
    by_cases hak : a = k
    · subst hak
      rw [List.erase_cons_head, xorChunks]
      rw [zipXor_cancel]
      rw [xorChunks_length B h, copyChunk_length B a h]
    · rw [List.erase_cons_tail (by simpa using hak)]
      have hk2 : k ∈ rest := by
        rcases List.mem_cons.1 hk with h1 | h1
        · exact absurd h1.symm hak
        · exact h1
      rw [xorChunks, ih k hk2, xorChunks, zipXor_swap]

/-! ### Shape preservation of the peeling steps -/

theorem stepA_pres : ∀ (lst : List ℕ) (s : Decoder) (id : ℕ) (s2 : Decoder),
    stepA s id lst = some s2 →
    s2.blockKnown = s.blockKnown ∧ s2.data = s.data ∧ s2.blocksize = s.blocksize ∧
      s2.number_of_chunks = s.number_of_chunks ∧ s2.total_length = s.total_length ∧
      s2.unknown_chunks = s.unknown_chunks ∧
      s2.cnt_received_drops = s.cnt_received_drops ∧
      s2.drops.length = s.drops.length ∧ s2.blockEdges.length = s.blockEdges.length := by
  intro lst
  induction lst with
  | nil =>
    intro s id s2 h
    rw [stepA] at h
    cases h
    exact ⟨rfl, rfl, rfl, rfl, rfl, rfl, rfl, rfl, rfl⟩
  | cons ed rest ih =>
    intro s id s2 h
    rw [stepA] at h
    split at h
    · exact absurd h (by simp)
    next known hbk =>
      split at h
      · -- known = true
        split at h
        · exact absurd h (by simp)
        next d hd =>
          split at h
          · exact absurd h (by simp)
          next data2 hx =>
            split at h
            · obtain ⟨p1, p2, p3, p4, p5, p6, p7, p8, p9⟩ := ih _ _ _ h
              refine ⟨p1, p2, p3, p4, p5, p6, p7, ?_, p9⟩
              rw [p8, setDrop, List.length_set]
            · exact absurd h (by simp)
      · -- known = false
        split at h
        · exact absurd h (by simp)
        next lst2 hbe =>
          obtain ⟨p1, p2, p3, p4, p5, p6, p7, p8, p9⟩ := ih _ _ _ h
          refine ⟨p1, p2, p3, p4, p5, p6, p7, p8, ?_⟩
          rw [p9, List.length_set]

theorem drainStep_pres {s : Decoder} {blk eid : ℕ} {s2 : Decoder} {push : Option ℕ}
    (h : drainStep s blk eid = some (s2, push)) :
    s2.blockKnown = s.blockKnown ∧ s2.data = s.data ∧ s2.blocksize = s.blocksize ∧
      s2.number_of_chunks = s.number_of_chunks ∧ s2.total_length = s.total_length ∧
      s2.unknown_chunks = s.unknown_chunks ∧
      s2.cnt_received_drops = s.cnt_received_drops ∧
      s2.drops.length = s.drops.length ∧ s2.blockEdges = s.blockEdges := by
  rw [drainStep] at h
  split at h
  · exact absurd h (by simp)
  next e he =>
    split at h
    · cases h
      exact ⟨rfl, rfl, rfl, rfl, rfl, rfl, rfl, rfl, rfl⟩
    · split at h
      · exact absurd h (by simp)
      next data2 hx =>
        split at h
        · cases h
          exact ⟨rfl, rfl, rfl, rfl, rfl, rfl, rfl, by rw [setDrop, List.length_set], rfl⟩
        · exact absurd h (by simp)

theorem drainList_pres : ∀ (lst : List ℕ) (s : Decoder) (blk : ℕ) (acc : List ℕ)
    (s2 : Decoder) (pushes : List ℕ),
    drainList blk s lst acc = some (s2, pushes) →
    s2.blockKnown = s.blockKnown ∧ s2.data = s.data ∧ s2.blocksize = s.blocksize ∧
      s2.number_of_chunks = s.number_of_chunks ∧ s2.total_length = s.total_length ∧
      s2.unknown_chunks = s.unknown_chunks ∧
      s2.cnt_received_drops = s.cnt_received_drops ∧
      s2.drops.length = s.drops.length ∧ s2.blockEdges = s.blockEdges := by
  intro lst
  induction lst with
  | nil =>
    intro s blk acc s2 pushes h
    rw [drainList] at h
    cases h
    exact ⟨rfl, rfl, rfl, rfl, rfl, rfl, rfl, rfl, rfl⟩
  | cons eid rest ih =>
    intro s blk acc s2 pushes h
    rw [drainList] at h
    split at h
    · exact absurd h (by simp)
    next s3 push hds =>
      obtain ⟨p1, p2, p3, p4, p5, p6, p7, p8, p9⟩ := ih _ _ _ _ _ h
      obtain ⟨q1, q2, q3, q4, q5, q6, q7, q8, q9⟩ := drainStep_pres hds
      exact ⟨p1.trans q1, p2.trans q2, p3.trans q3, p4.trans q4, p5.trans q5,
        p6.trans q6, p7.trans q7, p8.trans q8, p9.trans q9⟩

theorem countFalse_set_true : ∀ (l : List Bool) (i : ℕ), l[i]? = some false →
    countFalse (l.set i true) < countFalse l := by
  intro l
  induction l with
  | nil => intro i h; simp at h
  | cons a t ih =>
    intro i h
    cases i with
    | zero =>
      simp only [List.getElem?_cons_zero, Option.some.injEq] at h
      subst h
      simp [countFalse, List.count_cons]
    | succ i =>
      simp only [List.getElem?_cons_succ] at h
      have hlt := ih i h
      simp only [List.set, countFalse, List.count_cons] at hlt ⊢
      omega

/-- The measure argument of the peeling loop: each body either resolves a
fresh chunk or pushes nothing. -/
theorem procOne_dec {s : Decoder} {id : ℕ} {s2 : Decoder} {pushes : List ℕ}
    (h : procOne s id = some (s2, pushes)) :
    countFalse s2.blockKnown < countFalse s.blockKnown ∨
      (pushes = [] ∧ s2.blockKnown = s.blockKnown) := by
  rw [procOne] at h
  split at h
  · exact absurd h (by simp)
  next d0 hd0 =>
    split at h
    · exact absurd h (by simp)
    next s1 hstep =>
      obtain ⟨hbk1, -, -, -, -, -, -, -, -⟩ := stepA_pres _ _ _ _ hstep
      split at h
      · exact absurd h (by simp)
      next d hd =>
        split at h
        · -- remaining degree 1: resolution attempt
          split at h
          · exact absurd h (by simp)
          next fi hfi =>
            split at h
            · exact absurd h (by simp)
            next known hkn =>
              split at h
              · -- block already known: discard
                cases h
                exact Or.inr ⟨rfl, hbk1⟩
              next hnk =>
                split at h
                · exact absurd h (by simp)
                next buf2 hw =>
                  dsimp only at h
                  split at h
                  · exact absurd h (by simp)
                  next lst hbe =>
                    obtain ⟨hbk2, -, -, -, -, -, -, -, -⟩ := drainList_pres _ _ _ _ _ _ h
                    left
                    rw [hbk2, ← hbk1]
                    have hkf : known = false := by
                      cases known
                      · rfl
                      · exact absurd rfl hnk
                    subst hkf
                    exact countFalse_set_true _ _ hkn
        · -- remaining degree not 1: nothing pushed
          cases h
          exact Or.inr ⟨rfl, hbk1⟩

/-- The main `loop` of `process_droplet`, with the worklist explicit (head is
the top of the stack).  Terminates because every iteration either resolves a
chunk or shortens the worklist. -/
def procLoop (s : Decoder) (wl : List ℕ) : Option Decoder :=
  match wl with
  | [] => some s
  | id :: rest =>
    match h : procOne s id with
    | none => none
    | some (s2, pushes) => procLoop s2 (pushes ++ rest)
termination_by (countFalse s.blockKnown, wl.length)
decreasing_by
  rcases procOne_dec h with h1 | ⟨h2, h3⟩
  · exact Prod.Lex.left _ _ h1
  · rw [h2, h3]
    exact Prod.Lex.right _ (by simp)

/-- `Decoder::process_droplet`: allocate the droplet in the arena and run the
worklist loop on it. -/
def processDroplet (s : Decoder) (droplet : RxDroplet) : Option Decoder :=
  procLoop { s with drops := s.drops ++ [droplet] } [s.drops.length]

/-- The descriptor resolution at the top of `Decoder::catch`: a `Seeded`
droplet's neighbor list is recomputed from `(seed, number_of_chunks, degree)`,
an `Edges` droplet's is taken literally. -/
def resolveEdges (K : ℕ) (d : Droplet) : List ℕ :=
  match d.droptype with
  | DropType.Seeded seed degree => get_sample_from_rng_by_seed seed K degree
  | DropType.Edges edges => edges

/-- `Decoder::catch`. -/
def Decoder.catch (s : Decoder) (drop : Droplet) : Option (CatchResult × Decoder) :=
  let s1 : Decoder := { s with cnt_received_drops := s.cnt_received_drops + 1 }
  let sample := resolveEdges s1.number_of_chunks drop
  match processDroplet s1 ⟨sample, drop.data⟩ with
  | none => none
  | some s2 =>
    let stats : Statistics :=
      ⟨s2.cnt_received_drops, s2.number_of_chunks,
        f32div (f32mul (toF32 s2.cnt_received_drops) 100) (toF32 s2.number_of_chunks),
        s2.unknown_chunks⟩
    if s2.unknown_chunks = 0 then
      if s2.total_length ≤ s2.data.length then
        some (CatchResult.Finished (s2.data.take s2.total_length) stats, s2)
      else none
    else some (CatchResult.Missing stats, s2)

/-- One encoder droplet pulled and fed to the decoder. -/
def step (p : Encoder × Decoder) : Option (Encoder × Decoder × CatchResult) :=
  match p.1.next with
  | (d, e2) =>
    match p.2.catch d with
    | none => none
    | some (r, dec2) => some (e2, dec2, r)

/-- `runCatch n p` is the state and result after the `(n+1)`-th catch of the
pull-and-feed loop started from `p`. -/
def runCatch : ℕ → Encoder × Decoder → Option (Encoder × Decoder × CatchResult)
  | 0, p => step p
  | n + 1, p =>
    match runCatch n p with
    | none => none
    | some (e, d, _) => step (e, d)

/-! ### Decoder state accessors and the peeling closure -/

/-- The arena cell `id` (out-of-range reads never occur under the invariant). -/
def dropAt (s : Decoder) (id : ℕ) : RxDroplet := s.drops.getD id ⟨[], []⟩

/-- `is_known` of block `i`. -/
def knownAt (s : Decoder) (i : ℕ) : Bool := s.blockKnown.getD i false

/-- The pending-droplet list of block `b`. -/
def pendAt (s : Decoder) (b : ℕ) : List ℕ := s.blockEdges.getD b []

/-- The peeling closure of a collection of original neighbor lists: chunk `b`
is recoverable when some droplet covers `b` and all of its other neighbors
are recoverable.  This depends only on membership in `origs`, hence is
invariant under permutation of the droplet multiset. -/
inductive Peeled (origs : List (List ℕ)) : ℕ → Prop
  | step (o : List ℕ) (ho : o ∈ origs) (b : ℕ) (hb : b ∈ o)
      (hrest : ∀ c ∈ o, c ≠ b → Peeled origs c) : Peeled origs b

theorem Peeled_mono {l1 l2 : List (List ℕ)} (h : ∀ o ∈ l1, o ∈ l2) {b : ℕ}
    (hp : Peeled l1 b) : Peeled l2 b := by
  induction hp with
  | step o ho b hb hrest ih => exact Peeled.step o (h o ho) b hb (fun c hc hne => ih c hc hne)

/-- A well-formed wire droplet for payload `P` in `K` chunks of `B` bytes:
duplicate-free in-range neighbor list, and the payload is the XOR of the named
padded source chunks (the emission invariant of the specification). -/
def WellFormedRx (P : List ℕ) (B K : ℕ) (edges data : List ℕ) : Prop :=
  edges.Nodup ∧ (∀ b ∈ edges, b < K) ∧ data = xorChunks P P.length B edges

/-- Invariant of the decoder state between `catch` calls (and, for the parts
that do not mention pending droplets, inside the peeling loop): `origs` is
the list of the original (resolved) neighbor lists of the droplets caught so
far, in arrival order. -/
structure InvCore (P : List ℕ) (B K L : ℕ) (origs : List (List ℕ)) (s : Decoder) : Prop where
  hB : s.blocksize = B
  hK : s.number_of_chunks = K
  hL : s.total_length = L
  hKnownLen : s.blockKnown.length = K
  hEdgesLen : s.blockEdges.length = K
  hDataLen : s.data.length = K * B
  hArena : s.drops.length = origs.length
  hUnknown : s.unknown_chunks = countFalse s.blockKnown
  hChunkKnown : ∀ i, i < K → knownAt s i = true →
      (s.data.drop (i * B)).take B = copyChunk P P.length B i
  hChunkUnknown : ∀ i, i < K → knownAt s i = false →
      (s.data.drop (i * B)).take B = zeroes B
  hOrig : ∀ o ∈ origs, o.Nodup ∧ ∀ b ∈ o, b < K
  hDropRel : ∀ id, id < s.drops.length →
      (dropAt s id).data = xorChunks P P.length B (dropAt s id).edges_idx
  hDropSub : ∀ id, id < s.drops.length →
      ∀ b ∈ (dropAt s id).edges_idx, b ∈ origs.getD id []
  hDropNodup : ∀ id, id < s.drops.length → (dropAt s id).edges_idx.Nodup
  hRemovedKnown : ∀ id, id < s.drops.length → ∀ b ∈ origs.getD id [],
      b ∉ (dropAt s id).edges_idx → knownAt s b = true
  hRegRev : ∀ b, b < K → ∀ id ∈ pendAt s b,
      id < s.drops.length ∧ b ∈ (dropAt s id).edges_idx
  hKnownEmpty : ∀ b, b < K → knownAt s b = true → pendAt s b = []
  hPeeled : ∀ b, b < K → knownAt s b = true → Peeled origs b

/-- The parts of the invariant that are sensitive to the worklist: between
`catch` calls they hold with `wl = []`. -/
structure InvWl (K : ℕ) (s : Decoder) (wl : List ℕ) : Prop where
  hWl : ∀ id ∈ wl, id < s.drops.length
  hWlShort : ∀ id ∈ wl, (dropAt s id).edges_idx.length ≤ 1 ∨
      ((∀ b, b < K → id ∉ pendAt s b) ∧ wl.count id ≤ 1)
  hNoKnownEdge : ∀ id, id < s.drops.length → id ∉ wl →
      ∀ b ∈ (dropAt s id).edges_idx, knownAt s b = false
  hNoSingleton : ∀ id, id < s.drops.length → id ∉ wl →
      (dropAt s id).edges_idx.length ≠ 1
  hReg : ∀ id, id < s.drops.length → id ∉ wl →
      ∀ b ∈ (dropAt s id).edges_idx, id ∈ pendAt s b
  hRegNodup : ∀ b, b < K → (pendAt s b).Nodup

/-! ### Basic accessor lemmas -/

theorem getElem?_eq_getD {α : Type} (l : List α) (i : ℕ) (d : α) (h : i < l.length) :
    l[i]? = some (l.getD i d) := by
  rw [List.getElem?_eq_getElem h, List.getD_eq_getElem l d h]

theorem getD_set_self {α : Type} (l : List α) (i : ℕ) (a d : α) (h : i < l.length) :
    (l.set i a).getD i d = a := by
  rw [List.getD_eq_getElem?_getD, List.getElem?_set_self (by omega)]
  rfl

theorem getD_set_ne {α : Type} (l : List α) {i j : ℕ} (a d : α) (h : i ≠ j) :
    (l.set i a).getD j d = l.getD j d := by
  rw [List.getD_eq_getElem?_getD, List.getElem?_set_ne h, ← List.getD_eq_getElem?_getD]

theorem dropAt_setDrop_self {s : Decoder} {id : ℕ} (d : RxDroplet) (h : id < s.drops.length) :
    dropAt (setDrop s id d) id = d := by
  rw [dropAt, setDrop]
  exact getD_set_self _ _ _ _ h

theorem dropAt_setDrop_ne {s : Decoder} {id j : ℕ} (d : RxDroplet) (h : id ≠ j) :
    dropAt (setDrop s id d) j = dropAt s j := by
  rw [dropAt, setDrop]
  exact getD_set_ne _ _ _ h

theorem set_dropAt_self {s : Decoder} {id : ℕ} (h : id < s.drops.length) :
    s.drops.set id (dropAt s id) = s.drops := by
  apply List.ext_getElem?
  intro j
  by_cases hj : id = j
  · subst hj
    rw [List.getElem?_set_self (by omega), dropAt, getElem?_eq_getD _ _ _ h]
  · rw [List.getElem?_set_ne hj]

theorem knownAt_setDrop (s : Decoder) (id : ℕ) (d : RxDroplet) (b : ℕ) :
    knownAt (setDrop s id d) b = knownAt s b := rfl

theorem pendAt_setDrop (s : Decoder) (id : ℕ) (d : RxDroplet) (b : ℕ) :
    pendAt (setDrop s id d) b = pendAt s b := rfl

/-- Edges of the processed droplet surviving step A over the snapshot suffix
`rest`: those not pointing at a known chunk among the remaining elements. -/
def keepEdge (s : Decoder) (rest : List ℕ) (b : ℕ) : Bool :=
  !(decide (b ∈ rest) && knownAt s b)

/-- Full characterization of step A: the processed droplet keeps exactly its
unknown edges (with the matching XOR payload), and it is appended to the
pending list of every unknown block in the snapshot. -/
theorem stepA_spec (P : List ℕ) (B K : ℕ) :
    ∀ (rest : List ℕ) (s : Decoder) (id : ℕ),
      s.blocksize = B → s.blockKnown.length = K → s.blockEdges.length = K →
      s.data.length = K * B →
      (∀ i, i < K → knownAt s i = true →
        (s.data.drop (i * B)).take B = copyChunk P P.length B i) →
      id < s.drops.length →
      rest.Nodup → (∀ b ∈ rest, b < K) →
      (∀ b ∈ rest, b ∈ (dropAt s id).edges_idx) →
      (dropAt s id).edges_idx.Nodup →
      (dropAt s id).data = xorChunks P P.length B (dropAt s id).edges_idx →
      ∃ s1, stepA s id rest = some s1 ∧
        s1.drops = s.drops.set id
          ⟨(dropAt s id).edges_idx.filter (keepEdge s rest),
            xorChunks P P.length B ((dropAt s id).edges_idx.filter (keepEdge s rest))⟩ ∧
        ∀ b, pendAt s1 b =
          if b ∈ rest ∧ knownAt s b = false then pendAt s b ++ [id] else pendAt s b := by
  intro rest
  induction rest with
  | nil =>
    intro s id hB hKL hEL hDL hCK hid hnd hbd hsub hnodup hrel
    refine ⟨s, rfl, ?_, ?_⟩
    · have hkeep : (dropAt s id).edges_idx.filter (keepEdge s []) = (dropAt s id).edges_idx := by
        apply List.filter_eq_self.2
        intro b hb
        rw [keepEdge]
        simp
      rw [hkeep, ← hrel]
      exact (set_dropAt_self hid).symm
    · intro b
      rw [if_neg (by simp)]
  | cons ed rest ih =>
    intro s id hB hKL hEL hDL hCK hid hnd hbd hsub hnodup hrel
    have hedK : ed < K := hbd ed (List.mem_cons_self ed rest)
    have hedmem : ed ∈ (dropAt s id).edges_idx := hsub ed (List.mem_cons_self ed rest)
    have hndr : rest.Nodup := (List.nodup_cons.1 hnd).2
    have hednr : ed ∉ rest := (List.nodup_cons.1 hnd).1
    have hbk : s.blockKnown[ed]? = some (knownAt s ed) :=
      getElem?_eq_getD s.blockKnown ed false (by omega)
    rw [stepA, hbk]
    cases hknown : knownAt s ed with
    | true =>
      have hdid : s.drops[id]? = some (dropAt s id) := getElem?_eq_getD s.drops id ⟨[], []⟩ hid
      have hdlen : (dropAt s id).data.length = B := by
        rw [hrel]
        exact xorChunks_length B (le_refl _) _
      have hcond : s.blocksize ≤ (dropAt s id).data.length ∧
          ed * s.blocksize + s.blocksize ≤ s.data.length := by
        constructor
        · rw [hB, hdlen]
        · rw [hB, hDL]
          have h1 : ed * B + B = (ed + 1) * B := by ring
          have h2 : (ed + 1) * B ≤ K * B := Nat.mul_le_mul_right _ (by omega)
          omega
      have hxfb : xorFromBuf (dropAt s id).data s.data (ed * s.blocksize) s.blocksize =
          some (zipXor (dropAt s id).data (copyChunk P P.length B ed)) := by
        rw [xorFromBuf, if_pos hcond, hB]
        congr 1
        rw [List.take_of_length_le (le_of_eq hdlen), List.drop_eq_nil_of_le (le_of_eq hdlen),
          List.append_nil]
        congr 1
        exact hCK ed hedK hknown
      rw [hdid]
      dsimp only
      rw [if_pos rfl, hxfb]
      dsimp only
      rw [if_pos hedmem]
      have hrel2 : zipXor (dropAt s id).data (copyChunk P P.length B ed) =
          xorChunks P P.length B ((dropAt s id).edges_idx.erase ed) := by
        rw [hrel, zipXor_comm]
        exact (xorChunks_erase (le_refl _) _ ed hedmem).symm
      obtain ⟨s1, hrun, hdrops1, hpend1⟩ := ih
        (setDrop s id ⟨(dropAt s id).edges_idx.erase ed,
          zipXor (dropAt s id).data (copyChunk P P.length B ed)⟩) id
        hB hKL hEL hDL hCK (by rw [setDrop]; simpa using hid) hndr
        (fun b hb => hbd b (List.mem_cons_of_mem ed hb))
        (by
          intro b hb
          rw [dropAt_setDrop_self _ hid]
          have hbne : b ≠ ed := fun hc => hednr (hc ▸ hb)
          exact (List.mem_erase_of_ne hbne).2 (hsub b (List.mem_cons_of_mem ed hb)))
        (by rw [dropAt_setDrop_self _ hid]; exact hnodup.erase ed)
        (by rw [dropAt_setDrop_self _ hid]; exact hrel2)
      refine ⟨s1, hrun, ?_, ?_⟩
      · rw [hdrops1, dropAt_setDrop_self _ hid]
        have hfe : ((dropAt s id).edges_idx.erase ed).filter
            (keepEdge (setDrop s id ⟨(dropAt s id).edges_idx.erase ed,
              zipXor (dropAt s id).data (copyChunk P P.length B ed)⟩) rest) =
            (dropAt s id).edges_idx.filter (keepEdge s (ed :: rest)) := by
          rw [hnodup.erase_eq_filter, List.filter_filter]
          apply List.filter_congr
          intro b hb
          by_cases hbe : b = ed
          · subst hbe
            simp [keepEdge, hknown, knownAt_setDrop]
          · simp [keepEdge, knownAt_setDrop, List.mem_cons, hbe]
        rw [hfe, setDrop, List.set_set]
      · intro b
        rw [hpend1 b]
        have hps : pendAt (setDrop s id ⟨(dropAt s id).edges_idx.erase ed,
            zipXor (dropAt s id).data (copyChunk P P.length B ed)⟩) b = pendAt s b := rfl
        have hks : knownAt (setDrop s id ⟨(dropAt s id).edges_idx.erase ed,
            zipXor (dropAt s id).data (copyChunk P P.length B ed)⟩) b = knownAt s b := rfl
        rw [hps, hks]
        by_cases hbe : b = ed
        · subst hbe
          rw [if_neg (fun hc => hednr hc.1), if_neg (fun hc => by simp [hknown] at hc)]
        · have hiff : (b ∈ rest ∧ knownAt s b = false) ↔
              (b ∈ ed :: rest ∧ knownAt s b = false) := by
            constructor
            · exact fun hc => ⟨List.mem_cons_of_mem ed hc.1, hc.2⟩
            · intro hc
              refine ⟨?_, hc.2⟩
              rcases List.mem_cons.1 hc.1 with h1 | h1
              · exact absurd h1 hbe
              · exact h1
          rw [if_congr hiff rfl rfl]
    | false =>
      dsimp only
      rw [if_neg (by simp)]
      have hbe : s.blockEdges[ed]? = some (pendAt s ed) :=
        getElem?_eq_getD s.blockEdges ed [] (by omega)
      rw [hbe]
      dsimp only
      obtain ⟨s1, hrun, hdrops1, hpend1⟩ := ih
        { s with blockEdges := s.blockEdges.set ed (pendAt s ed ++ [id]) } id
        hB hKL (by simpa using hEL) hDL hCK hid hndr
        (fun b hb => hbd b (List.mem_cons_of_mem ed hb))
        (fun b hb => hsub b (List.mem_cons_of_mem ed hb))
        hnodup hrel
      refine ⟨s1, hrun, ?_, ?_⟩
      · rw [hdrops1]
        rw [show dropAt { s with blockEdges := s.blockEdges.set ed (pendAt s ed ++ [id]) } id
          = dropAt s id from rfl]
        have hfe : (dropAt s id).edges_idx.filter
            (keepEdge { s with blockEdges := s.blockEdges.set ed (pendAt s ed ++ [id]) } rest) =
            (dropAt s id).edges_idx.filter (keepEdge s (ed :: rest)) := by
          apply List.filter_congr
          intro b hb
          by_cases hbe2 : b = ed
          · subst hbe2
            have hknown2 : s.blockKnown[b]?.getD false = false := by
              rw [← List.getD_eq_getElem?_getD]
              exact hknown
            simp [keepEdge, knownAt, hednr, hknown2]
          · simp [keepEdge, knownAt, List.mem_cons, hbe2]
        rw [hfe]
      · intro b
        rw [hpend1 b]
        rw [show knownAt { s with blockEdges := s.blockEdges.set ed (pendAt s ed ++ [id]) } b
          = knownAt s b from rfl]
        by_cases hbe2 : b = ed
        · subst hbe2
          have hp1 : pendAt { s with blockEdges := s.blockEdges.set b (pendAt s b ++ [id]) } b =
              pendAt s b ++ [id] := by
            rw [pendAt]
            exact getD_set_self _ _ _ _ (by omega)
          rw [if_neg (fun hc => hednr hc.1), hp1,
            if_pos ⟨List.mem_cons_self b rest, hknown⟩]
        · have hp2 : pendAt { s with blockEdges := s.blockEdges.set ed (pendAt s ed ++ [id]) } b =
              pendAt s b := by
            rw [pendAt]
            exact getD_set_ne _ _ _ (fun hc => hbe2 hc.symm)
          rw [hp2]
          have hiff : (b ∈ rest ∧ knownAt s b = false) ↔
              (b ∈ ed :: rest ∧ knownAt s b = false) := by
            constructor
            · exact fun hc => ⟨List.mem_cons_of_mem ed hc.1, hc.2⟩
            · intro hc
              refine ⟨?_, hc.2⟩
              rcases List.mem_cons.1 hc.1 with h1 | h1
              · exact absurd h1 hbe2
              · exact h1
          rw [if_congr hiff rfl rfl]

/-- Full characterization of the drain loop for a freshly resolved block
`blk`: every listed pending droplet of remaining degree 1 is pushed to the
worklist, every other listed droplet has the fresh chunk XORed out and `blk`
removed from its edges; payload/edge relations and `Nodup` are preserved for
the whole arena, untouched droplets are unchanged, and every pushed droplet
has remaining degree exactly 1. -/
theorem drainList_spec (P : List ℕ) (B K : ℕ) (blk : ℕ) (hblkK : blk < K) :
    ∀ (lst : List ℕ) (s : Decoder) (acc : List ℕ),
      s.blocksize = B → s.data.length = K * B →
      ((s.data.drop (blk * B)).take B = copyChunk P P.length B blk) →
      (∀ id, id < s.drops.length →
        (dropAt s id).data = xorChunks P P.length B (dropAt s id).edges_idx) →
      (∀ id, id < s.drops.length → (dropAt s id).edges_idx.Nodup) →
      (∀ id ∈ lst, id < s.drops.length ∧ blk ∈ (dropAt s id).edges_idx) →
      (∀ id, 2 ≤ lst.count id → (dropAt s id).edges_idx = [blk]) →
      (∀ p ∈ acc, p < s.drops.length ∧ (dropAt s p).edges_idx.length = 1) →
      ∃ s2 pushes, drainList blk s lst acc = some (s2, pushes) ∧
        (∀ p ∈ acc, p ∈ pushes) ∧
        (∀ j, j < s.drops.length → j ∉ lst → dropAt s2 j = dropAt s j) ∧
        (∀ j ∈ lst,
          ((dropAt s2 j).edges_idx = (dropAt s j).edges_idx.erase blk ∧
            2 ≤ (dropAt s j).edges_idx.length) ∨
          (dropAt s2 j = dropAt s j ∧ (dropAt s j).edges_idx.length = 1)) ∧
        (∀ id, id < s2.drops.length →
          (dropAt s2 id).data = xorChunks P P.length B (dropAt s2 id).edges_idx) ∧
        (∀ id, id < s2.drops.length → (dropAt s2 id).edges_idx.Nodup) ∧
        (∀ p ∈ pushes, p < s2.drops.length ∧ (dropAt s2 p).edges_idx.length = 1) ∧
        (∀ j ∈ lst, (dropAt s2 j).edges_idx.length = 1 → j ∈ pushes) ∧
        (∀ p ∈ pushes, p ∈ lst ∨ p ∈ acc) := by
  intro lst
  induction lst with
  | nil =>
    intro s acc hB hDL hCKb hrel hnodup hq1 hq2 hacc
    exact ⟨s, acc, rfl, fun p hp => hp, fun j hj hnj => rfl, fun j hj => absurd hj (by simp),
      hrel, hnodup, hacc, fun j hj => absurd hj (by simp), fun p hp => Or.inr hp⟩
  | cons eid rest ih =>
    intro s acc hB hDL hCKb hrel hnodup hq1 hq2 hacc
    obtain ⟨heidlt, heidmem⟩ := hq1 eid (List.mem_cons_self eid rest)
    have hdid : s.drops[eid]? = some (dropAt s eid) := getElem?_eq_getD s.drops eid ⟨[], []⟩ heidlt
    rw [drainList, drainStep, hdid]
    dsimp only
    by_cases hlen : (dropAt s eid).edges_idx.length = 1
    · rw [if_pos hlen]
      dsimp only
      obtain ⟨s2, pushes, hrun, haccp, hc1, hc2, hc3, hc4, hc5, hc6, hc8⟩ := ih s (eid :: acc)
        hB hDL hCKb hrel hnodup
        (fun id hid => hq1 id (List.mem_cons_of_mem eid hid))
        (by
          intro id hcnt
          apply hq2 id
          rw [List.count_cons]
          omega)
        (by
          intro p hp
          rcases List.mem_cons.1 hp with h1 | h1
          · subst h1
            exact ⟨heidlt, hlen⟩
          · exact hacc p h1)
      refine ⟨s2, pushes, hrun, fun p hp => haccp p (List.mem_cons_of_mem eid hp), ?_, ?_, hc3,
        hc4, hc5, ?_, ?_⟩
      · intro j hj hnj
        exact hc1 j hj (fun hc => hnj (List.mem_cons_of_mem eid hc))
      · intro j hj
        rcases List.mem_cons.1 hj with h1 | h1
        · subst h1
          by_cases hjr : j ∈ rest
          · rcases hc2 j hjr with ⟨he, hge⟩ | h2
            · omega
            · exact Or.inr h2
          · exact Or.inr ⟨hc1 j heidlt hjr, hlen⟩
        · exact hc2 j h1
      · intro j hj hl1
        rcases List.mem_cons.1 hj with h1 | h1
        · subst h1
          exact haccp j (List.mem_cons_self j acc)
        · exact hc6 j h1 hl1
      · intro p hp
        rcases hc8 p hp with h1 | h1
        · exact Or.inl (List.mem_cons_of_mem eid h1)
        · rcases List.mem_cons.1 h1 with h2 | h2
          · exact Or.inl (h2 ▸ List.mem_cons_self eid rest)
          · exact Or.inr h2
    · rw [if_neg hlen]
      have hdlen : (dropAt s eid).data.length = B := by
        rw [hrel eid heidlt]
        exact xorChunks_length B (le_refl _) _
      have hcond : s.blocksize ≤ (dropAt s eid).data.length ∧
          blk * s.blocksize + s.blocksize ≤ s.data.length := by
        constructor
        · rw [hB, hdlen]
        · rw [hB, hDL]
          have h1 : blk * B + B = (blk + 1) * B := by ring
          have h2 : (blk + 1) * B ≤ K * B := Nat.mul_le_mul_right _ (by omega)
          omega
      have hxfb : xorFromBuf (dropAt s eid).data s.data (blk * s.blocksize) s.blocksize =
          some (zipXor (dropAt s eid).data (copyChunk P P.length B blk)) := by
        rw [xorFromBuf, if_pos hcond, hB]
        congr 1
        rw [List.take_of_length_le (le_of_eq hdlen), List.drop_eq_nil_of_le (le_of_eq hdlen),
          List.append_nil, hCKb]
      rw [hxfb]
      dsimp only
      rw [if_pos heidmem]
      dsimp only
      have heidnr : eid ∉ rest := by
        intro hc
        have h0 : rest.count eid ≠ 0 := fun h0 => (List.count_eq_zero.1 h0) hc
        have hcnt : 2 ≤ (eid :: rest).count eid := by
          rw [List.count_cons_self]
          omega
        have h2 := hq2 eid hcnt
        rw [h2] at hlen
        simp at hlen
      have hrel2 : zipXor (dropAt s eid).data (copyChunk P P.length B blk) =
          xorChunks P P.length B ((dropAt s eid).edges_idx.erase blk) := by
        rw [hrel eid heidlt, zipXor_comm]
        exact (xorChunks_erase (le_refl _) _ blk heidmem).symm
      obtain ⟨s2, pushes, hrun, haccp, hc1, hc2, hc3, hc4, hc5, hc6, hc8⟩ := ih
        (setDrop s eid ⟨(dropAt s eid).edges_idx.erase blk,
          zipXor (dropAt s eid).data (copyChunk P P.length B blk)⟩)
        (if ((dropAt s eid).edges_idx.erase blk).length = 1 then eid :: acc else acc)
        hB hDL hCKb
        (by
          intro id hid
          rw [setDrop] at hid
          rw [List.length_set] at hid
          by_cases hie : eid = id
          · subst hie
            rw [dropAt_setDrop_self _ heidlt]
            exact hrel2
          · rw [dropAt_setDrop_ne _ hie]
            exact hrel id hid)
        (by
          intro id hid
          rw [setDrop] at hid
          rw [List.length_set] at hid
          by_cases hie : eid = id
          · subst hie
            rw [dropAt_setDrop_self _ heidlt]
            exact (hnodup eid heidlt).erase blk
          · rw [dropAt_setDrop_ne _ hie]
            exact hnodup id hid)
        (by
          intro id hid
          have hne : eid ≠ id := fun hc => heidnr (hc ▸ hid)
          rw [dropAt_setDrop_ne _ hne, setDrop]
          rw [List.length_set]
          exact hq1 id (List.mem_cons_of_mem eid hid))
        (by
          intro id hcnt
          have hne : eid ≠ id := by
            intro hc
            subst hc
            have h0 : rest.count eid ≠ 0 := by omega
            exact heidnr (by
              by_contra hm
              exact h0 (List.count_eq_zero.2 hm))
          rw [dropAt_setDrop_ne _ hne]
          apply hq2 id
          rw [List.count_cons]
          omega)
        (by
          intro p hp
          by_cases hpe : ((dropAt s eid).edges_idx.erase blk).length = 1
          · rw [if_pos hpe] at hp
            rcases List.mem_cons.1 hp with h1 | h1
            · subst h1
              rw [dropAt_setDrop_self _ heidlt, setDrop, List.length_set]
              exact ⟨heidlt, hpe⟩
            · obtain ⟨hap, hal⟩ := hacc p h1
              have hne : eid ≠ p := by
                intro hc
                subst hc
                omega
              rw [dropAt_setDrop_ne _ hne, setDrop, List.length_set]
              exact ⟨hap, hal⟩
          · rw [if_neg hpe] at hp
            obtain ⟨hap, hal⟩ := hacc p hp
            have hne : eid ≠ p := by
              intro hc
              subst hc
              omega
            rw [dropAt_setDrop_ne _ hne, setDrop, List.length_set]
            exact ⟨hap, hal⟩)
      refine ⟨s2, pushes, ?_, ?_, ?_, ?_, hc3, hc4, hc5, ?_, ?_⟩
      · rw [← hrun]
        by_cases hpe : ((dropAt s eid).edges_idx.erase blk).length = 1
        · rw [if_pos hpe, if_pos hpe]
        · rw [if_neg hpe, if_neg hpe]
      · intro p hp
        apply haccp
        by_cases hpe : ((dropAt s eid).edges_idx.erase blk).length = 1
        · rw [if_pos hpe]
          exact List.mem_cons_of_mem eid hp
        · rw [if_neg hpe]
          exact hp
      · intro j hj hnj
        have hne : eid ≠ j := fun hc => hnj (hc ▸ List.mem_cons_self eid rest)
        rw [hc1 j (by rw [setDrop]; rw [List.length_set]; exact hj)
          (fun hc => hnj (List.mem_cons_of_mem eid hc))]
        exact dropAt_setDrop_ne _ hne
      · intro j hj
        rcases List.mem_cons.1 hj with h1 | h1
        · subst h1
          left
          have hju : dropAt s2 j = dropAt (setDrop s j ⟨(dropAt s j).edges_idx.erase blk,
              zipXor (dropAt s j).data (copyChunk P P.length B blk)⟩) j :=
            hc1 j (by rw [setDrop]; rw [List.length_set]; exact heidlt) heidnr
          rw [hju, dropAt_setDrop_self _ heidlt]
          refine ⟨rfl, ?_⟩
          have hpos : 0 < (dropAt s j).edges_idx.length := List.length_pos_of_mem heidmem
          omega
        · have hne : eid ≠ j := fun hc => heidnr (hc ▸ h1)
          rcases hc2 j h1 with ⟨he, hge⟩ | ⟨he, hl⟩
          · left
            rw [dropAt_setDrop_ne _ hne] at he hge
            exact ⟨he, hge⟩
          · right
            rw [dropAt_setDrop_ne _ hne] at he hl
            exact ⟨he, hl⟩
      · intro j hj hl1
        rcases List.mem_cons.1 hj with h1 | h1
        · subst h1
          by_cases hjr : j ∈ rest
          · exact hc6 j hjr hl1
          · have hju : dropAt s2 j = dropAt (setDrop s j ⟨(dropAt s j).edges_idx.erase blk,
                zipXor (dropAt s j).data (copyChunk P P.length B blk)⟩) j :=
              hc1 j (by rw [setDrop]; rw [List.length_set]; exact heidlt) hjr
            rw [hju, dropAt_setDrop_self _ heidlt] at hl1
            apply haccp
            rw [if_pos hl1]
            exact List.mem_cons_self j _
        · exact hc6 j h1 hl1
      · intro p hp
        rcases hc8 p hp with h1 | h1
        · exact Or.inl (List.mem_cons_of_mem eid h1)
        · by_cases hpe : ((dropAt s eid).edges_idx.erase blk).length = 1
          · rw [if_pos hpe] at h1
            rcases List.mem_cons.1 h1 with h2 | h2
            · exact Or.inl (h2 ▸ List.mem_cons_self eid rest)
            · exact Or.inr h2
          · rw [if_neg hpe] at h1
            exact Or.inr h1

/-- Writing the resolved chunk into the buffer succeeds, puts the chunk at
block `fi`, and leaves every other block of the buffer unchanged. -/
theorem writeToBuf_block (buf src : List ℕ) (fi B K : ℕ) (hfi : fi < K)
    (hlen : buf.length = K * B) (hsrc : B ≤ src.length) :
    ∃ buf2, writeToBuf buf src (fi * B) B = some buf2 ∧ buf2.length = K * B ∧
      (buf2.drop (fi * B)).take B = src.take B ∧
      (∀ i, i < K → i ≠ fi → (buf2.drop (i * B)).take B = (buf.drop (i * B)).take B) := by
  have hfb : fi * B + B ≤ K * B := by
    have h1 : fi * B + B = (fi + 1) * B := by ring
    have h2 : (fi + 1) * B ≤ K * B := Nat.mul_le_mul_right _ (by omega)
    omega
  have hcond : fi * B + B ≤ buf.length ∧ B ≤ src.length := ⟨by omega, hsrc⟩
  have ha : (buf.take (fi * B)).length = fi * B := by
    rw [List.length_take]
    exact min_eq_left (by omega)
  have hb : (src.take B).length = B := by
    rw [List.length_take]
    exact min_eq_left hsrc
  refine ⟨_, by rw [writeToBuf, if_pos hcond], ?_, ?_, ?_⟩
  · rw [List.length_append, List.length_append, ha, hb, List.length_drop]
    omega
  · rw [List.append_assoc, List.drop_left' ha, List.take_left' hb]
  · intro i hi hne
    rcases Nat.lt_or_ge i fi with hlt | hge
    · have hib : i * B + B ≤ fi * B := by
        have h1 : i * B + B = (i + 1) * B := by ring
        have h2 : (i + 1) * B ≤ fi * B := Nat.mul_le_mul_right _ (by omega)
        omega
      rw [List.append_assoc, List.drop_append_of_le_length (by rw [ha]; omega),
        List.take_append_of_le_length (by rw [List.length_drop, ha]; omega),
        List.drop_take, List.take_take, min_eq_left (by omega)]
    · have hbi : fi * B + B ≤ i * B := by
        have h3 : fi + 1 ≤ i := by omega
        have h1 : fi * B + B = (fi + 1) * B := by ring
        have h2 : (fi + 1) * B ≤ i * B := Nat.mul_le_mul_right _ h3
        omega
      have hab : (buf.take (fi * B) ++ src.take B).length = fi * B + B := by
        rw [List.length_append, ha, hb]
      rw [List.drop_append_eq_append_drop, List.drop_eq_nil_of_le (by rw [hab]; omega),
        List.nil_append, hab, List.drop_drop,
        show fi * B + B + (i * B - (fi * B + B)) = i * B by omega]

/-- Membership in the step-A survivor filter over the full snapshot: precisely
the unknown edges survive. -/
theorem keepEdge_mem {s : Decoder} {E : List ℕ} {b : ℕ} :
    b ∈ E.filter (keepEdge s E) ↔ b ∈ E ∧ knownAt s b = false := by
  rw [List.mem_filter]
  constructor
  · rintro ⟨h1, h2⟩
    refine ⟨h1, ?_⟩
    rw [keepEdge, decide_eq_true h1] at h2
    cases hk : knownAt s b
    · rfl
    · rw [hk] at h2
      simp at h2
  · rintro ⟨h1, h2⟩
    refine ⟨h1, ?_⟩
    rw [keepEdge, h2]
    simp

/-- Resolving a fresh chunk lowers the number of unknown blocks by exactly
one. -/
theorem countFalse_set_true_eq : ∀ (l : List Bool) (i : ℕ), l[i]? = some false →
    countFalse (l.set i true) + 1 = countFalse l := by
  intro l
  induction l with
  | nil =>
    intro i h
    simp at h
  | cons a t ih =>
    intro i h
    cases i with
    | zero =>
      simp only [List.getElem?_cons_zero, Option.some.injEq] at h
      subst h
      simp [countFalse, List.count_cons]
    | succ i =>
      simp only [List.getElem?_cons_succ] at h
      have heq := ih i h
      simp only [List.set, countFalse, List.count_cons] at heq ⊢
      omega

theorem xorChunks_single (P : List ℕ) (B fi : ℕ) :
    xorChunks P P.length B [fi] = copyChunk P P.length B fi := by
  rw [xorChunks, xorChunks, zipXor_comm]
  exact zipXor_zeroes_left (le_of_eq (copyChunk_length B fi (le_refl P.length)))

/-- Master lemma for one iteration of the peeling worklist loop: the body of
`process_droplet`'s `loop` succeeds and preserves both the core decoder
invariant and the worklist invariant (with the pushes prepended), never
un-resolves a chunk, and does not touch the receive counter. -/
theorem procOne_master {P : List ℕ} {B K L : ℕ} {origs : List (List ℕ)} {s : Decoder}
    {id : ℕ} {rest : List ℕ}
    (hI : InvCore P B K L origs s) (hW : InvWl K s (id :: rest)) :
    ∃ s3 pushes, procOne s id = some (s3, pushes) ∧
      InvCore P B K L origs s3 ∧ InvWl K s3 (pushes ++ rest) ∧
      (∀ b, knownAt s b = true → knownAt s3 b = true) ∧
      s3.cnt_received_drops = s.cnt_received_drops := by
  have hidlt : id < s.drops.length := hW.hWl id (List.mem_cons_self id rest)
  have hdid : s.drops[id]? = some (dropAt s id) := getElem?_eq_getD s.drops id ⟨[], []⟩ hidlt
  have hEnodup : (dropAt s id).edges_idx.Nodup := hI.hDropNodup id hidlt
  have horiglt : id < origs.length := by
    rw [← hI.hArena]
    exact hidlt
  have horigmem : origs.getD id [] ∈ origs := by
    rw [List.getD_eq_getElem origs [] horiglt]
    exact List.getElem_mem horiglt
  have hEbound : ∀ b ∈ (dropAt s id).edges_idx, b < K :=
    fun b hb => (hI.hOrig _ horigmem).2 b (hI.hDropSub id hidlt b hb)
  obtain ⟨s1, hstepA, hdrops1, hpend1⟩ := stepA_spec P B K (dropAt s id).edges_idx s id
    hI.hB hI.hKnownLen hI.hEdgesLen hI.hDataLen hI.hChunkKnown hidlt hEnodup hEbound
    (fun b hb => hb) hEnodup (hI.hDropRel id hidlt)
  obtain ⟨hbk1, hdata1, hbs1, hnoc1, htl1, hunk1, hcnt1, hdlen1, helen1⟩ :=
    stepA_pres _ _ _ _ hstepA
  have hid1lt : id < s1.drops.length := by
    rw [hdlen1]
    exact hidlt
  have hd1 : dropAt s1 id =
      ⟨(dropAt s id).edges_idx.filter (keepEdge s (dropAt s id).edges_idx),
        xorChunks P P.length B
          ((dropAt s id).edges_idx.filter (keepEdge s (dropAt s id).edges_idx))⟩ := by
    rw [dropAt, hdrops1]
    exact getD_set_self _ _ _ _ hidlt
  have hE1eq : (dropAt s1 id).edges_idx =
      (dropAt s id).edges_idx.filter (keepEdge s (dropAt s id).edges_idx) := by
    rw [hd1]
  have hdropAt1_ne : ∀ j, id ≠ j → dropAt s1 j = dropAt s j := by
    intro j hne
    rw [dropAt, hdrops1, dropAt]
    exact getD_set_ne _ _ _ hne
  have hknown1 : ∀ b, knownAt s1 b = knownAt s b := by
    intro b
    simp only [knownAt, hbk1]
  have hmemE1 : ∀ b, b ∈ (dropAt s1 id).edges_idx ↔
      (b ∈ (dropAt s id).edges_idx ∧ knownAt s b = false) := by
    intro b
    rw [hE1eq]
    exact keepEdge_mem
  have hrel1 : ∀ j, j < s1.drops.length →
      (dropAt s1 j).data = xorChunks P P.length B (dropAt s1 j).edges_idx := by
    intro j hj
    by_cases hje : id = j
    · subst hje
      rw [hd1]
    · rw [hdropAt1_ne j hje]
      exact hI.hDropRel j (by rw [← hdlen1]; exact hj)
  have hnodup1 : ∀ j, j < s1.drops.length → (dropAt s1 j).edges_idx.Nodup := by
    intro j hj
    by_cases hje : id = j
    · subst hje
      rw [hE1eq]
      exact hEnodup.filter _
    · rw [hdropAt1_ne j hje]
      exact hI.hDropNodup j (by rw [← hdlen1]; exact hj)
  have hsub1 : ∀ j, j < s1.drops.length →
      ∀ b ∈ (dropAt s1 j).edges_idx, b ∈ (dropAt s j).edges_idx := by
    intro j hj b hb
    by_cases hje : id = j
    · subst hje
      exact ((hmemE1 b).1 hb).1
    · rw [hdropAt1_ne j hje] at hb
      exact hb
  rw [procOne, hdid]
  dsimp only
  rw [hstepA]
  dsimp only
  have hdid1 : s1.drops[id]? = some (dropAt s1 id) := getElem?_eq_getD s1.drops id ⟨[], []⟩ hid1lt
  rw [hdid1]
  dsimp only
  by_cases hlen1 : (dropAt s1 id).edges_idx.length = 1
  · -- resolution branch: the droplet has remaining degree 1
    rw [if_pos hlen1]
    obtain ⟨fi, hEfi⟩ := List.length_eq_one.1 hlen1
    have hfimem : fi ∈ (dropAt s1 id).edges_idx := by
      rw [hEfi]
      exact List.mem_singleton_self fi
    have hfiE : fi ∈ (dropAt s id).edges_idx ∧ knownAt s fi = false := (hmemE1 fi).1 hfimem
    have hfiK : fi < K := hEbound fi hfiE.1
    have hsingle : ∀ b, (b ∈ (dropAt s id).edges_idx ∧ knownAt s b = false) ↔ b = fi := by
      intro b
      rw [← hmemE1 b, hEfi, List.mem_singleton]
    rw [hEfi]
    rw [show ([fi] : List ℕ)[0]? = some fi from rfl]
    dsimp only
    have hkfi1 : s1.blockKnown[fi]? = some false := by
      rw [getElem?_eq_getD s1.blockKnown fi false (by rw [hbk1, hI.hKnownLen]; exact hfiK)]
      exact congrArg some ((hknown1 fi).trans hfiE.2)
    rw [hkfi1]
    dsimp only
    rw [if_neg Bool.false_ne_true]
    have hbs1B : s1.blocksize = B := hbs1.trans hI.hB
    have hdata_id : (dropAt s1 id).data = copyChunk P P.length B fi := by
      have h1 := hrel1 id hid1lt
      rw [hEfi] at h1
      rw [h1, xorChunks_single]
    obtain ⟨buf2, hwb, hbuf2len, hbuf2fi, hbuf2other⟩ :=
      writeToBuf_block s.data (copyChunk P P.length B fi) fi B K hfiK hI.hDataLen
        (le_of_eq (copyChunk_length B fi (le_refl P.length)).symm)
    have hwb' : writeToBuf s1.data (dropAt s1 id).data (fi * s1.blocksize) s1.blocksize =
        some buf2 := by
      rw [hbs1B, hdata1, hdata_id]
      exact hwb
    rw [hwb']
    dsimp only
    have hlst : s1.blockEdges[fi]? = some (pendAt s fi ++ [id]) := by
      rw [getElem?_eq_getD s1.blockEdges fi [] (by rw [helen1, hI.hEdgesLen]; exact hfiK)]
      refine congrArg some ?_
      have h := hpend1 fi
      rw [if_pos ⟨hfiE.1, hfiE.2⟩] at h
      exact h
    rw [hlst]
    dsimp only
    have hbuf2fi' : (buf2.drop (fi * B)).take B = copyChunk P P.length B fi := by
      rw [hbuf2fi]
      exact List.take_of_length_le (le_of_eq (copyChunk_length B fi (le_refl P.length)))
    have hq1' : ∀ id2 ∈ (pendAt s fi ++ [id]).reverse,
        id2 < s1.drops.length ∧ fi ∈ (dropAt s1 id2).edges_idx := by
      intro id2 h2
      rw [List.mem_reverse] at h2
      rcases List.mem_append.1 h2 with h3 | h3
      · obtain ⟨hlt, hmem⟩ := hI.hRegRev fi hfiK id2 h3
        refine ⟨by rw [hdlen1]; exact hlt, ?_⟩
        by_cases hje : id = id2
        · subst hje
          exact hfimem
        · rw [hdropAt1_ne id2 hje]
          exact hmem
      · rw [List.mem_singleton] at h3
        subst h3
        exact ⟨hid1lt, hfimem⟩
    have hpendNodup := hW.hRegNodup fi hfiK
    have hq2' : ∀ id2, 2 ≤ ((pendAt s fi ++ [id]).reverse).count id2 →
        (dropAt s1 id2).edges_idx = [fi] := by
      intro id2 hcnt
      rw [List.count_reverse, List.count_append] at hcnt
      by_cases hii : id2 = id
      · subst hii
        exact hEfi
      · exfalso
        have hc1 : (pendAt s fi).count id2 ≤ 1 := List.nodup_iff_count_le_one.1 hpendNodup id2
        have hc2 : ([id] : List ℕ).count id2 = 0 := by
          rw [List.count_eq_zero]
          simp [hii]
        omega
    obtain ⟨s3, pushes, hdrain, hacc0, hu1, hu2, hu3, hu4, hu5, hu6, hu8⟩ :=
      drainList_spec P B K fi hfiK ((pendAt s fi ++ [id]).reverse)
        { s1 with
            data := buf2
            blockKnown := s1.blockKnown.set fi true
            unknown_chunks := s1.unknown_chunks - 1
            blockEdges := s1.blockEdges.set fi [] }
        []
        (by exact hbs1B) (by exact hbuf2len) (by exact hbuf2fi')
        (by exact hrel1) (by exact hnodup1) (by exact hq1') (by exact hq2')
        (by intro p hp; exact absurd hp (List.not_mem_nil p))
    obtain ⟨hbk3, hdata3, hbs3, hnoc3, htl3, hunk3, hcnt3, hdlen3, hbe3⟩ :=
      drainList_pres _ _ _ _ _ _ hdrain
    have hbk3' : s3.blockKnown = s1.blockKnown.set fi true := hbk3
    have hbs3' : s3.blocksize = B := hbs3.trans hbs1B
    have hnoc3' : s3.number_of_chunks = K := hnoc3.trans (hnoc1.trans hI.hK)
    have htl3' : s3.total_length = L := htl3.trans (htl1.trans hI.hL)
    have hunk3' : s3.unknown_chunks = s1.unknown_chunks - 1 := hunk3
    have hcnt3' : s3.cnt_received_drops = s.cnt_received_drops := hcnt3.trans hcnt1
    have hdlen3' : s3.drops.length = s.drops.length := hdlen3.trans hdlen1
    have hdata3' : s3.data = buf2 := hdata3
    have hbe3' : s3.blockEdges = s1.blockEdges.set fi [] := hbe3
    have hu1' : ∀ j, j < s1.drops.length → j ∉ (pendAt s fi ++ [id]).reverse →
        dropAt s3 j = dropAt s1 j := hu1
    have hu2' : ∀ j ∈ (pendAt s fi ++ [id]).reverse,
        ((dropAt s3 j).edges_idx = (dropAt s1 j).edges_idx.erase fi ∧
          2 ≤ (dropAt s1 j).edges_idx.length) ∨
        (dropAt s3 j = dropAt s1 j ∧ (dropAt s1 j).edges_idx.length = 1) := hu2
    have hu8' : ∀ p ∈ pushes, p ∈ (pendAt s fi ++ [id]).reverse := by
      intro p hp
      rcases hu8 p hp with h1 | h1
      · exact h1
      · exact absurd h1 (List.not_mem_nil p)
    have hkn3fi : knownAt s3 fi = true := by
      simp only [knownAt, hbk3', hbk1]
      exact getD_set_self s.blockKnown fi true false (by rw [hI.hKnownLen]; exact hfiK)
    have hkn3ne : ∀ b, fi ≠ b → knownAt s3 b = knownAt s b := by
      intro b hne
      simp only [knownAt, hbk3', hbk1]
      exact getD_set_ne s.blockKnown true false hne
    have hpend3fi : pendAt s3 fi = [] := by
      simp only [pendAt, hbe3']
      exact getD_set_self s1.blockEdges fi [] [] (by rw [helen1, hI.hEdgesLen]; exact hfiK)
    have hpend3ne : ∀ b, fi ≠ b → pendAt s3 b = pendAt s b := by
      intro b hne
      have h1 : pendAt s3 b = pendAt s1 b := by
        simp only [pendAt, hbe3']
        exact getD_set_ne s1.blockEdges [] [] hne
      rw [h1, hpend1 b, if_neg]
      intro hc
      exact hne ((hsingle b).1 hc).symm
    have hmemL : ∀ j, j ∈ (pendAt s fi ++ [id]).reverse ↔ (j ∈ pendAt s fi ∨ j = id) := by
      intro j
      rw [List.mem_reverse, List.mem_append, List.mem_singleton]
    have hidL : id ∈ (pendAt s fi ++ [id]).reverse := (hmemL id).2 (Or.inr rfl)
    have hid3 : dropAt s3 id = dropAt s1 id := by
      rcases hu2' id hidL with ⟨he, hge⟩ | ⟨he, h1⟩
      · rw [hEfi] at hge
        simp at hge
      · exact he
    have hidpush : id ∈ pushes := hu6 id hidL (by simp [hid3, hEfi])
    have hL_fact : ∀ j, j ∈ pendAt s fi → j ≠ id →
        ((dropAt s3 j).edges_idx = (dropAt s j).edges_idx.erase fi ∧
          2 ≤ (dropAt s j).edges_idx.length) ∨
        (dropAt s3 j = dropAt s j ∧ (dropAt s j).edges_idx.length = 1) := by
      intro j hjm hnid
      have hjd : dropAt s1 j = dropAt s j := hdropAt1_ne j (fun hc => hnid hc.symm)
      have h2 := hu2' j ((hmemL j).2 (Or.inl hjm))
      rw [hjd] at h2
      exact h2
    have hun3 : ∀ j, j < s.drops.length → j ∉ pendAt s fi → j ≠ id →
        dropAt s3 j = dropAt s j := by
      intro j hj hnp hnid
      have h0 : j ∉ (pendAt s fi ++ [id]).reverse := by
        rw [hmemL j]
        rintro (h | h)
        · exact hnp h
        · exact hnid h
      rw [hu1' j (by rw [hdlen1]; exact hj) h0]
      exact hdropAt1_ne j (fun hc => hnid hc.symm)
    refine ⟨s3, pushes, hdrain, ?_, ?_, ?_, hcnt3'⟩
    · -- InvCore for the post-resolution state
      refine ⟨hbs3', hnoc3', htl3', ?_, ?_, ?_, ?_, ?_, ?_, ?_, hI.hOrig, hu3, ?_, hu4,
        ?_, ?_, ?_, ?_⟩
      · rw [hbk3', List.length_set, hbk1, hI.hKnownLen]
      · rw [hbe3', List.length_set, helen1, hI.hEdgesLen]
      · rw [hdata3']
        exact hbuf2len
      · rw [hdlen3']
        exact hI.hArena
      · rw [hunk3', hunk1, hI.hUnknown, hbk3', hbk1]
        have hbkfi : s.blockKnown[fi]? = some false := by
          rw [getElem?_eq_getD s.blockKnown fi false (by rw [hI.hKnownLen]; exact hfiK)]
          exact congrArg some hfiE.2
        have h1 := countFalse_set_true_eq s.blockKnown fi hbkfi
        omega
      · intro i hi hk
        rw [hdata3']
        by_cases hif : fi = i
        · subst hif
          exact hbuf2fi'
        · rw [hbuf2other i hi (fun hc => hif hc.symm)]
          apply hI.hChunkKnown i hi
          rw [← hkn3ne i hif]
          exact hk
      · intro i hi hk
        have hif : fi ≠ i := by
          intro hc
          rw [← hc, hkn3fi] at hk
          simp at hk
        rw [hdata3', hbuf2other i hi (fun hc => hif hc.symm)]
        apply hI.hChunkUnknown i hi
        rw [← hkn3ne i hif]
        exact hk
      · -- hDropSub
        intro j hj b hb
        have hjs : j < s.drops.length := by rw [← hdlen3']; exact hj
        have hbs' : b ∈ (dropAt s j).edges_idx := by
          by_cases hjid : j = id
          · subst hjid
            rw [hid3] at hb
            exact hsub1 j hid1lt b hb
          · by_cases hjp : j ∈ pendAt s fi
            · rcases hL_fact j hjp hjid with ⟨he, h2⟩ | ⟨he, h2⟩
              · rw [he] at hb
                exact List.mem_of_mem_erase hb
              · rw [he] at hb
                exact hb
            · rw [hun3 j hjs hjp hjid] at hb
              exact hb
        exact hI.hDropSub j hjs b hbs'
      · -- hRemovedKnown
        intro j hj b hbo hnb
        have hjs : j < s.drops.length := by rw [← hdlen3']; exact hj
        by_cases hbfi : b = fi
        · subst hbfi
          exact hkn3fi
        · rw [hkn3ne b (fun hc => hbfi hc.symm)]
          by_cases hbE : b ∈ (dropAt s j).edges_idx
          · by_cases hjid : j = id
            · subst hjid
              cases hk : knownAt s b
              · exact absurd ((hsingle b).1 ⟨hbE, hk⟩) hbfi
              · rfl
            · by_cases hjp : j ∈ pendAt s fi
              · rcases hL_fact j hjp hjid with ⟨he, h2⟩ | ⟨he, h2⟩
                · exact absurd (by rw [he]; exact (List.mem_erase_of_ne hbfi).2 hbE) hnb
                · exact absurd (by rw [he]; exact hbE) hnb
              · exact absurd (by rw [hun3 j hjs hjp hjid]; exact hbE) hnb
          · exact hI.hRemovedKnown j hjs b hbo hbE
      · -- hRegRev
        intro b hb id2 hid2m
        by_cases hbfi : fi = b
        · subst hbfi
          rw [hpend3fi] at hid2m
          exact absurd hid2m (List.not_mem_nil id2)
        · rw [hpend3ne b hbfi] at hid2m
          obtain ⟨hlt, hmem⟩ := hI.hRegRev b hb id2 hid2m
          refine ⟨by rw [hdlen3']; exact hlt, ?_⟩
          by_cases hjid : id2 = id
          · subst hjid
            exfalso
            rcases hW.hWlShort id2 (List.mem_cons_self id2 rest) with ha | hbq
            · have h0 : 0 < (dropAt s id2).edges_idx.length := List.length_pos_of_mem hmem
              have h1 : (dropAt s id2).edges_idx.length = 1 := by omega
              obtain ⟨x, hx⟩ := List.length_eq_one.1 h1
              have hbx : b = x := by
                rw [hx, List.mem_singleton] at hmem
                exact hmem
              have h2 := hfiE.1
              rw [hx, List.mem_singleton] at h2
              exact hbfi (h2.trans hbx.symm)
            · exact hbq.1 b hb hid2m
          · by_cases hjp : id2 ∈ pendAt s fi
            · rcases hL_fact id2 hjp hjid with ⟨he, h2⟩ | ⟨he, h2⟩
              · rw [he]
                exact (List.mem_erase_of_ne (fun hc => hbfi hc.symm)).2 hmem
              · rw [he]
                exact hmem
            · rw [hun3 id2 hlt hjp hjid]
              exact hmem
      · -- hKnownEmpty
        intro b hb hk
        by_cases hbfi : fi = b
        · subst hbfi
          exact hpend3fi
        · rw [hpend3ne b hbfi]
          apply hI.hKnownEmpty b hb
          rw [← hkn3ne b hbfi]
          exact hk
      · -- hPeeled
        intro b hb hk
        by_cases hbfi : fi = b
        · subst hbfi
          refine Peeled.step (origs.getD id []) horigmem fi (hI.hDropSub id hidlt fi hfiE.1) ?_
          intro c hc hcfi
          have hcK : c < K := (hI.hOrig _ horigmem).2 c hc
          by_cases hcE : c ∈ (dropAt s id).edges_idx
          · cases hck : knownAt s c
            · exact absurd ((hsingle c).1 ⟨hcE, hck⟩) hcfi
            · exact hI.hPeeled c hcK hck
          · exact hI.hPeeled c hcK (hI.hRemovedKnown id hidlt c hc hcE)
        · exact hI.hPeeled b hb (by rw [← hkn3ne b hbfi]; exact hk)
    · -- InvWl for the post-resolution state
      refine ⟨?_, ?_, ?_, ?_, ?_, ?_⟩
      · intro id2 h2
        rcases List.mem_append.1 h2 with h3 | h3
        · exact (hu5 id2 h3).1
        · rw [hdlen3']
          exact hW.hWl id2 (List.mem_cons_of_mem id h3)
      · -- hWlShort
        intro id2 h2
        rcases List.mem_append.1 h2 with h3 | h3
        · exact Or.inl (le_of_eq (hu5 id2 h3).2)
        · rcases hW.hWlShort id2 (List.mem_cons_of_mem id h3) with ha | ⟨hb1, hb2⟩
          · left
            by_cases hjid : id2 = id
            · subst hjid
              simp [hid3, hEfi]
            · by_cases hjp : id2 ∈ pendAt s fi
              · rcases hL_fact id2 hjp hjid with ⟨he, hge⟩ | ⟨he, h4⟩
                · omega
                · rw [he]
                  exact ha
              · have hlt2 : id2 < s.drops.length := hW.hWl id2 (List.mem_cons_of_mem id h3)
                rw [hun3 id2 hlt2 hjp hjid]
                exact ha
          · right
            have hne : id2 ≠ id := by
              intro hc
              subst hc
              have h0 : rest.count id2 ≠ 0 := fun h0 => (List.count_eq_zero.1 h0) h3
              rw [List.count_cons_self] at hb2
              omega
            have hnp : id2 ∉ pushes := by
              intro hc
              rcases (hmemL id2).1 (hu8' id2 hc) with h4 | h4
              · exact hb1 fi hfiK h4
              · exact hne h4
            constructor
            · intro b hbK hc
              by_cases hbfi : fi = b
              · subst hbfi
                rw [hpend3fi] at hc
                exact List.not_mem_nil id2 hc
              · rw [hpend3ne b hbfi] at hc
                exact hb1 b hbK hc
            · rw [List.count_append]
              have h5 : pushes.count id2 = 0 := List.count_eq_zero.2 hnp
              rw [List.count_cons] at hb2
              omega
      · -- hNoKnownEdge
        intro j hj hnj b hbj
        have hjs : j < s.drops.length := by rw [← hdlen3']; exact hj
        have hjid : j ≠ id := by
          intro hc
          subst hc
          exact hnj (List.mem_append_left rest hidpush)
        have hjr : j ∉ rest := fun hc => hnj (List.mem_append_right pushes hc)
        have hjwl : j ∉ id :: rest := by
          rw [List.mem_cons]
          rintro (h | h)
          · exact hjid h
          · exact hjr h
        by_cases hjp : j ∈ pendAt s fi
        · rcases hL_fact j hjp hjid with ⟨he, h2⟩ | ⟨he, hl1⟩
          · rw [he] at hbj
            have hbne : b ≠ fi := by
              intro hc
              subst hc
              exact (hI.hDropNodup j hjs).not_mem_erase hbj
            rw [hkn3ne b (fun hc => hbne hc.symm)]
            exact hW.hNoKnownEdge j hjs hjwl b (List.mem_of_mem_erase hbj)
          · exact absurd hl1 (hW.hNoSingleton j hjs hjwl)
        · rw [hun3 j hjs hjp hjid] at hbj
          have hbne : b ≠ fi := by
            intro hc
            subst hc
            exact hjp (hW.hReg j hjs hjwl b hbj)
          rw [hkn3ne b (fun hc => hbne hc.symm)]
          exact hW.hNoKnownEdge j hjs hjwl b hbj
      · -- hNoSingleton
        intro j hj hnj
        have hjs : j < s.drops.length := by rw [← hdlen3']; exact hj
        have hjid : j ≠ id := by
          intro hc
          subst hc
          exact hnj (List.mem_append_left rest hidpush)
        have hjr : j ∉ rest := fun hc => hnj (List.mem_append_right pushes hc)
        have hjwl : j ∉ id :: rest := by
          rw [List.mem_cons]
          rintro (h | h)
          · exact hjid h
          · exact hjr h
        by_cases hjp : j ∈ pendAt s fi
        · intro hl1
          exact hnj (List.mem_append_left rest (hu6 j ((hmemL j).2 (Or.inl hjp)) hl1))
        · rw [hun3 j hjs hjp hjid]
          exact hW.hNoSingleton j hjs hjwl
      · -- hReg
        intro j hj hnj b hbj
        have hjs : j < s.drops.length := by rw [← hdlen3']; exact hj
        have hjid : j ≠ id := by
          intro hc
          subst hc
          exact hnj (List.mem_append_left rest hidpush)
        have hjr : j ∉ rest := fun hc => hnj (List.mem_append_right pushes hc)
        have hjwl : j ∉ id :: rest := by
          rw [List.mem_cons]
          rintro (h | h)
          · exact hjid h
          · exact hjr h
        by_cases hjp : j ∈ pendAt s fi
        · rcases hL_fact j hjp hjid with ⟨he, h2⟩ | ⟨he, hl1⟩
          · rw [he] at hbj
            have hbne : fi ≠ b := by
              intro hc
              rw [← hc] at hbj
              exact (hI.hDropNodup j hjs).not_mem_erase hbj
            rw [hpend3ne b hbne]
            exact hW.hReg j hjs hjwl b (List.mem_of_mem_erase hbj)
          · exact absurd hl1 (hW.hNoSingleton j hjs hjwl)
        · rw [hun3 j hjs hjp hjid] at hbj
          have hbne : fi ≠ b := by
            intro hc
            rw [hc] at hjp
            exact hjp (hW.hReg j hjs hjwl b hbj)
          rw [hpend3ne b hbne]
          exact hW.hReg j hjs hjwl b hbj
      · -- hRegNodup
        intro b hbK
        by_cases hbfi : fi = b
        · subst hbfi
          rw [hpend3fi]
          exact List.nodup_nil
        · rw [hpend3ne b hbfi]
          exact hW.hRegNodup b hbK
    · -- monotonicity of the known flags
      intro b hk
      by_cases hbfi : fi = b
      · subst hbfi
        exact hkn3fi
      · rw [hkn3ne b hbfi]
        exact hk
  · -- no-resolution branch: remaining degree is not 1
    rw [if_neg hlen1]
    refine ⟨s1, [], rfl, ?_, ?_, ?_, hcnt1⟩
    · -- InvCore after step A alone
      refine ⟨hbs1.trans hI.hB, hnoc1.trans hI.hK, htl1.trans hI.hL,
        by rw [hbk1]; exact hI.hKnownLen, by rw [helen1]; exact hI.hEdgesLen,
        by rw [hdata1]; exact hI.hDataLen, by rw [hdlen1]; exact hI.hArena,
        by rw [hunk1, hbk1]; exact hI.hUnknown, ?_, ?_, hI.hOrig, hrel1, ?_, hnodup1,
        ?_, ?_, ?_, ?_⟩
      · intro i hi hk
        rw [hdata1]
        exact hI.hChunkKnown i hi (by rw [← hknown1 i]; exact hk)
      · intro i hi hk
        rw [hdata1]
        exact hI.hChunkUnknown i hi (by rw [← hknown1 i]; exact hk)
      · intro j hj b hb
        exact hI.hDropSub j (by rw [← hdlen1]; exact hj) b (hsub1 j hj b hb)
      · -- hRemovedKnown
        intro j hj b hbo hnb
        have hjs : j < s.drops.length := by rw [← hdlen1]; exact hj
        rw [hknown1 b]
        by_cases hje : id = j
        · subst hje
          by_cases hbE : b ∈ (dropAt s id).edges_idx
          · cases hk : knownAt s b
            · exact absurd ((hmemE1 b).2 ⟨hbE, hk⟩) hnb
            · rfl
          · exact hI.hRemovedKnown id hidlt b hbo hbE
        · rw [hdropAt1_ne j hje] at hnb
          exact hI.hRemovedKnown j hjs b hbo hnb
      · -- hRegRev
        intro b hb id2 h2
        rw [hpend1 b] at h2
        by_cases hbc : b ∈ (dropAt s id).edges_idx ∧ knownAt s b = false
        · rw [if_pos hbc] at h2
          rcases List.mem_append.1 h2 with h3 | h3
          · obtain ⟨hlt, hmem⟩ := hI.hRegRev b hb id2 h3
            refine ⟨by rw [hdlen1]; exact hlt, ?_⟩
            by_cases hje : id = id2
            · subst hje
              exact (hmemE1 b).2 ⟨hmem, hbc.2⟩
            · rw [hdropAt1_ne id2 hje]
              exact hmem
          · rw [List.mem_singleton] at h3
            subst h3
            exact ⟨hid1lt, (hmemE1 b).2 hbc⟩
        · rw [if_neg hbc] at h2
          obtain ⟨hlt, hmem⟩ := hI.hRegRev b hb id2 h2
          refine ⟨by rw [hdlen1]; exact hlt, ?_⟩
          by_cases hje : id = id2
          · subst hje
            exfalso
            cases hk : knownAt s b
            · exact hbc ⟨hmem, hk⟩
            · have h4 := hI.hKnownEmpty b hb hk
              rw [h4] at h2
              exact List.not_mem_nil _ h2
          · rw [hdropAt1_ne id2 hje]
            exact hmem
      · -- hKnownEmpty
        intro b hb hk
        have hk' : knownAt s b = true := by rw [← hknown1 b]; exact hk
        have hne2 : ¬(b ∈ (dropAt s id).edges_idx ∧ knownAt s b = false) := by
          intro hc
          rw [hk'] at hc
          simp at hc
        rw [hpend1 b, if_neg hne2]
        exact hI.hKnownEmpty b hb hk'
      · -- hPeeled
        intro b hb hk
        exact hI.hPeeled b hb (by rw [← hknown1 b]; exact hk)
    · -- InvWl after step A alone
      have hpendNoDup' : ∀ b, b ∈ (dropAt s id).edges_idx → knownAt s b = false →
          id ∉ pendAt s b := by
        intro b hbE hbk hmem
        rcases hW.hWlShort id (List.mem_cons_self id rest) with ha | hbq
        · have h0 : 0 < (dropAt s id).edges_idx.length := List.length_pos_of_mem hbE
          have h1 : (dropAt s id).edges_idx.length = 1 := by omega
          obtain ⟨x, hx⟩ := List.length_eq_one.1 h1
          have hbx : b = x := by
            rw [hx, List.mem_singleton] at hbE
            exact hbE
          subst hbx
          apply hlen1
          rw [hE1eq, hx]
          simp [keepEdge, hbk]
        · exact hbq.1 b (hEbound b hbE) hmem
      refine ⟨?_, ?_, ?_, ?_, ?_, ?_⟩
      · intro id2 h2
        rw [hdlen1]
        exact hW.hWl id2 (List.mem_cons_of_mem id h2)
      · -- hWlShort
        intro id2 h2
        rcases hW.hWlShort id2 (List.mem_cons_of_mem id h2) with ha | ⟨hb1, hb2⟩
        · left
          by_cases hje : id = id2
          · subst hje
            rw [hE1eq]
            have h1 := List.length_filter_le (keepEdge s (dropAt s id).edges_idx)
              (dropAt s id).edges_idx
            omega
          · rw [hdropAt1_ne id2 hje]
            exact ha
        · right
          have hne : id2 ≠ id := by
            intro hc
            subst hc
            have h0 : rest.count id2 ≠ 0 := fun h0 => (List.count_eq_zero.1 h0) h2
            rw [List.count_cons_self] at hb2
            omega
          constructor
          · intro b hbK hc
            rw [hpend1 b] at hc
            by_cases hbc : b ∈ (dropAt s id).edges_idx ∧ knownAt s b = false
            · rw [if_pos hbc] at hc
              rcases List.mem_append.1 hc with h3 | h3
              · exact hb1 b hbK h3
              · rw [List.mem_singleton] at h3
                exact hne h3
            · rw [if_neg hbc] at hc
              exact hb1 b hbK hc
          · rw [List.count_cons] at hb2
            simp only [List.nil_append]
            omega
      · -- hNoKnownEdge
        intro j hj hnj b hbj
        rw [hknown1 b]
        by_cases hje : id = j
        · subst hje
          exact ((hmemE1 b).1 hbj).2
        · rw [hdropAt1_ne j hje] at hbj
          exact hW.hNoKnownEdge j (by rw [← hdlen1]; exact hj) (by
            rw [List.mem_cons]
            rintro (h | h)
            · exact hje h.symm
            · exact hnj h) b hbj
      · -- hNoSingleton
        intro j hj hnj
        by_cases hje : id = j
        · subst hje
          exact hlen1
        · rw [hdropAt1_ne j hje]
          exact hW.hNoSingleton j (by rw [← hdlen1]; exact hj) (by
            rw [List.mem_cons]
            rintro (h | h)
            · exact hje h.symm
            · exact hnj h)
      · -- hReg
        intro j hj hnj b hbj
        by_cases hje : id = j
        · subst hje
          have hbc := (hmemE1 b).1 hbj
          rw [hpend1 b, if_pos hbc]
          exact List.mem_append_right _ (List.mem_singleton_self id)
        · rw [hdropAt1_ne j hje] at hbj
          have hmem := hW.hReg j (by rw [← hdlen1]; exact hj) (by
            rw [List.mem_cons]
            rintro (h | h)
            · exact hje h.symm
            · exact hnj h) b hbj
          rw [hpend1 b]
          by_cases hbc : b ∈ (dropAt s id).edges_idx ∧ knownAt s b = false
          · rw [if_pos hbc]
            exact List.mem_append_left _ hmem
          · rw [if_neg hbc]
            exact hmem
      · -- hRegNodup
        intro b hbK
        rw [hpend1 b]
        by_cases hbc : b ∈ (dropAt s id).edges_idx ∧ knownAt s b = false
        · rw [if_pos hbc, List.nodup_append]
          refine ⟨hW.hRegNodup b hbK, List.nodup_singleton id, ?_⟩
          intro a ha hc
          rw [List.mem_singleton] at hc
          subst hc
          exact hpendNoDup' b hbc.1 hbc.2 ha
        · rw [if_neg hbc]
          exact hW.hRegNodup b hbK
    · -- monotonicity of the known flags
      intro b hk
      rw [hknown1 b]
      exact hk

theorem zipXor_append {a1 a2 b1 b2 : List ℕ} (h : a1.length = b1.length) :
    zipXor (a1 ++ a2) (b1 ++ b2) = zipXor a1 b1 ++ zipXor a2 b2 := by
  rw [zipXor, zipXor, zipXor, List.zipWith_append _ _ _ _ _ h]

/-- The Random-arm inner loop over one chunk equals an XOR with the padded
chunk. -/
theorem xorChunkInto_eq (P : List ℕ) (B : ℕ) {k : ℕ} {r : List ℕ} (hr : r.length = B) :
    xorChunkInto r P P.length B k = zipXor r (copyChunk P P.length B k) := by
  rw [xorChunkInto, copyChunk]
  have hkB : (k + 1) * B = k * B + B := by ring
  have hm : min ((k + 1) * B) P.length - k * B ≤ B := by
    rcases Nat.le_total ((k + 1) * B) P.length with hc | hc
    · rw [min_eq_left hc]
      omega
    · rw [min_eq_right hc]
      omega
  have hx : ((P.drop (k * B)).take (min ((k + 1) * B) P.length - k * B)).length
      = min ((k + 1) * B) P.length - k * B := by
    rw [List.length_take, List.length_drop]
    apply min_eq_left
    have h1 : min ((k + 1) * B) P.length ≤ P.length := min_le_right _ _
    omega
  have hth : (r.take (min ((k + 1) * B) P.length - k * B)).length
      = ((P.drop (k * B)).take (min ((k + 1) * B) P.length - k * B)).length := by
    rw [hx, List.length_take]
    exact min_eq_left (by omega)
  conv_rhs => rw [← List.take_append_drop (min ((k + 1) * B) P.length - k * B) r]
  rw [zipXor_append hth]
  congr 1
  rw [zipXor_comm]
  refine (zipXor_zeroes_left (le_of_eq ?_)).symm
  rw [List.length_drop, hr]

/-- The Random-arm droplet builder: folding the XOR loop over the sampled
chunk indices produces exactly the XOR of the padded chunks. -/
theorem foldl_xorChunkInto (P : List ℕ) (B : ℕ) :
    ∀ (sample : List ℕ) (r : List ℕ), r.length = B →
      sample.foldl (fun r2 k => xorChunkInto r2 P P.length B k) r =
        zipXor r (xorChunks P P.length B sample) := by
  intro sample
  induction sample with
  | nil =>
    intro r hr
    rw [List.foldl_nil, xorChunks, zipXor_comm]
    exact (zipXor_zeroes_left (le_of_eq hr)).symm
  | cons k rest ih =>
    intro r hr
    rw [List.foldl_cons, xorChunkInto_eq P B hr,
      ih _ (by rw [zipXor_length, hr, copyChunk_length B k (le_refl P.length), min_self]),
      xorChunks]
    exact zipXor_assoc r _ _

theorem encoder_random_payload (P : List ℕ) (B : ℕ) (sample : List ℕ) :
    sample.foldl (fun r2 k => xorChunkInto r2 P P.length B k) (zeroes B) =
      xorChunks P P.length B sample := by
  rw [foldl_xorChunkInto P B sample (zeroes B) (by rw [zeroes, List.length_replicate])]
  exact zipXor_zeroes_left (le_of_eq (xorChunks_length B (le_refl P.length) sample))

theorem procLoop_nil (s : Decoder) : procLoop s [] = some s := by
  rw [procLoop]

theorem procLoop_cons (s : Decoder) (id : ℕ) (rest : List ℕ) {s2 : Decoder} {pushes : List ℕ}
    (h : procOne s id = some (s2, pushes)) :
    procLoop s (id :: rest) = procLoop s2 (pushes ++ rest) := by
  rw [procLoop]
  split
  next h2 =>
    rw [h] at h2
    cases h2
  next s2' pushes' h2 =>
    rw [h] at h2
    injection h2 with h3
    rw [Prod.mk.injEq] at h3
    rw [h3.1, h3.2]

/-- The peeling loop runs to completion from any state satisfying the
invariants, and its final state satisfies the decoder invariant with an empty
worklist; resolved chunks stay resolved. -/
theorem procLoop_master {P : List ℕ} {B K L : ℕ} {origs : List (List ℕ)}
    (s : Decoder) (wl : List ℕ) :
    InvCore P B K L origs s → InvWl K s wl →
    ∃ s2, procLoop s wl = some s2 ∧ InvCore P B K L origs s2 ∧ InvWl K s2 [] ∧
      (∀ b, knownAt s b = true → knownAt s2 b = true) ∧
      s2.cnt_received_drops = s.cnt_received_drops := by
  induction s, wl using procLoop.induct with
  | case1 s =>
    intro hI hW
    exact ⟨s, procLoop_nil s, hI, hW, fun b hk => hk, rfl⟩
  | case2 s id rest h =>
    intro hI hW
    obtain ⟨s3, pushes2, heq, -, -, -, -⟩ := procOne_master hI hW
    rw [heq] at h
    cases h
  | case3 s id rest s2 pushes h ih =>
    intro hI hW
    obtain ⟨s3, pushes2, heq, hI3, hW3, hmono, hcnt⟩ := procOne_master hI hW
    have h2 : some (s2, pushes) = some (s3, pushes2) := h.symm.trans heq
    injection h2 with h3
    rw [Prod.mk.injEq] at h3
    obtain ⟨hh1, hh2⟩ := h3
    subst hh1
    subst hh2
    obtain ⟨s4, hrun, hI4, hW4, hmono4, hcnt4⟩ := ih hI3 hW3
    exact ⟨s4, (procLoop_cons s id rest h).trans hrun, hI4, hW4,
      fun b hk => hmono4 b (hmono b hk), hcnt4.trans hcnt⟩

theorem getD_append_left {α : Type} (l1 l2 : List α) (j : ℕ) (d : α) (h : j < l1.length) :
    (l1 ++ l2).getD j d = l1.getD j d := by
  rw [List.getD_eq_getElem?_getD, List.getElem?_append_left h, ← List.getD_eq_getElem?_getD]

theorem getD_append_concat_self {α : Type} (l : List α) (a : α) (d : α) :
    (l ++ [a]).getD l.length d = a := by
  rw [List.getD_eq_getElem?_getD, List.getElem?_concat_length]
  rfl

/-- `Decoder::process_droplet` on a fresh well-formed droplet: the droplet is
allocated at the end of the arena and the peeling loop preserves the decoder
invariant, with the droplet's neighbor list appended to the resolution
history. -/
theorem processDroplet_master {P : List ℕ} {B K L : ℕ} {origs : List (List ℕ)} {s : Decoder}
    {edges data : List ℕ}
    (hI : InvCore P B K L origs s) (hW : InvWl K s [])
    (hwf : WellFormedRx P B K edges data) :
    ∃ s2, processDroplet s ⟨edges, data⟩ = some s2 ∧
      InvCore P B K L (origs ++ [edges]) s2 ∧ InvWl K s2 [] ∧
      (∀ b, knownAt s b = true → knownAt s2 b = true) ∧
      s2.cnt_received_drops = s.cnt_received_drops := by
  obtain ⟨hnd, hbound, hrel⟩ := hwf
  have hjlt : ∀ {j : ℕ},
      j < ({ s with drops := s.drops ++ [⟨edges, data⟩] } : Decoder).drops.length →
      j < s.drops.length + 1 := by
    intro j hj
    have hj2 : j < (s.drops ++ [(⟨edges, data⟩ : RxDroplet)]).length := hj
    rw [List.length_append] at hj2
    simpa using hj2
  have hltN : ∀ {j : ℕ}, j < s.drops.length + 1 →
      j < ({ s with drops := s.drops ++ [⟨edges, data⟩] } : Decoder).drops.length := by
    intro j hj
    show j < (s.drops ++ [(⟨edges, data⟩ : RxDroplet)]).length
    rw [List.length_append]
    simpa using hj
  have hdN_old : ∀ j, j < s.drops.length →
      dropAt { s with drops := s.drops ++ [⟨edges, data⟩] } j = dropAt s j := by
    intro j hj
    show (s.drops ++ [(⟨edges, data⟩ : RxDroplet)]).getD j ⟨[], []⟩ = s.drops.getD j ⟨[], []⟩
    exact getD_append_left _ _ j _ hj
  have hdN_new : dropAt { s with drops := s.drops ++ [⟨edges, data⟩] } s.drops.length
      = ⟨edges, data⟩ := by
    show (s.drops ++ [(⟨edges, data⟩ : RxDroplet)]).getD s.drops.length ⟨[], []⟩ = _
    exact getD_append_concat_self _ _ _
  have hoN_old : ∀ j, j < origs.length → (origs ++ [edges]).getD j [] = origs.getD j [] :=
    fun j hj => getD_append_left _ _ j _ hj
  have hoN_new : (origs ++ [edges]).getD origs.length [] = edges := getD_append_concat_self _ _ _
  have hIN : InvCore P B K L (origs ++ [edges])
      { s with drops := s.drops ++ [⟨edges, data⟩] } := by
    refine ⟨hI.hB, hI.hK, hI.hL, hI.hKnownLen, hI.hEdgesLen, hI.hDataLen, ?_, hI.hUnknown,
      hI.hChunkKnown, hI.hChunkUnknown, ?_, ?_, ?_, ?_, ?_, ?_, hI.hKnownEmpty, ?_⟩
    · show (s.drops ++ [(⟨edges, data⟩ : RxDroplet)]).length = (origs ++ [edges]).length
      rw [List.length_append, List.length_append, hI.hArena]
      rfl
    · intro o ho
      rcases List.mem_append.1 ho with h1 | h1
      · exact hI.hOrig o h1
      · rw [List.mem_singleton] at h1
        subst h1
        exact ⟨hnd, hbound⟩
    · intro j hj
      rcases Nat.lt_or_ge j s.drops.length with hjl | hjg
      · rw [hdN_old j hjl]
        exact hI.hDropRel j hjl
      · have hje : j = s.drops.length := by
          have := hjlt hj
          omega
        subst hje
        rw [hdN_new]
        exact hrel
    · intro j hj b hb
      rcases Nat.lt_or_ge j s.drops.length with hjl | hjg
      · rw [hdN_old j hjl] at hb
        rw [hoN_old j (by rw [← hI.hArena]; exact hjl)]
        exact hI.hDropSub j hjl b hb
      · have hje : j = s.drops.length := by
          have := hjlt hj
          omega
        subst hje
        rw [hdN_new] at hb
        rw [hI.hArena, hoN_new]
        exact hb
    · intro j hj
      rcases Nat.lt_or_ge j s.drops.length with hjl | hjg
      · rw [hdN_old j hjl]
        exact hI.hDropNodup j hjl
      · have hje : j = s.drops.length := by
          have := hjlt hj
          omega
        subst hje
        rw [hdN_new]
        exact hnd
    · intro j hj b hbo hnb
      rcases Nat.lt_or_ge j s.drops.length with hjl | hjg
      · rw [hdN_old j hjl] at hnb
        rw [hoN_old j (by rw [← hI.hArena]; exact hjl)] at hbo
        exact hI.hRemovedKnown j hjl b hbo hnb
      · have hje : j = s.drops.length := by
          have := hjlt hj
          omega
        subst hje
        rw [hdN_new] at hnb
        rw [hI.hArena, hoN_new] at hbo
        exact absurd hbo hnb
    · intro b hb id2 h2
      have h2' : id2 ∈ pendAt s b := h2
      obtain ⟨hlt, hmem⟩ := hI.hRegRev b hb id2 h2'
      refine ⟨hltN (by omega), ?_⟩
      rw [hdN_old id2 hlt]
      exact hmem
    · intro b hb hk
      exact Peeled_mono (fun o ho => List.mem_append_left _ ho) (hI.hPeeled b hb hk)
  have hWN : InvWl K { s with drops := s.drops ++ [⟨edges, data⟩] } [s.drops.length] := by
    refine ⟨?_, ?_, ?_, ?_, ?_, ?_⟩
    · intro id2 h2
      rw [List.mem_singleton] at h2
      subst h2
      exact hltN (by omega)
    · intro id2 h2
      rw [List.mem_singleton] at h2
      subst h2
      right
      constructor
      · intro b hbK hc
        have hc' : s.drops.length ∈ pendAt s b := hc
        have h3 := (hI.hRegRev b hbK _ hc').1
        omega
      · rw [List.count_cons_self, List.count_nil]
    · intro j hj hnj b hbj
      have hjl : j < s.drops.length := by
        have h1 := hjlt hj
        have h2 : j ≠ s.drops.length := by
          intro hc
          apply hnj
          rw [hc]
          exact List.mem_singleton_self _
        omega
      rw [hdN_old j hjl] at hbj
      exact hW.hNoKnownEdge j hjl (List.not_mem_nil j) b hbj
    · intro j hj hnj
      have hjl : j < s.drops.length := by
        have h1 := hjlt hj
        have h2 : j ≠ s.drops.length := by
          intro hc
          apply hnj
          rw [hc]
          exact List.mem_singleton_self _
        omega
      rw [hdN_old j hjl]
      exact hW.hNoSingleton j hjl (List.not_mem_nil j)
    · intro j hj hnj b hbj
      have hjl : j < s.drops.length := by
        have h1 := hjlt hj
        have h2 : j ≠ s.drops.length := by
          intro hc
          apply hnj
          rw [hc]
          exact List.mem_singleton_self _
        omega
      rw [hdN_old j hjl] at hbj
      exact hW.hReg j hjl (List.not_mem_nil j) b hbj
    · intro b hbK
      exact hW.hRegNodup b hbK
  obtain ⟨s2, hrun, hI2, hW2, hmono, hcnt⟩ :=
    procLoop_master { s with drops := s.drops ++ [⟨edges, data⟩] } [s.drops.length] hIN hWN
  exact ⟨s2, hrun, hI2, hW2, fun b hk => hmono b hk, hcnt⟩

/-- The `Statistics` record built at the end of `Decoder::catch`. -/
def catchStats (s2 : Decoder) : Statistics :=
  ⟨s2.cnt_received_drops, s2.number_of_chunks,
    f32div (f32mul (toF32 s2.cnt_received_drops) 100) (toF32 s2.number_of_chunks),
    s2.unknown_chunks⟩

/-- Full characterization of `Decoder::catch` on a well-formed droplet from an
invariant state: the droplet is processed, the invariant extends by its
neighbor list, and the result is `Finished`/`Missing` according to the
remaining unknown count (with the `none` case exactly when the buffer is
shorter than the total length). -/
theorem catch_master {P : List ℕ} {B K L : ℕ} {origs : List (List ℕ)} {s : Decoder}
    (drop : Droplet) (hI : InvCore P B K L origs s) (hW : InvWl K s [])
    (hwf : WellFormedRx P B K (resolveEdges K drop) drop.data) :
    ∃ s2, InvCore P B K L (origs ++ [resolveEdges K drop]) s2 ∧ InvWl K s2 [] ∧
      (∀ b, knownAt s b = true → knownAt s2 b = true) ∧
      s2.cnt_received_drops = s.cnt_received_drops + 1 ∧
      ((s2.unknown_chunks = 0 ∧ L ≤ K * B ∧
          Decoder.catch s drop =
            some (CatchResult.Finished (s2.data.take L) (catchStats s2), s2)) ∨
        (s2.unknown_chunks = 0 ∧ ¬L ≤ K * B ∧ Decoder.catch s drop = none) ∨
        (s2.unknown_chunks ≠ 0 ∧
          Decoder.catch s drop = some (CatchResult.Missing (catchStats s2), s2))) := by
  have hI1 : InvCore P B K L origs
      { s with cnt_received_drops := s.cnt_received_drops + 1 } :=
    ⟨hI.hB, hI.hK, hI.hL, hI.hKnownLen, hI.hEdgesLen, hI.hDataLen, hI.hArena, hI.hUnknown,
      hI.hChunkKnown, hI.hChunkUnknown, hI.hOrig, hI.hDropRel, hI.hDropSub, hI.hDropNodup,
      hI.hRemovedKnown, hI.hRegRev, hI.hKnownEmpty, hI.hPeeled⟩
  have hW1 : InvWl K { s with cnt_received_drops := s.cnt_received_drops + 1 } [] :=
    ⟨hW.hWl, hW.hWlShort, hW.hNoKnownEdge, hW.hNoSingleton, hW.hReg, hW.hRegNodup⟩
  obtain ⟨s2, hrun, hI2, hW2, hmono, hcnt⟩ := processDroplet_master hI1 hW1 hwf
  have hsample : resolveEdges s.number_of_chunks drop = resolveEdges K drop := by
    rw [hI.hK]
  refine ⟨s2, hI2, hW2, fun b hk => hmono b hk, hcnt, ?_⟩
  simp only [Decoder.catch]
  rw [hsample, hrun]
  dsimp only
  by_cases hz : s2.unknown_chunks = 0
  · rw [if_pos hz]
    by_cases hLK : s2.total_length ≤ s2.data.length
    · rw [if_pos hLK]
      left
      refine ⟨hz, ?_, ?_⟩
      · have h1 := hLK
        rw [hI2.hL, hI2.hDataLen] at h1
        exact h1
      · rw [hI2.hL]
        rfl
    · rw [if_neg hLK]
      right
      left
      refine ⟨hz, ?_, rfl⟩
      intro hc
      apply hLK
      rw [hI2.hL, hI2.hDataLen]
      exact hc
  · rw [if_neg hz]
    right
    right
    exact ⟨hz, rfl⟩

theorem getD_replicate {α : Type} (n : ℕ) (a d : α) (i : ℕ) :
    (List.replicate n a).getD i d = if i < n then a else d := by
  rw [List.getD_eq_getElem?_getD, List.getElem?_replicate]
  by_cases h : i < n
  · rw [if_pos h, if_pos h]
    rfl
  · rw [if_neg h, if_neg h]
    rfl

theorem knownAt_new (L B i : ℕ) : knownAt (Decoder.new L B) i = false := by
  show (List.replicate (cntBlocksF32 L B) false).getD i false = false
  rw [getD_replicate]
  split <;> rfl

theorem pendAt_new (L B b : ℕ) : pendAt (Decoder.new L B) b = [] := by
  show (List.replicate (cntBlocksF32 L B) ([] : List ℕ)).getD b [] = []
  rw [getD_replicate]
  split <;> rfl

theorem countFalse_cons_true (t : List Bool) : countFalse (true :: t) = countFalse t := by
  simp [countFalse, List.count_cons]

theorem countFalse_cons_false (t : List Bool) : countFalse (false :: t) = countFalse t + 1 := by
  simp [countFalse, List.count_cons]

/-- The fresh decoder satisfies the core invariant with an empty resolution
history, for any payload `P` (no chunk is marked known yet). -/
theorem new_InvCore (P : List ℕ) (B : ℕ) :
    InvCore P B (cntBlocksF32 P.length B) P.length [] (Decoder.new P.length B) := by
  refine ⟨rfl, rfl, rfl, ?_, ?_, ?_, rfl, ?_, ?_, ?_, ?_, ?_, ?_, ?_, ?_, ?_, ?_, ?_⟩
  · show (List.replicate (cntBlocksF32 P.length B) false).length = _
    exact List.length_replicate _ _
  · show (List.replicate (cntBlocksF32 P.length B) ([] : List ℕ)).length = _
    exact List.length_replicate _ _
  · show (zeroes (cntBlocksF32 P.length B * B)).length = _
    rw [zeroes]
    exact List.length_replicate _ _
  · show cntBlocksF32 P.length B = countFalse (List.replicate (cntBlocksF32 P.length B) false)
    rw [countFalse, List.count_replicate_self]
  · intro i hi hk
    rw [knownAt_new] at hk
    simp at hk
  · intro i hi hk
    show ((zeroes (cntBlocksF32 P.length B * B)).drop (i * B)).take B = zeroes B
    rw [zeroes, List.drop_replicate, List.take_replicate, zeroes]
    congr 1
    have h1 : (i + 1) * B ≤ cntBlocksF32 P.length B * B := Nat.mul_le_mul_right _ (by omega)
    have h2 : (i + 1) * B = i * B + B := by ring
    exact min_eq_left (by omega)
  · intro o ho
    exact absurd ho (List.not_mem_nil o)
  · intro j hj
    have hj' : j < ([] : List RxDroplet).length := hj
    simp at hj'
  · intro j hj
    have hj' : j < ([] : List RxDroplet).length := hj
    simp at hj'
  · intro j hj
    have hj' : j < ([] : List RxDroplet).length := hj
    simp at hj'
  · intro j hj
    have hj' : j < ([] : List RxDroplet).length := hj
    simp at hj'
  · intro b hb id2 h2
    rw [pendAt_new] at h2
    exact absurd h2 (List.not_mem_nil id2)
  · intro b hb hk
    exact pendAt_new P.length B b
  · intro b hb hk
    rw [knownAt_new] at hk
    simp at hk

theorem new_InvWl (L B : ℕ) : InvWl (cntBlocksF32 L B) (Decoder.new L B) [] := by
  refine ⟨?_, ?_, ?_, ?_, ?_, ?_⟩
  · intro id2 h2
    exact absurd h2 (List.not_mem_nil id2)
  · intro id2 h2
    exact absurd h2 (List.not_mem_nil id2)
  · intro j hj hnj b hbj
    have hj' : j < ([] : List RxDroplet).length := hj
    simp at hj'
  · intro j hj hnj
    have hj' : j < ([] : List RxDroplet).length := hj
    simp at hj'
  · intro j hj hnj b hbj
    have hj' : j < ([] : List RxDroplet).length := hj
    simp at hj'
  · intro b hbK
    rw [pendAt_new]
    exact List.nodup_nil

/-- At a worklist-free invariant state, a chunk is marked known exactly when
it lies in the peeling closure of the received neighbor lists: the belief
propagation is complete. -/
theorem known_iff_Peeled {P : List ℕ} {B K L : ℕ} {origs : List (List ℕ)} {s : Decoder}
    (hI : InvCore P B K L origs s) (hW : InvWl K s []) {b : ℕ} (hb : b < K) :
    knownAt s b = true ↔ Peeled origs b := by
  constructor
  · exact hI.hPeeled b hb
  · intro hp
    induction hp with
    | step o ho c hc hrest ih =>
      by_contra hkn
      have hkn' : knownAt s c = false := by
        cases hx : knownAt s c
        · rfl
        · exact absurd hx hkn
      obtain ⟨id, hidlt0, hid⟩ := List.getElem_of_mem ho
      have hidlt : id < s.drops.length := by
        rw [hI.hArena]
        exact hidlt0
      have hgetD : origs.getD id [] = o := by
        rw [List.getD_eq_getElem origs [] hidlt0]
        exact hid
      have hcE : c ∈ (dropAt s id).edges_idx := by
        by_contra hcE
        rw [hI.hRemovedKnown id hidlt c (by rw [hgetD]; exact hc) hcE] at hkn'
        exact Bool.noConfusion hkn'
      have hall : ∀ x ∈ (dropAt s id).edges_idx, x = c := by
        intro x hx
        by_contra hxc
        have hxo : x ∈ o := by
          rw [← hgetD]
          exact hI.hDropSub id hidlt x hx
        have hxK : x < K := (hI.hOrig o ho).2 x hxo
        have hxk : knownAt s x = true := ih x hxo hxc hxK
        have hxf := hW.hNoKnownEdge id hidlt (List.not_mem_nil id) x hx
        rw [hxf] at hxk
        exact Bool.noConfusion hxk
      have hlen1 : (dropAt s id).edges_idx.length = 1 := by
        cases hedges : (dropAt s id).edges_idx with
        | nil =>
          rw [hedges] at hcE
          exact absurd hcE (List.not_mem_nil c)
        | cons x t =>
          cases ht : t with
          | nil => rfl
          | cons y t2 =>
            exfalso
            have hnd := hI.hDropNodup id hidlt
            rw [hedges, ht] at hnd
            have hx : x = c := hall x (by rw [hedges, ht]; exact List.mem_cons_self _ _)
            have hy : y = c := hall y
              (by rw [hedges, ht]; exact List.mem_cons_of_mem _ (List.mem_cons_self _ _))
            rw [List.nodup_cons] at hnd
            apply hnd.1
            rw [hx, ← hy]
            exact List.mem_cons_self _ _
      exact hW.hNoSingleton id hidlt (List.not_mem_nil id) hlen1

/-- Counting the unresolved flags when the known set is exactly an initial
segment. -/
theorem countFalse_of_prefix_known : ∀ (l : List Bool) (i : ℕ),
    (∀ b, b < l.length → (l.getD b false = true ↔ b < i)) → i ≤ l.length →
    countFalse l = l.length - i := by
  intro l
  induction l with
  | nil =>
    intro i h hi
    rw [List.length_nil] at hi
    rw [countFalse, List.count_nil, List.length_nil]
    omega
  | cons a t ih =>
    intro i h hi
    cases i with
    | zero =>
      have ha : a = false := by
        cases hx : a
        · rfl
        · exfalso
          have h0 := h 0 (by simp)
          have h1 := h0.1 (by rw [show (a :: t).getD 0 false = a from rfl, hx])
          omega
      have ht := ih 0 (fun b hb => by
        have hb1 := h (b + 1) (by rw [List.length_cons]; omega)
        constructor
        · intro hg
          have := hb1.1 hg
          omega
        · intro hlt
          exact absurd hlt (by omega)) (by omega)
      rw [ha, countFalse_cons_false, List.length_cons]
      omega
    | succ j =>
      have ha : a = true := by
        have h0 := h 0 (by simp)
        exact h0.2 (by omega)
      have ht := ih j (fun b hb => by
        have hb1 := h (b + 1) (by rw [List.length_cons]; omega)
        constructor
        · intro hg
          have := hb1.1 hg
          omega
        · intro hlt
          exact hb1.2 (by omega)) (by rw [List.length_cons] at hi; omega)
      rw [ha, countFalse_cons_true, List.length_cons]
      omega

/-- When every chunk of the buffer holds its padded source chunk, the first
`|P|` bytes of the buffer are exactly the payload. -/
theorem data_take_eq (P : List ℕ) (B K : ℕ) (data : List ℕ)
    (hlen : data.length = K * B) (hPK : P.length ≤ K * B)
    (hchunk : ∀ i, i < K → (data.drop (i * B)).take B = copyChunk P P.length B i) :
    data.take P.length = P := by
  apply List.ext_getElem?
  intro j
  by_cases hj : j < P.length
  · rw [List.getElem?_take_of_lt hj]
    have hB0 : 0 < B := by
      rcases Nat.eq_zero_or_pos B with hz | hz
      · rw [hz, Nat.mul_zero] at hPK
        omega
      · exact hz
    have hjK : j < K * B := by omega
    have hiK : j / B < K := (Nat.div_lt_iff_lt_mul hB0).2 hjK
    have hjsplit : j = j / B * B + j % B := by
      have h1 := Nat.div_add_mod j B
      have h2 : B * (j / B) = j / B * B := Nat.mul_comm _ _
      omega
    have hmod : j % B < B := Nat.mod_lt j hB0
    have hchunkI := hchunk (j / B) hiK
    have e1 : data[j]? = (data.drop (j / B * B))[j % B]? := by
      rw [List.getElem?_drop]
      congr 1
    rw [e1, ← List.getElem?_take_of_lt hmod, hchunkI, copyChunk]
    have hA : j < (j / B + 1) * B := by
      have h3 : (j / B + 1) * B = j / B * B + B := by ring
      omega
    have hM : j < min ((j / B + 1) * B) P.length := lt_min hA hj
    have hfst : j % B <
        ((P.drop (j / B * B)).take (min ((j / B + 1) * B) P.length - j / B * B)).length := by
      rw [List.length_take, List.length_drop]
      refine lt_min (by omega) (by omega)
    rw [List.getElem?_append_left hfst, List.getElem?_take_of_lt (by omega), List.getElem?_drop]
    congr 1
    omega
  · have hl1 : (data.take P.length).length ≤ j := by
      rw [List.length_take]
      have hmin : min P.length data.length ≤ P.length := min_le_left _ _
      omega
    rw [List.getElem?_eq_none hl1, List.getElem?_eq_none (by omega)]

/-- The reconstruction buffer is determined block-by-block: two buffers of
`K` blocks with equal blocks are equal. -/
theorem data_ext (B K : ℕ) (d1 d2 : List ℕ) (h1 : d1.length = K * B) (h2 : d2.length = K * B)
    (hc : ∀ i, i < K → (d1.drop (i * B)).take B = (d2.drop (i * B)).take B) : d1 = d2 := by
  apply List.ext_getElem?
  intro j
  by_cases hj : j < K * B
  · have hB0 : 0 < B := by
      rcases Nat.eq_zero_or_pos B with hz | hz
      · rw [hz, Nat.mul_zero] at hj
        omega
      · exact hz
    have hiK : j / B < K := (Nat.div_lt_iff_lt_mul hB0).2 hj
    have hjsplit : j = j / B * B + j % B := by
      have ha := Nat.div_add_mod j B
      have hb : B * (j / B) = j / B * B := Nat.mul_comm _ _
      omega
    have hmod : j % B < B := Nat.mod_lt j hB0
    have e1 : d1[j]? = ((d1.drop (j / B * B)).take B)[j % B]? := by
      rw [List.getElem?_take_of_lt hmod, List.getElem?_drop]
      congr 1
    have e2 : d2[j]? = ((d2.drop (j / B * B)).take B)[j % B]? := by
      rw [List.getElem?_take_of_lt hmod, List.getElem?_drop]
      congr 1
    rw [e1, e2, hc (j / B) hiK]
  · rw [List.getElem?_eq_none (by omega), List.getElem?_eq_none (by omega)]

theorem all_known_of_countFalse_zero {l : List Bool} (h : countFalse l = 0) :
    ∀ b, b < l.length → l.getD b false = true := by
  intro b hb
  cases hx : l.getD b false
  · exfalso
    have hmem : false ∈ l := by
      rw [← hx, List.getD_eq_getElem l false hb]
      exact List.getElem_mem hb
    have hpos := List.count_pos_iff.2 hmem
    rw [countFalse] at h
    omega
  · rfl

theorem knownAt_oob {s : Decoder} {K b : ℕ} (hlen : s.blockKnown.length = K) (h : K ≤ b) :
    knownAt s b = false := by
  show s.blockKnown.getD b false = false
  rw [List.getD_eq_getElem?_getD, List.getElem?_eq_none (by omega)]
  rfl

/-- Feeding a list of droplets one `catch` at a time, discarding the
intermediate results (the pull-and-feed loop of the round-trip harness). -/
def feedAll : Decoder → List Droplet → Option Decoder
  | s, [] => some s
  | s, dr :: rest =>
    match s.catch dr with
    | none => none
    | some (_, s2) => feedAll s2 rest

/-- Feeding any list of well-formed droplets preserves the decoder invariant,
accumulating the resolved neighbor lists in order. -/
theorem feedAll_master {P : List ℕ} {B K L : ℕ} :
    ∀ (ds : List Droplet) (s : Decoder) (origs : List (List ℕ)),
      InvCore P B K L origs s → InvWl K s [] →
      (∀ dr ∈ ds, WellFormedRx P B K (resolveEdges K dr) dr.data) →
      ∀ s2, feedAll s ds = some s2 →
        InvCore P B K L (origs ++ ds.map (resolveEdges K)) s2 ∧ InvWl K s2 [] := by
  intro ds
  induction ds with
  | nil =>
    intro s origs hI hW hwf s2 h
    rw [feedAll] at h
    cases h
    refine ⟨?_, hW⟩
    rw [List.map_nil, List.append_nil]
    exact hI
  | cons dr rest ih =>
    intro s origs hI hW hwf s2 h
    rw [feedAll] at h
    obtain ⟨s2', hI2, hW2, hmono, hcnt, hres⟩ :=
      catch_master dr hI hW (hwf dr (List.mem_cons_self dr rest))
    have hassoc : origs ++ (dr :: rest).map (resolveEdges K) =
        (origs ++ [resolveEdges K dr]) ++ rest.map (resolveEdges K) := by
      rw [List.map_cons, List.append_assoc]
      rfl
    rcases hres with ⟨hz, hLK, heq⟩ | ⟨hz, hLK, heq⟩ | ⟨hz, heq⟩
    · rw [heq] at h
      dsimp only at h
      rw [hassoc]
      exact ih s2' (origs ++ [resolveEdges K dr]) hI2 hW2
        (fun d2 hd2 => hwf d2 (List.mem_cons_of_mem dr hd2)) s2 h
    · rw [heq] at h
      exact absurd h (by simp)
    · rw [heq] at h
      dsimp only at h
      rw [hassoc]
      exact ih s2' (origs ++ [resolveEdges K dr]) hI2 hW2
        (fun d2 hd2 => hwf d2 (List.mem_cons_of_mem dr hd2)) s2 h

/-- C3: `get_sample_from_rng_by_seed` is a pure deterministic function of
`(seed, K, degree)` only — two calls with equal arguments return the identical
list of indices, in the same order; the embedding threads no other state
because the source function builds its `StdRng` from the `seed` argument
alone. -/
theorem C3_sample_deterministic (seed1 n1 d1 seed2 n2 d2 : ℕ)
    (h1 : seed1 = seed2) (h2 : n1 = n2) (h3 : d1 = d2) :
    get_sample_from_rng_by_seed seed1 n1 d1 = get_sample_from_rng_by_seed seed2 n2 d2 := by
  rw [h1, h2, h3]

theorem C3_sample_deterministic_witness :
    get_sample_from_rng_by_seed 7 10 3 = get_sample_from_rng_by_seed 7 10 3 :=
  C3_sample_deterministic 7 10 3 7 10 3 rfl rfl rfl

/-- C5: for chunk count `K ≥ 1` and a uniform draw in `[0,1)`, every degree
emitted by `IdealSoliton::next` (the sampler used by the encoder) lies in
`[1, K]`, and likewise for `Soliton::next` of src/lib.rs, whose inverse-CDF
result is clamped to 1 whenever it exceeds `n` (f32 arithmetic idealized as
exact rationals). -/
theorem C5_soliton_degree_bounds (k n : ℕ) (y x : ℚ) (hk : 1 ≤ k) (hn : 1 ≤ n)
    (hy0 : 0 ≤ y) (hy1 : y < 1) (hx0 : 0 ≤ x) (hx1 : x < 1) :
    (1 ≤ idealSolitonNext (idealSolitonLimit k) y ∧
        idealSolitonNext (idealSolitonLimit k) y ≤ k) ∧
      (1 ≤ solitonNext n x ∧ solitonNext n x ≤ n) ∧
      (n < invCeilU32 x → solitonNext n x = 1) :=
  ⟨idealSolitonNext_bounds hk hy0 hy1, solitonNext_bounds n hn x hx0 hx1,
    fun h => if_neg (not_le.2 h)⟩

theorem C5_soliton_degree_bounds_witness :
    (1 ≤ idealSolitonNext (idealSolitonLimit 2) (1 / 2) ∧
        idealSolitonNext (idealSolitonLimit 2) (1 / 2) ≤ 2) ∧
      (1 ≤ solitonNext 2 (1 / 2) ∧ solitonNext 2 (1 / 2) ≤ 2) ∧
      (2 < invCeilU32 (1 / 2) → solitonNext 2 (1 / 2) = 1) :=
  C5_soliton_degree_bounds 2 2 (1 / 2) (1 / 2) (by norm_num) (by norm_num)
    (by norm_num) (by norm_num) (by norm_num) (by norm_num)

/-- C9 counterexample: with `K = 0` and `degree = 1`, and with `K = 2` and
`degree = 5 > K`, `get_sample_from_rng_by_seed` returns an ordinary result
(the empty list, resp. the full index range) — it does not fail with any
error. -/
theorem C9_counterexample :
    get_sample_from_rng_by_seed 0 0 1 = [] ∧
      get_sample_from_rng_by_seed 0 2 5 = [0, 1] := by
  constructor <;> decide

/-- C9 (amended): the generator never fails: it always returns a list of
`min degree K` distinct indices below `K`; in particular for `K = 0` the empty
list, and for `degree ≥ K` exactly `0, 1, ..., K-1` in order. -/
theorem C9_amended (seed n degree : ℕ) :
    (get_sample_from_rng_by_seed seed n degree).length = min degree n ∧
      (get_sample_from_rng_by_seed seed n degree).Nodup ∧
      (∀ x ∈ get_sample_from_rng_by_seed seed n degree, x < n) ∧
      (n ≤ degree → get_sample_from_rng_by_seed seed n degree = List.range n) := by
  obtain ⟨h1, h2⟩ := rngSample_nodup_bound (stdRngWords seed) n degree
  exact ⟨rngSample_length _ n degree, h1, h2, fun h => rngSample_of_le _ h⟩

theorem C9_amended_witness : get_sample_from_rng_by_seed 0 2 5 = List.range 2 :=
  (C9_amended 0 2 5).2.2.2 (by norm_num)

/-- C6: order-independence — feeding the same multiset of well-formed
droplets to a fresh decoder in any two orders produces, whenever both runs
complete, identical known-chunk flags and an identical reconstruction
buffer (hence the same `Finished` payload). -/
theorem C6_order_independence (P : List ℕ) (B : ℕ) (ds1 ds2 : List Droplet)
    (hperm : ds1.Perm ds2)
    (hwf : ∀ dr ∈ ds1, WellFormedRx P B (cntBlocksF32 P.length B)
      (resolveEdges (cntBlocksF32 P.length B) dr) dr.data)
    (s1 s2 : Decoder)
    (h1 : feedAll (Decoder.new P.length B) ds1 = some s1)
    (h2 : feedAll (Decoder.new P.length B) ds2 = some s2) :
    (∀ b, knownAt s1 b = knownAt s2 b) ∧ s1.data = s2.data := by
  obtain ⟨hI1, hW1⟩ := feedAll_master ds1 (Decoder.new P.length B) [] (new_InvCore P B)
    (new_InvWl P.length B) hwf s1 h1
  obtain ⟨hI2, hW2⟩ := feedAll_master ds2 (Decoder.new P.length B) [] (new_InvCore P B)
    (new_InvWl P.length B) (fun dr hdr => hwf dr (hperm.mem_iff.2 hdr)) s2 h2
  have hmemmap : ∀ o : List ℕ,
      o ∈ [] ++ ds1.map (resolveEdges (cntBlocksF32 P.length B)) ↔
      o ∈ [] ++ ds2.map (resolveEdges (cntBlocksF32 P.length B)) :=
    fun o => (hperm.map (resolveEdges (cntBlocksF32 P.length B))).mem_iff
  have hknown : ∀ b, knownAt s1 b = knownAt s2 b := by
    intro b
    by_cases hbK : b < cntBlocksF32 P.length B
    · have e1 := known_iff_Peeled hI1 hW1 hbK
      have e2 := known_iff_Peeled hI2 hW2 hbK
      by_cases hk : knownAt s1 b = true
      · rw [hk]
        exact (e2.2 (Peeled_mono (fun o ho => (hmemmap o).1 ho) (e1.1 hk))).symm
      · have hk1 : knownAt s1 b = false := by
          cases hx : knownAt s1 b
          · rfl
          · exact absurd hx hk
        have hk2 : knownAt s2 b = false := by
          cases hx : knownAt s2 b
          · rfl
          · exact absurd (e1.2 (Peeled_mono (fun o ho => (hmemmap o).2 ho) (e2.1 hx))) hk
        rw [hk1, hk2]
    · rw [knownAt_oob hI1.hKnownLen (by omega), knownAt_oob hI2.hKnownLen (by omega)]
  refine ⟨hknown, ?_⟩
  apply data_ext B (cntBlocksF32 P.length B) s1.data s2.data hI1.hDataLen hI2.hDataLen
  intro i hi
  by_cases hk : knownAt s1 i = true
  · rw [hI1.hChunkKnown i hi hk, hI2.hChunkKnown i hi (by rw [← hknown i]; exact hk)]
  · have hk1 : knownAt s1 i = false := by
      cases hx : knownAt s1 i
      · rfl
      · exact absurd hx hk
    rw [hI1.hChunkUnknown i hi hk1, hI2.hChunkUnknown i hi (by rw [← hknown i]; exact hk1)]

theorem procLoop_cons_none (s : Decoder) (id : ℕ) (rest : List ℕ)
    (h : procOne s id = none) : procLoop s (id :: rest) = none := by
  rw [procLoop]
  split
  · rfl
  next s2' pushes' h2 =>
    rw [h] at h2
    cases h2

/-- C10: every `Seeded` droplet emitted by the Random-mode encoder carries a
seed strictly below `2^32`: the seed is drawn as `rng.gen::<u32>() as usize`,
i.e. reduced modulo `2^32` before being stored in the descriptor, so
`get_sample_from_rng_by_seed` is only ever invoked with seeds below `2^32`. -/
theorem C10_seed_bound (en : Encoder) (h : en.encodertype = EncoderType.Random)
    (seed degree : ℕ) (data : List ℕ) (e2 : Encoder)
    (hnext : Encoder.next en = (⟨DropType.Seeded seed degree, data⟩, e2)) :
    seed < 2 ^ 32 := by
  rw [Encoder.next, h] at hnext
  dsimp only at hnext
  injection hnext with h1 h2
  injection h1 with h3 h4
  injection h3 with h5 h6
  rw [← h5]
  exact Nat.mod_lt _ (by norm_num)

theorem C10_seed_bound_witness : Encoder.next
      ⟨[1], 1, 1, fun _ => 5, 1, 1, fun _ => 0, 0, 1, 0, EncoderType.Random⟩ =
      (⟨DropType.Seeded 5 1, [1]⟩,
        ⟨[1], 1, 1, fun _ => 5, 2, 1, fun _ => 0, 1, 1, 1, EncoderType.Random⟩) ∧
    5 < 2 ^ 32 := by
  have hdeg : idealSolitonNext 1 ((0 : ℚ)) = 1 := by
    rw [idealSolitonNext, if_neg (by norm_num)]
  have hnext : Encoder.next
      ⟨[1], 1, 1, fun _ => 5, 1, 1, fun _ => 0, 0, 1, 0, EncoderType.Random⟩ =
      (⟨DropType.Seeded 5 1, [1]⟩,
        ⟨[1], 1, 1, fun _ => 5, 2, 1, fun _ => 0, 1, 1, 1, EncoderType.Random⟩) := by
    rw [Encoder.next]
    dsimp only
    rw [hdeg]
    rfl
  exact ⟨hnext,
    C10_seed_bound ⟨[1], 1, 1, fun _ => 5, 1, 1, fun _ => 0, 0, 1, 0, EncoderType.Random⟩
      rfl 5 1 [1] ⟨[1], 1, 1, fun _ => 5, 2, 1, fun _ => 0, 1, 1, 1, EncoderType.Random⟩ hnext⟩

theorem cntBlocks_two_one : cntBlocksF32 2 1 = 2 := by
  rw [cntBlocksF32_small 2 1 (by norm_num) (by norm_num) (by norm_num)]
  rfl

theorem decoderNew_two_one : Decoder.new 2 1 =
    ⟨2, 1, 2, 2, 0, [false, false], [[], []], [], [0, 0]⟩ := by
  show ({ total_length := 2
          blocksize := 1
          unknown_chunks := cntBlocksF32 2 1
          number_of_chunks := cntBlocksF32 2 1
          cnt_received_drops := 0
          blockKnown := List.replicate (cntBlocksF32 2 1) false
          blockEdges := List.replicate (cntBlocksF32 2 1) ([] : List ℕ)
          drops := []
          data := zeroes (cntBlocksF32 2 1 * 1) } : Decoder) = _
  rw [cntBlocks_two_one]
  rfl

theorem catch_of_processDroplet_none {s : Decoder} {drop : Droplet}
    (h : processDroplet { s with cnt_received_drops := s.cnt_received_drops + 1 }
      ⟨resolveEdges s.number_of_chunks drop, drop.data⟩ = none) :
    Decoder.catch s drop = none := by
  simp only [Decoder.catch]
  rw [h]

theorem catch_eval {s : Decoder} {drop : Droplet} {s2 : Decoder}
    (h : processDroplet { s with cnt_received_drops := s.cnt_received_drops + 1 }
      ⟨resolveEdges s.number_of_chunks drop, drop.data⟩ = some s2) :
    Decoder.catch s drop =
      if s2.unknown_chunks = 0 then
        (if s2.total_length ≤ s2.data.length then
          some (CatchResult.Finished (s2.data.take s2.total_length) (catchStats s2), s2)
        else none)
      else some (CatchResult.Missing (catchStats s2), s2) := by
  simp only [Decoder.catch]
  rw [h]
  rfl

theorem processDroplet_eval {s : Decoder} {d : RxDroplet} {out : Option Decoder}
    (h : procLoop { s with drops := s.drops ++ [d] } [s.drops.length] = out) :
    processDroplet s d = out := h

/-- C8 (counterexample): no `InvalidDroplet` variant exists — `CatchResult`
has exactly `Finished` and `Missing` — and a droplet whose neighbor list
points past the last chunk makes `catch` panic (out-of-bounds indexing,
embedded as `none`) instead of reporting any error result. -/
theorem C8_counterexample :
    (∀ r : CatchResult, (∃ d st, r = CatchResult.Finished d st) ∨
      (∃ st, r = CatchResult.Missing st)) ∧
    Decoder.catch (Decoder.new 2 1) ⟨DropType.Edges [2], [0]⟩ = none := by
  constructor
  · intro r
    cases r with
    | Finished d st => exact Or.inl ⟨d, st, rfl⟩
    | Missing st => exact Or.inr ⟨st, rfl⟩
  · rw [decoderNew_two_one]
    have hpo : procOne
        ⟨2, 1, 2, 2, 1, [false, false], [[], []], [⟨[2], [0]⟩], [0, 0]⟩ 0 = none := by decide
    have h1 : processDroplet ⟨2, 1, 2, 2, 1, [false, false], [[], []], [], [0, 0]⟩
        ⟨[2], [0]⟩ = none :=
      processDroplet_eval (by exact procLoop_cons_none _ 0 [] hpo)
    exact catch_of_processDroplet_none (by exact h1)

/-- C8 (amended): `catch` performs no droplet validation and has no error
variant to report: a neighbor index at or past `K` panics inside the peeling
loop (indexing past the block table), and a payload shorter than the
blocksize panics in the chunk copy; in both cases the call aborts (`none`)
rather than returning a `CatchResult`. -/
theorem C8_amended :
    Decoder.catch (Decoder.new 2 1) ⟨DropType.Edges [2], [0]⟩ = none ∧
    Decoder.catch (Decoder.new 2 1) ⟨DropType.Edges [0], []⟩ = none := by
  constructor
  · rw [decoderNew_two_one]
    have hpo : procOne
        ⟨2, 1, 2, 2, 1, [false, false], [[], []], [⟨[2], [0]⟩], [0, 0]⟩ 0 = none := by decide
    have h1 : processDroplet ⟨2, 1, 2, 2, 1, [false, false], [[], []], [], [0, 0]⟩
        ⟨[2], [0]⟩ = none :=
      processDroplet_eval (by exact procLoop_cons_none _ 0 [] hpo)
    exact catch_of_processDroplet_none (by exact h1)
  · rw [decoderNew_two_one]
    have hpo : procOne
        ⟨2, 1, 2, 2, 1, [false, false], [[], []], [⟨[0], []⟩], [0, 0]⟩ 0 = none := by decide
    have h1 : processDroplet ⟨2, 1, 2, 2, 1, [false, false], [[], []], [], [0, 0]⟩
        ⟨[0], []⟩ = none :=
      processDroplet_eval (by exact procLoop_cons_none _ 0 [] hpo)
    exact catch_of_processDroplet_none (by exact h1)

theorem unknown_zero_all_known {P : List ℕ} {B K L : ℕ} {origs : List (List ℕ)} {s : Decoder}
    (hI : InvCore P B K L origs s) (hz : s.unknown_chunks = 0) :
    ∀ b, b < K → knownAt s b = true := by
  intro b hb
  have h1 : countFalse s.blockKnown = 0 := by
    rw [← hI.hUnknown]
    exact hz
  exact all_known_of_countFalse_zero h1 b (by rw [hI.hKnownLen]; exact hb)

theorem all_known_unknown_zero {P : List ℕ} {B K L : ℕ} {origs : List (List ℕ)} {s : Decoder}
    (hI : InvCore P B K L origs s) (h : ∀ b, b < K → knownAt s b = true) :
    s.unknown_chunks = 0 := by
  rw [hI.hUnknown]
  have h2 := countFalse_of_prefix_known s.blockKnown K
    (fun b hb => ⟨fun _ => by rw [← hI.hKnownLen]; exact hb,
      fun hbK => h b (by rw [← hI.hKnownLen]; exact hb)⟩)
    (le_of_eq hI.hKnownLen.symm)
  rw [h2, hI.hKnownLen]
  omega

theorem all_known_data {P : List ℕ} {B K L L' : ℕ} {origs origs' : List (List ℕ)}
    {s s' : Decoder} (hI : InvCore P B K L origs s) (hI' : InvCore P B K L' origs' s')
    (hk : ∀ b, b < K → knownAt s b = true) (hk' : ∀ b, b < K → knownAt s' b = true) :
    s.data = s'.data := by
  apply data_ext B K _ _ hI.hDataLen hI'.hDataLen
  intro i hi
  rw [hI.hChunkKnown i hi (hk i hi), hI'.hChunkKnown i hi (hk' i hi)]

/-- Step A over a droplet in a decoder whose chunks are all resolved: every
listed edge points at a known chunk, so the loop only XORs buffer chunks into
the droplet and strips its edges — it never touches the reconstruction
buffer, the block table or the counters — and it cannot panic as long as the
edges are in range and the droplet payload spans a full block.  No
assumption is made on the droplet's bytes, and the edge list may contain
duplicates (the snapshot is consumed occurrence by occurrence). -/
theorem stepA_allKnown {B K : ℕ} : ∀ (rest : List ℕ) (s : Decoder) (id : ℕ),
    s.blocksize = B → s.blockKnown.length = K → s.data.length = K * B →
    (∀ b, b < K → knownAt s b = true) →
    id < s.drops.length →
    (dropAt s id).data.length = B →
    (∀ b ∈ rest, b < K) →
    (dropAt s id).edges_idx.Perm rest →
    ∃ dd, stepA s id rest = some (setDrop s id ⟨[], dd⟩) ∧ dd.length = B := by
  intro rest
  induction rest with
  | nil =>
    intro s id hbs hkl hdl hkn hid hdlen hrb hperm
    refine ⟨(dropAt s id).data, ?_, hdlen⟩
    have hnil : (dropAt s id).edges_idx = [] := List.perm_nil.1 hperm
    have hfix : setDrop s id ⟨[], (dropAt s id).data⟩ = s := by
      have hd : (⟨[], (dropAt s id).data⟩ : RxDroplet) = dropAt s id := by
        rw [← hnil]
      rw [hd]
      show { s with drops := s.drops.set id (dropAt s id) } = s
      rw [set_dropAt_self hid]
    rw [stepA, hfix]
  | cons ed rest ih =>
    intro s id hbs hkl hdl hkn hid hdlen hrb hperm
    have hedK : ed < K := hrb ed (List.mem_cons_self ed rest)
    have hlt : ed < s.blockKnown.length := by omega
    have hbk : s.blockKnown[ed]? = some true := by
      rw [getElem?_eq_getD s.blockKnown ed false hlt]
      rw [show s.blockKnown.getD ed false = knownAt s ed from rfl, hkn ed hedK]
    have hdr : s.drops[id]? = some (dropAt s id) := getElem?_eq_getD s.drops id ⟨[], []⟩ hid
    have hoff : ed * B + B ≤ K * B := by
      have h2 : ed * B + B = (ed + 1) * B := by ring
      have h3 : (ed + 1) * B ≤ K * B := Nat.mul_le_mul_right B (by omega)
      omega
    obtain ⟨data2, hxor, hd2len⟩ : ∃ data2,
        xorFromBuf (dropAt s id).data s.data (ed * s.blocksize) s.blocksize = some data2 ∧
        data2.length = B := by
      rw [xorFromBuf, if_pos]
      · refine ⟨_, rfl, ?_⟩
        rw [List.length_append, zipXor_length, List.length_take, List.length_take,
          List.length_drop, List.length_drop, hdlen, hbs, hdl]
        omega
      · constructor
        · rw [hdlen, hbs]
        · rw [hdl, hbs]
          omega
    have hmem : ed ∈ (dropAt s id).edges_idx :=
      hperm.mem_iff.2 (List.mem_cons_self ed rest)
    have hstep : stepA s id (ed :: rest) =
        stepA (setDrop s id ⟨(dropAt s id).edges_idx.erase ed, data2⟩) id rest := by
      rw [stepA]
      simp only [hbk, hdr, hxor, if_true]
      rw [if_pos hmem]
    have hid' : id < (setDrop s id ⟨(dropAt s id).edges_idx.erase ed, data2⟩).drops.length := by
      show id < (s.drops.set id _).length
      rw [List.length_set]
      exact hid
    have hdAt : dropAt (setDrop s id ⟨(dropAt s id).edges_idx.erase ed, data2⟩) id =
        ⟨(dropAt s id).edges_idx.erase ed, data2⟩ :=
      dropAt_setDrop_self _ hid
    obtain ⟨dd, hrec, hddlen⟩ := ih (setDrop s id ⟨(dropAt s id).edges_idx.erase ed, data2⟩)
      id hbs hkl hdl hkn hid' (by rw [hdAt]; exact hd2len)
      (fun b hb => hrb b (List.mem_cons_of_mem ed hb))
      (by rw [hdAt]
          have hpe := hperm.erase ed
          rw [List.erase_cons_head] at hpe
          exact hpe)
    refine ⟨dd, ?_, hddlen⟩
    rw [hstep, hrec]
    have hss : setDrop (setDrop s id ⟨(dropAt s id).edges_idx.erase ed, data2⟩) id
        ⟨[], dd⟩ = setDrop s id ⟨[], dd⟩ := by
      show { s with drops := (s.drops.set id _).set id _ } =
        { s with drops := s.drops.set id _ }
      rw [List.set_set]
    rw [hss]

/-- The loop body of `process_droplet` on a droplet caught by a fully
resolved decoder: step A strips the whole edge list, the droplet parks in the
arena with no edges, nothing is pushed, and the rest of the state is
untouched. -/
theorem procOne_allKnown {B K : ℕ} {s : Decoder} {id : ℕ}
    (hbs : s.blocksize = B) (hkl : s.blockKnown.length = K) (hdl : s.data.length = K * B)
    (hkn : ∀ b, b < K → knownAt s b = true)
    (hid : id < s.drops.length)
    (hdlen : (dropAt s id).data.length = B)
    (hedK : ∀ b ∈ (dropAt s id).edges_idx, b < K) :
    ∃ dd, procOne s id = some (setDrop s id ⟨[], dd⟩, []) := by
  have hdr : s.drops[id]? = some (dropAt s id) := getElem?_eq_getD s.drops id ⟨[], []⟩ hid
  obtain ⟨dd, hstep, _⟩ := stepA_allKnown (dropAt s id).edges_idx s id hbs hkl hdl hkn
    hid hdlen hedK (List.Perm.refl _)
  have hdr2 : (setDrop s id ⟨[], dd⟩).drops[id]? = some (⟨[], dd⟩ : RxDroplet) := by
    show (s.drops.set id _)[id]? = _
    rw [List.getElem?_set_self (by exact hid)]
  refine ⟨dd, ?_⟩
  rw [procOne]
  simp only [hdr, hstep, hdr2, List.length_nil]
  rw [if_neg (by decide)]

/-- `Decoder::catch` on a fully resolved decoder: any droplet whose resolved
neighbor list stays below the chunk count and whose payload spans a full
block is absorbed without changing the reconstruction buffer, the block
flags or the unknown count; the call returns `Finished` with the truncated
buffer and bumps the receive counter. -/
theorem catch_allKnown {B K : ℕ} {s : Decoder}
    (hbs : s.blocksize = B) (hnk : s.number_of_chunks = K)
    (hkl : s.blockKnown.length = K) (hdl : s.data.length = K * B)
    (hkn : ∀ b, b < K → knownAt s b = true)
    (hz : s.unknown_chunks = 0) (hL : s.total_length ≤ K * B)
    (drop : Droplet) (hb : ∀ b ∈ resolveEdges K drop, b < K)
    (hlen : drop.data.length = B) :
    ∃ s2, Decoder.catch s drop =
        some (CatchResult.Finished (s.data.take s.total_length) (catchStats s2), s2) ∧
      s2.data = s.data ∧ s2.unknown_chunks = 0 ∧
      s2.cnt_received_drops = s.cnt_received_drops + 1 := by
  have hres : resolveEdges s.number_of_chunks drop = resolveEdges K drop := by
    rw [hnk]
  have hdAt : dropAt
      { s with cnt_received_drops := s.cnt_received_drops + 1, drops := s.drops ++ [⟨resolveEdges K drop, drop.data⟩] } s.drops.length =
      ⟨resolveEdges K drop, drop.data⟩ := by
    show (s.drops ++ [(⟨resolveEdges K drop, drop.data⟩ : RxDroplet)]).getD
      s.drops.length ⟨[], []⟩ = _
    exact getD_append_concat_self _ _ _
  obtain ⟨dd, hpo⟩ := @procOne_allKnown B K
    { s with cnt_received_drops := s.cnt_received_drops + 1, drops := s.drops ++ [⟨resolveEdges K drop, drop.data⟩] } s.drops.length
    hbs hkl hdl hkn
    (by show s.drops.length < (s.drops ++ [(⟨resolveEdges K drop, drop.data⟩ : RxDroplet)]).length
        rw [List.length_append, List.length_singleton]
        omega)
    (by rw [hdAt]; exact hlen)
    (by rw [hdAt]; exact hb)
  have hpl : procLoop
      { s with cnt_received_drops := s.cnt_received_drops + 1, drops := s.drops ++ [⟨resolveEdges K drop, drop.data⟩] } [s.drops.length] =
      some (setDrop
        { s with cnt_received_drops := s.cnt_received_drops + 1, drops := s.drops ++ [⟨resolveEdges K drop, drop.data⟩] } s.drops.length
        ⟨[], dd⟩) := by
    rw [procLoop_cons _ _ _ hpo]
    exact procLoop_nil _
  have hproc : processDroplet { s with cnt_received_drops := s.cnt_received_drops + 1 }
      ⟨resolveEdges s.number_of_chunks drop, drop.data⟩ =
      some (setDrop
        { s with cnt_received_drops := s.cnt_received_drops + 1, drops := s.drops ++ [⟨resolveEdges K drop, drop.data⟩] } s.drops.length
        ⟨[], dd⟩) := by
    rw [show (⟨resolveEdges s.number_of_chunks drop, drop.data⟩ : RxDroplet) =
      ⟨resolveEdges K drop, drop.data⟩ from by rw [hres]]
    exact processDroplet_eval (by exact hpl)
  have hcf := catch_eval hproc
  have h1 : (setDrop
      { s with cnt_received_drops := s.cnt_received_drops + 1, drops := s.drops ++ [⟨resolveEdges K drop, drop.data⟩] } s.drops.length
      ⟨[], dd⟩).unknown_chunks = 0 := hz
  have h2 : (setDrop
      { s with cnt_received_drops := s.cnt_received_drops + 1, drops := s.drops ++ [⟨resolveEdges K drop, drop.data⟩] } s.drops.length
      ⟨[], dd⟩).total_length ≤ (setDrop
      { s with cnt_received_drops := s.cnt_received_drops + 1, drops := s.drops ++ [⟨resolveEdges K drop, drop.data⟩] } s.drops.length
      ⟨[], dd⟩).data.length := by
    show s.total_length ≤ s.data.length
    rw [hdl]
    exact hL
  refine ⟨setDrop
    { s with cnt_received_drops := s.cnt_received_drops + 1, drops := s.drops ++ [⟨resolveEdges K drop, drop.data⟩] } s.drops.length
    ⟨[], dd⟩, ?_, rfl, h1, rfl⟩
  rw [hcf, if_pos h1, if_pos h2]
  rfl

/-- C7: idempotent completion — once a `catch` from an invariant decoder
state has returned `Finished(pay, _)`, a subsequent `catch` of any droplet
that is well-formed in the claim's sense — resolved neighbor indices within
`[0, K)` and a payload spanning a block — again returns `Finished` with the
same payload bytes, increments the received-droplet counter, keeps the
unknown count at zero and leaves the reconstruction buffer unchanged.  The
droplet's bytes are otherwise arbitrary and its edge list may contain
duplicates. -/
theorem C7_idempotent_completion {P : List ℕ} {B K L : ℕ} {origs : List (List ℕ)}
    {s0 : Decoder} (drop0 drop : Droplet)
    (hI0 : InvCore P B K L origs s0) (hW0 : InvWl K s0 [])
    (hwf0 : WellFormedRx P B K (resolveEdges K drop0) drop0.data)
    (hb : ∀ b ∈ resolveEdges K drop, b < K) (hlen : drop.data.length = B)
    {pay : List ℕ} {st0 : Statistics} {s : Decoder}
    (hfin : Decoder.catch s0 drop0 = some (CatchResult.Finished pay st0, s)) :
    ∃ st s2, Decoder.catch s drop = some (CatchResult.Finished pay st, s2) ∧
      s2.data = s.data ∧ s2.unknown_chunks = 0 ∧
      s2.cnt_received_drops = s.cnt_received_drops + 1 := by
  obtain ⟨sM, hIM, hWM, hmonoM, hcntM, hresM⟩ := catch_master drop0 hI0 hW0 hwf0
  rcases hresM with ⟨hz, hLK, heq⟩ | ⟨hz, hLK, heq⟩ | ⟨hz, heq⟩
  · rw [heq] at hfin
    injection hfin with hfin2
    injection hfin2 with hfr hfs
    injection hfr with hpay hst
    subst hfs
    have hallk : ∀ b, b < K → knownAt sM b = true := unknown_zero_all_known hIM hz
    obtain ⟨s2, hcatch, hdata, hz2, hcnt2⟩ := catch_allKnown hIM.hB hIM.hK hIM.hKnownLen
      hIM.hDataLen hallk hz (by rw [hIM.hL]; exact hLK) drop hb hlen
    refine ⟨catchStats s2, s2, ?_, hdata, hz2, hcnt2⟩
    rw [hcatch, hIM.hL, hpay]
  · rw [heq] at hfin
    exact absurd hfin (by simp)
  · rw [heq] at hfin
    injection hfin with hfin2
    injection hfin2 with hfr hfs
    cases hfr
theorem cntBlocks_one_one : cntBlocksF32 1 1 = 1 := by
  rw [cntBlocksF32_small 1 1 (by norm_num) (by norm_num) (by norm_num)]
  rfl

theorem decoderNew_one_one : Decoder.new 1 1 =
    ⟨1, 1, 1, 1, 0, [false], [[]], [], [0]⟩ := by
  show ({ total_length := 1
          blocksize := 1
          unknown_chunks := cntBlocksF32 1 1
          number_of_chunks := cntBlocksF32 1 1
          cnt_received_drops := 0
          blockKnown := List.replicate (cntBlocksF32 1 1) false
          blockEdges := List.replicate (cntBlocksF32 1 1) ([] : List ℕ)
          drops := []
          data := zeroes (cntBlocksF32 1 1 * 1) } : Decoder) = _
  rw [cntBlocks_one_one]
  rfl

theorem C7_idempotent_completion_witness :
    Decoder.catch (⟨1, 1, 1, 1, 0, [false], [[]], [], [0]⟩ : Decoder)
        ⟨DropType.Edges [0], [5]⟩ =
      some (CatchResult.Finished [5]
          (catchStats ⟨1, 1, 0, 1, 1, [true], [[]], [⟨[], [0]⟩], [5]⟩),
        ⟨1, 1, 0, 1, 1, [true], [[]], [⟨[], [0]⟩], [5]⟩) ∧
    (∃ st s2, Decoder.catch (⟨1, 1, 0, 1, 1, [true], [[]], [⟨[], [0]⟩], [5]⟩ : Decoder)
        ⟨DropType.Edges [0, 0], [9]⟩ = some (CatchResult.Finished [5] st, s2) ∧
      s2.data = (⟨1, 1, 0, 1, 1, [true], [[]], [⟨[], [0]⟩], [5]⟩ : Decoder).data ∧
      s2.unknown_chunks = 0 ∧
      s2.cnt_received_drops =
        (⟨1, 1, 0, 1, 1, [true], [[]], [⟨[], [0]⟩], [5]⟩ : Decoder).cnt_received_drops + 1) := by
  have hpo1 : procOne (⟨1, 1, 1, 1, 1, [false], [[]], [⟨[0], [5]⟩], [0]⟩ : Decoder) 0 =
      some (⟨1, 1, 0, 1, 1, [true], [[]], [⟨[0], [5]⟩], [5]⟩, [0]) := by decide
  have hpo2 : procOne (⟨1, 1, 0, 1, 1, [true], [[]], [⟨[0], [5]⟩], [5]⟩ : Decoder) 0 =
      some (⟨1, 1, 0, 1, 1, [true], [[]], [⟨[], [0]⟩], [5]⟩, []) := by decide
  have hpl1 : procLoop (⟨1, 1, 1, 1, 1, [false], [[]], [⟨[0], [5]⟩], [0]⟩ : Decoder) [0] =
      some ⟨1, 1, 0, 1, 1, [true], [[]], [⟨[], [0]⟩], [5]⟩ := by
    rw [procLoop_cons _ 0 [] hpo1]
    show procLoop (⟨1, 1, 0, 1, 1, [true], [[]], [⟨[0], [5]⟩], [5]⟩ : Decoder) [0] = _
    rw [procLoop_cons _ 0 [] hpo2]
    show procLoop (⟨1, 1, 0, 1, 1, [true], [[]], [⟨[], [0]⟩], [5]⟩ : Decoder) [] = _
    exact procLoop_nil _
  have hc1 : Decoder.catch (⟨1, 1, 1, 1, 0, [false], [[]], [], [0]⟩ : Decoder)
      ⟨DropType.Edges [0], [5]⟩ =
      some (CatchResult.Finished [5]
          (catchStats ⟨1, 1, 0, 1, 1, [true], [[]], [⟨[], [0]⟩], [5]⟩),
        ⟨1, 1, 0, 1, 1, [true], [[]], [⟨[], [0]⟩], [5]⟩) := by
    have h := @catch_eval ⟨1, 1, 1, 1, 0, [false], [[]], [], [0]⟩ ⟨DropType.Edges [0], [5]⟩
      ⟨1, 1, 0, 1, 1, [true], [[]], [⟨[], [0]⟩], [5]⟩ (by exact hpl1)
    exact h
  have hI0 : InvCore [5] 1 1 1 [] (⟨1, 1, 1, 1, 0, [false], [[]], [], [0]⟩ : Decoder) := by
    have h := new_InvCore [5] 1
    rw [show cntBlocksF32 ([5] : List ℕ).length 1 = 1 from cntBlocks_one_one] at h
    rw [show Decoder.new ([5] : List ℕ).length 1 =
      (⟨1, 1, 1, 1, 0, [false], [[]], [], [0]⟩ : Decoder) from decoderNew_one_one] at h
    exact h
  have hW0 : InvWl 1 (⟨1, 1, 1, 1, 0, [false], [[]], [], [0]⟩ : Decoder) [] := by
    have h := new_InvWl 1 1
    rw [cntBlocks_one_one, decoderNew_one_one] at h
    exact h
  refine ⟨hc1, ?_⟩
  exact @C7_idempotent_completion [5] 1 1 1 [] ⟨1, 1, 1, 1, 0, [false], [[]], [], [0]⟩
    ⟨DropType.Edges [0], [5]⟩ ⟨DropType.Edges [0, 0], [9]⟩ hI0 hW0
    (by exact ⟨by decide, by decide, by decide⟩) (by decide) (by decide)
    [5] (catchStats ⟨1, 1, 0, 1, 1, [true], [[]], [⟨[], [0]⟩], [5]⟩)
    ⟨1, 1, 0, 1, 1, [true], [[]], [⟨[], [0]⟩], [5]⟩ hc1

theorem C6_order_independence_witness :
    ([⟨DropType.Edges [0], [7]⟩, ⟨DropType.Edges [1], [9]⟩] : List Droplet).Perm
        [⟨DropType.Edges [1], [9]⟩, ⟨DropType.Edges [0], [7]⟩] ∧
    ((∀ b, knownAt (⟨2, 1, 0, 2, 2, [true, true], [[], []], [⟨[], [0]⟩, ⟨[], [0]⟩],
          [7, 9]⟩ : Decoder) b =
        knownAt (⟨2, 1, 0, 2, 2, [true, true], [[], []], [⟨[], [0]⟩, ⟨[], [0]⟩],
          [7, 9]⟩ : Decoder) b) ∧
      (⟨2, 1, 0, 2, 2, [true, true], [[], []], [⟨[], [0]⟩, ⟨[], [0]⟩],
          [7, 9]⟩ : Decoder).data =
        (⟨2, 1, 0, 2, 2, [true, true], [[], []], [⟨[], [0]⟩, ⟨[], [0]⟩],
          [7, 9]⟩ : Decoder).data) := by
  have hpoA1 : procOne (⟨2, 1, 2, 2, 1, [false, false], [[], []], [⟨[0], [7]⟩], [0, 0]⟩ :
      Decoder) 0 =
      some (⟨2, 1, 1, 2, 1, [true, false], [[], []], [⟨[0], [7]⟩], [7, 0]⟩, [0]) := by decide
  have hpoA2 : procOne (⟨2, 1, 1, 2, 1, [true, false], [[], []], [⟨[0], [7]⟩], [7, 0]⟩ :
      Decoder) 0 =
      some (⟨2, 1, 1, 2, 1, [true, false], [[], []], [⟨[], [0]⟩], [7, 0]⟩, []) := by decide
  have hplA : procLoop (⟨2, 1, 2, 2, 1, [false, false], [[], []], [⟨[0], [7]⟩], [0, 0]⟩ :
      Decoder) [0] =
      some ⟨2, 1, 1, 2, 1, [true, false], [[], []], [⟨[], [0]⟩], [7, 0]⟩ := by
    rw [procLoop_cons _ 0 [] hpoA1]
    show procLoop (⟨2, 1, 1, 2, 1, [true, false], [[], []], [⟨[0], [7]⟩], [7, 0]⟩ :
      Decoder) [0] = _
    rw [procLoop_cons _ 0 [] hpoA2]
    exact procLoop_nil _
  have hcA1 : Decoder.catch (⟨2, 1, 2, 2, 0, [false, false], [[], []], [], [0, 0]⟩ : Decoder)
      ⟨DropType.Edges [0], [7]⟩ =
      some (CatchResult.Missing
          (catchStats ⟨2, 1, 1, 2, 1, [true, false], [[], []], [⟨[], [0]⟩], [7, 0]⟩),
        ⟨2, 1, 1, 2, 1, [true, false], [[], []], [⟨[], [0]⟩], [7, 0]⟩) := by
    have h := @catch_eval ⟨2, 1, 2, 2, 0, [false, false], [[], []], [], [0, 0]⟩
      ⟨DropType.Edges [0], [7]⟩
      ⟨2, 1, 1, 2, 1, [true, false], [[], []], [⟨[], [0]⟩], [7, 0]⟩ (by exact hplA)
    exact h
  have hpoB1 : procOne (⟨2, 1, 1, 2, 2, [true, false], [[], []],
      [⟨[], [0]⟩, ⟨[1], [9]⟩], [7, 0]⟩ : Decoder) 1 =
      some (⟨2, 1, 0, 2, 2, [true, true], [[], []], [⟨[], [0]⟩, ⟨[1], [9]⟩], [7, 9]⟩,
        [1]) := by decide
  have hpoB2 : procOne (⟨2, 1, 0, 2, 2, [true, true], [[], []],
      [⟨[], [0]⟩, ⟨[1], [9]⟩], [7, 9]⟩ : Decoder) 1 =
      some (⟨2, 1, 0, 2, 2, [true, true], [[], []], [⟨[], [0]⟩, ⟨[], [0]⟩], [7, 9]⟩,
        []) := by decide
  have hplB : procLoop (⟨2, 1, 1, 2, 2, [true, false], [[], []],
      [⟨[], [0]⟩, ⟨[1], [9]⟩], [7, 0]⟩ : Decoder) [1] =
      some ⟨2, 1, 0, 2, 2, [true, true], [[], []], [⟨[], [0]⟩, ⟨[], [0]⟩], [7, 9]⟩ := by
    rw [procLoop_cons _ 1 [] hpoB1]
    show procLoop (⟨2, 1, 0, 2, 2, [true, true], [[], []],
      [⟨[], [0]⟩, ⟨[1], [9]⟩], [7, 9]⟩ : Decoder) [1] = _
    rw [procLoop_cons _ 1 [] hpoB2]
    exact procLoop_nil _
  have hcA2 : Decoder.catch (⟨2, 1, 1, 2, 1, [true, false], [[], []], [⟨[], [0]⟩],
      [7, 0]⟩ : Decoder) ⟨DropType.Edges [1], [9]⟩ =
      some (CatchResult.Finished [7, 9]
          (catchStats ⟨2, 1, 0, 2, 2, [true, true], [[], []], [⟨[], [0]⟩, ⟨[], [0]⟩], [7, 9]⟩),
        ⟨2, 1, 0, 2, 2, [true, true], [[], []], [⟨[], [0]⟩, ⟨[], [0]⟩], [7, 9]⟩) := by
    have h := @catch_eval ⟨2, 1, 1, 2, 1, [true, false], [[], []], [⟨[], [0]⟩], [7, 0]⟩
      ⟨DropType.Edges [1], [9]⟩
      ⟨2, 1, 0, 2, 2, [true, true], [[], []], [⟨[], [0]⟩, ⟨[], [0]⟩], [7, 9]⟩ (by exact hplB)
    exact h
  have hpoC1 : procOne (⟨2, 1, 2, 2, 1, [false, false], [[], []], [⟨[1], [9]⟩], [0, 0]⟩ :
      Decoder) 0 =
      some (⟨2, 1, 1, 2, 1, [false, true], [[], []], [⟨[1], [9]⟩], [0, 9]⟩, [0]) := by decide
  have hpoC2 : procOne (⟨2, 1, 1, 2, 1, [false, true], [[], []], [⟨[1], [9]⟩], [0, 9]⟩ :
      Decoder) 0 =
      some (⟨2, 1, 1, 2, 1, [false, true], [[], []], [⟨[], [0]⟩], [0, 9]⟩, []) := by decide
  have hplC : procLoop (⟨2, 1, 2, 2, 1, [false, false], [[], []], [⟨[1], [9]⟩], [0, 0]⟩ :
      Decoder) [0] =
      some ⟨2, 1, 1, 2, 1, [false, true], [[], []], [⟨[], [0]⟩], [0, 9]⟩ := by
    rw [procLoop_cons _ 0 [] hpoC1]
    show procLoop (⟨2, 1, 1, 2, 1, [false, true], [[], []], [⟨[1], [9]⟩], [0, 9]⟩ :
      Decoder) [0] = _
    rw [procLoop_cons _ 0 [] hpoC2]
    exact procLoop_nil _
  have hcB1 : Decoder.catch (⟨2, 1, 2, 2, 0, [false, false], [[], []], [], [0, 0]⟩ : Decoder)
      ⟨DropType.Edges [1], [9]⟩ =
      some (CatchResult.Missing
          (catchStats ⟨2, 1, 1, 2, 1, [false, true], [[], []], [⟨[], [0]⟩], [0, 9]⟩),
        ⟨2, 1, 1, 2, 1, [false, true], [[], []], [⟨[], [0]⟩], [0, 9]⟩) := by
    have h := @catch_eval ⟨2, 1, 2, 2, 0, [false, false], [[], []], [], [0, 0]⟩
      ⟨DropType.Edges [1], [9]⟩
      ⟨2, 1, 1, 2, 1, [false, true], [[], []], [⟨[], [0]⟩], [0, 9]⟩ (by exact hplC)
    exact h
  have hpoD1 : procOne (⟨2, 1, 1, 2, 2, [false, true], [[], []],
      [⟨[], [0]⟩, ⟨[0], [7]⟩], [0, 9]⟩ : Decoder) 1 =
      some (⟨2, 1, 0, 2, 2, [true, true], [[], []], [⟨[], [0]⟩, ⟨[0], [7]⟩], [7, 9]⟩,
        [1]) := by decide
  have hpoD2 : procOne (⟨2, 1, 0, 2, 2, [true, true], [[], []],
      [⟨[], [0]⟩, ⟨[0], [7]⟩], [7, 9]⟩ : Decoder) 1 =
      some (⟨2, 1, 0, 2, 2, [true, true], [[], []], [⟨[], [0]⟩, ⟨[], [0]⟩], [7, 9]⟩,
        []) := by decide
  have hplD : procLoop (⟨2, 1, 1, 2, 2, [false, true], [[], []],
      [⟨[], [0]⟩, ⟨[0], [7]⟩], [0, 9]⟩ : Decoder) [1] =
      some ⟨2, 1, 0, 2, 2, [true, true], [[], []], [⟨[], [0]⟩, ⟨[], [0]⟩], [7, 9]⟩ := by
    rw [procLoop_cons _ 1 [] hpoD1]
    show procLoop (⟨2, 1, 0, 2, 2, [true, true], [[], []],
      [⟨[], [0]⟩, ⟨[0], [7]⟩], [7, 9]⟩ : Decoder) [1] = _
    rw [procLoop_cons _ 1 [] hpoD2]
    exact procLoop_nil _
  have hcB2 : Decoder.catch (⟨2, 1, 1, 2, 1, [false, true], [[], []], [⟨[], [0]⟩],
      [0, 9]⟩ : Decoder) ⟨DropType.Edges [0], [7]⟩ =
      some (CatchResult.Finished [7, 9]
          (catchStats ⟨2, 1, 0, 2, 2, [true, true], [[], []], [⟨[], [0]⟩, ⟨[], [0]⟩], [7, 9]⟩),
        ⟨2, 1, 0, 2, 2, [true, true], [[], []], [⟨[], [0]⟩, ⟨[], [0]⟩], [7, 9]⟩) := by
    have h := @catch_eval ⟨2, 1, 1, 2, 1, [false, true], [[], []], [⟨[], [0]⟩], [0, 9]⟩
      ⟨DropType.Edges [0], [7]⟩
      ⟨2, 1, 0, 2, 2, [true, true], [[], []], [⟨[], [0]⟩, ⟨[], [0]⟩], [7, 9]⟩ (by exact hplD)
    exact h
  have hfeed1 : feedAll (⟨2, 1, 2, 2, 0, [false, false], [[], []], [], [0, 0]⟩ : Decoder)
      [⟨DropType.Edges [0], [7]⟩, ⟨DropType.Edges [1], [9]⟩] =
      some ⟨2, 1, 0, 2, 2, [true, true], [[], []], [⟨[], [0]⟩, ⟨[], [0]⟩], [7, 9]⟩ := by
    rw [feedAll, hcA1]
    dsimp only
    rw [feedAll, hcA2]
    dsimp only
    rw [feedAll]
  have hfeed2 : feedAll (⟨2, 1, 2, 2, 0, [false, false], [[], []], [], [0, 0]⟩ : Decoder)
      [⟨DropType.Edges [1], [9]⟩, ⟨DropType.Edges [0], [7]⟩] =
      some ⟨2, 1, 0, 2, 2, [true, true], [[], []], [⟨[], [0]⟩, ⟨[], [0]⟩], [7, 9]⟩ := by
    rw [feedAll, hcB1]
    dsimp only
    rw [feedAll, hcB2]
    dsimp only
    rw [feedAll]
  refine ⟨by decide, ?_⟩
  exact C6_order_independence [7, 9] 1
    [⟨DropType.Edges [0], [7]⟩, ⟨DropType.Edges [1], [9]⟩]
    [⟨DropType.Edges [1], [9]⟩, ⟨DropType.Edges [0], [7]⟩]
    (by decide)
    (by
      intro dr hdr
      rw [show cntBlocksF32 ([7, 9] : List ℕ).length 1 = 2 from cntBlocks_two_one]
      rcases List.mem_cons.1 hdr with h1 | h1
      · subst h1
        exact ⟨by decide, by decide, by decide⟩
      · rcases List.mem_cons.1 h1 with h2 | h2
        · subst h2
          exact ⟨by decide, by decide, by decide⟩
        · exact absurd h2 (List.not_mem_nil dr))
    ⟨2, 1, 0, 2, 2, [true, true], [[], []], [⟨[], [0]⟩, ⟨[], [0]⟩], [7, 9]⟩
    ⟨2, 1, 0, 2, 2, [true, true], [[], []], [⟨[], [0]⟩, ⟨[], [0]⟩], [7, 9]⟩
    (by
      rw [show Decoder.new ([7, 9] : List ℕ).length 1 =
        (⟨2, 1, 2, 2, 0, [false, false], [[], []], [], [0, 0]⟩ : Decoder)
        from decoderNew_two_one]
      exact hfeed1)
    (by
      rw [show Decoder.new ([7, 9] : List ℕ).length 1 =
        (⟨2, 1, 2, 2, 0, [false, false], [[], []], [], [0, 0]⟩ : Decoder)
        from decoderNew_two_one]
      exact hfeed2)

/-- The peeling closure of singleton neighbor lists `[0], …, [i-1]` is exactly
the initial segment below `i`. -/
theorem Peeled_singletons (i b : ℕ) :
    Peeled ((List.range i).map (fun j => ([j] : List ℕ))) b ↔ b < i := by
  constructor
  · intro hp
    induction hp with
    | step o ho c hc hrest ih =>
      obtain ⟨j, hj, hjo⟩ := List.mem_map.1 ho
      rw [← hjo] at hc
      rw [List.mem_singleton] at hc
      subst hc
      exact List.mem_range.1 hj
  · intro hb
    exact Peeled.step [b] (List.mem_map.2 ⟨b, List.mem_range.2 hb, rfl⟩) b
      (List.mem_singleton_self b) (fun c hcm hcne => absurd (List.mem_singleton.1 hcm) hcne)

/-- The systematic encoder after `c` droplets: fixed payload geometry, the
counter at `c`, and still in `Systematic` mode while more raw chunks remain. -/
def EncS (P : List ℕ) (B K c : ℕ) (en : Encoder) : Prop :=
  en.data = P ∧ en.len = P.length ∧ en.blocksize = B ∧ en.cnt_blocks = K ∧
  en.cnt = c ∧ (c < K → en.encodertype = EncoderType.Systematic)

/-- `Encoder::next` in `Systematic` mode emits the raw chunk `c` as an
`Edges [c]` droplet and advances the counter, switching to `Random` exactly
when it was emitting the last chunk. -/
theorem EncS_next {P : List ℕ} {B K c : ℕ} {en : Encoder} (h : EncS P B K c en)
    (hc : c < K) :
    ∃ en2, Encoder.next en = (⟨DropType.Edges [c], copyChunk P P.length B c⟩, en2) ∧
      EncS P B K (c + 1) en2 := by
  obtain ⟨h1, h2, h3, h4, h5, h6⟩ := h
  have htype := h6 hc
  refine ⟨{ en with
            encodertype := if en.cnt + 2 > en.cnt_blocks then EncoderType.Random
              else en.encodertype
            cnt := en.cnt + 1 }, ?_, ?_⟩
  · rw [Encoder.next, htype]
    dsimp only
    rw [h1, h2, h3, h5]
  · refine ⟨h1, h2, h3, h4, ?_, ?_⟩
    · show en.cnt + 1 = c + 1
      rw [h5]
    · intro hc2
      show (if en.cnt + 2 > en.cnt_blocks then EncoderType.Random else en.encodertype) =
        EncoderType.Systematic
      rw [h5, h4, if_neg (by omega)]
      exact htype

/-- One iteration of the pull-and-feed loop, given evaluations of the encoder
pull and the decoder catch. -/
theorem step_eval {en : Encoder} {d : Decoder} {dr : Droplet} {en2 : Encoder}
    (hnext : Encoder.next en = (dr, en2)) {r : CatchResult} {d2 : Decoder}
    (hcatch : Decoder.catch d dr = some (r, d2)) :
    step (en, d) = some (en2, d2, r) := by
  simp only [step, hnext, hcatch]

/-- `step` when `Decoder::catch` returns `none`. -/
theorem step_eval_none {en : Encoder} {d : Decoder} {dr : Droplet} {en2 : Encoder}
    (hnext : Encoder.next en = (dr, en2))
    (hcatch : Decoder.catch d dr = none) :
    step (en, d) = none := by
  simp only [step, hnext, hcatch]

/-- The neighbor lists accumulated by a systematic run: appending the next
singleton extends the range. -/
theorem origs_range_snoc (c : ℕ) :
    (List.range c).map (fun j => ([j] : List ℕ)) ++ [[c]] =
    (List.range (c + 1)).map (fun j => ([j] : List ℕ)) := by
  rw [List.range_succ, List.map_append]
  rfl

/-- One catch of a systematic droplet from the invariant state reached after
`c` systematic droplets: the `(c+1)`-st chunk resolves, the unknown count
drops to `K - (c+1)`, and the result is `Missing` before the last chunk and
`Finished` with the original payload at the last chunk. -/
theorem sysCatch {P : List ℕ} {B K c : ℕ} (hLK : c + 1 = K → P.length ≤ K * B)
    {en : Encoder} (hen : EncS P B K c en) (hc : c < K)
    {d : Decoder}
    (hI : InvCore P B K P.length ((List.range c).map (fun j => ([j] : List ℕ))) d)
    (hW : InvWl K d []) :
    ∃ en2 d2 r, step (en, d) = some (en2, d2, r) ∧
      EncS P B K (c + 1) en2 ∧
      InvCore P B K P.length ((List.range (c + 1)).map (fun j => ([j] : List ℕ))) d2 ∧
      InvWl K d2 [] ∧
      d2.unknown_chunks = K - (c + 1) ∧
      (c + 1 < K → r = CatchResult.Missing (catchStats d2)) ∧
      (c + 1 = K → r = CatchResult.Finished P (catchStats d2)) := by
  obtain ⟨en2, hnext, hen2⟩ := EncS_next hen hc
  have hwf : WellFormedRx P B K
      (resolveEdges K ⟨DropType.Edges [c], copyChunk P P.length B c⟩)
      (Droplet.data ⟨DropType.Edges [c], copyChunk P P.length B c⟩) := by
    refine ⟨List.nodup_singleton c, ?_, ?_⟩
    · intro b hb
      have hb2 : b ∈ [c] := hb
      rw [List.mem_singleton] at hb2
      subst hb2
      exact hc
    · exact (xorChunks_single P B c).symm
  obtain ⟨d2, hI2, hW2, hmono, hcnt, htri⟩ := catch_master _ hI hW hwf
  have hI2' : InvCore P B K P.length
      ((List.range c).map (fun j => ([j] : List ℕ)) ++ [[c]]) d2 := hI2
  have horig : (List.range c).map (fun j => ([j] : List ℕ)) ++ [[c]] =
      (List.range (c + 1)).map (fun j => ([j] : List ℕ)) := by
    rw [List.range_succ, List.map_append]
    rfl
  rw [horig] at hI2'
  have hknown_iff : ∀ b, b < K → (knownAt d2 b = true ↔ b < c + 1) := by
    intro b hb
    rw [known_iff_Peeled hI2' hW2 hb]
    exact Peeled_singletons (c + 1) b
  have hunk : d2.unknown_chunks = K - (c + 1) := by
    rw [hI2'.hUnknown]
    have hcf := countFalse_of_prefix_known d2.blockKnown (c + 1) ?_ ?_
    · rw [hcf, hI2'.hKnownLen]
    · intro b hb
      rw [hI2'.hKnownLen] at hb
      exact hknown_iff b hb
    · rw [hI2'.hKnownLen]
      omega
  by_cases hcK : c + 1 = K
  · have hz : d2.unknown_chunks = 0 := by omega
    rcases htri with ⟨_, _, hcatch⟩ | ⟨hz', hnLK, _⟩ | ⟨hnz, _⟩
    · have hall : ∀ i, i < K → knownAt d2 i = true := by
        intro i hi
        exact (hknown_iff i hi).2 (by omega)
      have hpay : d2.data.take P.length = P :=
        data_take_eq P B K d2.data hI2'.hDataLen (hLK hcK)
          (fun i hi => hI2'.hChunkKnown i hi (hall i hi))
      rw [hpay] at hcatch
      exact ⟨en2, d2, CatchResult.Finished P (catchStats d2),
        step_eval hnext hcatch, hen2, hI2', hW2, hunk,
        fun h => absurd hcK (Nat.ne_of_lt h), fun _ => rfl⟩
    · exact absurd (hLK hcK) hnLK
    · exact absurd hz hnz
  · have hnz : d2.unknown_chunks ≠ 0 := by omega
    rcases htri with ⟨hz', _, _⟩ | ⟨hz', _, _⟩ | ⟨_, hcatch⟩
    · exact absurd hz' hnz
    · exact absurd hz' hnz
    · exact ⟨en2, d2, CatchResult.Missing (catchStats d2),
        step_eval hnext hcatch, hen2, hI2', hW2, hunk,
        fun _ => rfl, fun h => absurd h hcK⟩

/-- The systematic pull-and-feed run: after `i + 1 ≤ K` lossless catches the
first `i + 1` chunks are resolved, the result is `Missing` while `i + 1 < K`,
and the `K`-th catch returns `Finished` with the original payload. -/
theorem sysRun {P : List ℕ} {B K : ℕ} (hK : cntBlocksF32 P.length B = K)
    (en : Encoder) (hen : EncS P B K 0 en) :
    ∀ i : ℕ, i + 1 ≤ K → (i + 1 = K → P.length ≤ K * B) →
      ∃ en2 d r, runCatch i (en, Decoder.new P.length B) = some (en2, d, r) ∧
        EncS P B K (i + 1) en2 ∧
        InvCore P B K P.length ((List.range (i + 1)).map (fun j => ([j] : List ℕ))) d ∧
        InvWl K d [] ∧ d.unknown_chunks = K - (i + 1) ∧
        (i + 1 < K → r = CatchResult.Missing (catchStats d)) ∧
        (i + 1 = K → r = CatchResult.Finished P (catchStats d)) := by
  intro i
  induction i with
  | zero =>
    intro h1 hLK
    have hI0 : InvCore P B K P.length
        ((List.range 0).map (fun j => ([j] : List ℕ))) (Decoder.new P.length B) := by
      have hn := new_InvCore P B
      rw [hK] at hn
      exact hn
    have hW0 : InvWl K (Decoder.new P.length B) [] := by
      have hn := new_InvWl P.length B
      rw [hK] at hn
      exact hn
    obtain ⟨en2, d2, r, hstep, h5⟩ := sysCatch hLK hen (by omega) hI0 hW0
    refine ⟨en2, d2, r, ?_, h5⟩
    rw [runCatch]
    exact hstep
  | succ n ih =>
    intro h1 hLK
    obtain ⟨en2, d, r, hrun, hen2, hI, hW, hunk, hmiss, hfin⟩ :=
      ih (by omega) (fun h => absurd h (by omega))
    obtain ⟨en3, d3, r3, hstep, h5⟩ := sysCatch hLK hen2 (by omega) hI hW
    refine ⟨en3, d3, r3, ?_, h5⟩
    rw [runCatch, hrun]
    exact hstep

/-- C4 (amended): Systematic no-loss optimality, under the proviso that the
chunk count covers the payload (`|P| ≤ K·B`, with `K` the f32-computed chunk
count) — true exactly when the f32 ceiling does not slip; in the slip corner
the claim is false (the `K`-th catch panics, see the counterexample).  Under
it, with a `Systematic` encoder whose droplets are fed in order without loss
into `Decoder::new(|P|, B)`: every intermediate catch `i+1 < K` returns
`Missing` with `stats.cnt_chunks - stats.unknown_chunks` equal to the number
of droplets caught so far, and the `K`-th catch returns `Finished` with the
original payload — the decoder completes after exactly `K` droplets. -/
theorem C4_systematic_no_loss (P : List ℕ) (B : ℕ) (rng : ℕ → ℕ) (sol : ℕ → ℚ)
    (hLK : P.length ≤ cntBlocksF32 P.length B * B) :
    (∀ i, i + 1 < cntBlocksF32 P.length B →
      ∃ en d st,
        runCatch i (Encoder.new P B EncoderType.Systematic rng sol,
          Decoder.new P.length B) = some (en, d, CatchResult.Missing st) ∧
        st.cnt_chunks - st.unknown_chunks = i + 1) ∧
    (1 ≤ cntBlocksF32 P.length B →
      ∃ en d st,
        runCatch (cntBlocksF32 P.length B - 1)
          (Encoder.new P B EncoderType.Systematic rng sol, Decoder.new P.length B) =
          some (en, d, CatchResult.Finished P st)) := by
  have hen : EncS P B (cntBlocksF32 P.length B) 0
      (Encoder.new P B EncoderType.Systematic rng sol) :=
    ⟨rfl, rfl, rfl, rfl, rfl, fun _ => rfl⟩
  constructor
  · intro i hi
    obtain ⟨en2, d, r, hrun, _, hI, _, hunk, hmiss, _⟩ :=
      sysRun rfl _ hen i (by omega) (fun _ => hLK)
    rw [hmiss hi] at hrun
    refine ⟨en2, d, catchStats d, hrun, ?_⟩
    show d.number_of_chunks - d.unknown_chunks = i + 1
    rw [hI.hK, hunk]
    omega
  · intro hK1
    obtain ⟨en2, d, r, hrun, _, hI, _, hunk, _, hfin⟩ :=
      sysRun rfl _ hen (cntBlocksF32 P.length B - 1) (by omega) (fun _ => hLK)
    rw [hfin (by omega)] at hrun
    exact ⟨en2, d, catchStats d, hrun⟩

theorem C4_systematic_no_loss_witness :
    ([4, 6] : List ℕ).length ≤ cntBlocksF32 ([4, 6] : List ℕ).length 1 * 1 ∧
    ((∀ i, i + 1 < cntBlocksF32 ([4, 6] : List ℕ).length 1 →
      ∃ en d st,
        runCatch i (Encoder.new [4, 6] 1 EncoderType.Systematic (fun _ => 0) (fun _ => 0),
          Decoder.new ([4, 6] : List ℕ).length 1) =
          some (en, d, CatchResult.Missing st) ∧
        st.cnt_chunks - st.unknown_chunks = i + 1) ∧
    (1 ≤ cntBlocksF32 ([4, 6] : List ℕ).length 1 →
      ∃ en d st,
        runCatch (cntBlocksF32 ([4, 6] : List ℕ).length 1 - 1)
          (Encoder.new [4, 6] 1 EncoderType.Systematic (fun _ => 0) (fun _ => 0),
            Decoder.new ([4, 6] : List ℕ).length 1) =
          some (en, d, CatchResult.Finished [4, 6] st))) :=
  ⟨by rw [show cntBlocksF32 ([4, 6] : List ℕ).length 1 = 2 from cntBlocks_two_one]; decide,
   C4_systematic_no_loss [4, 6] 1 (fun _ => 0) (fun _ => 0)
     (by rw [show cntBlocksF32 ([4, 6] : List ℕ).length 1 = 2 from cntBlocks_two_one]
         decide)⟩

theorem cntBlocks_pow24succ : cntBlocksF32 16777217 1 = 16777216 := by
  rw [cntBlocksF32, toF32_pow24succ, toF32_exact 1 (by norm_num), f32div,
    Nat.cast_one, div_one]
  have h1 : roundF32 (16777216 : ℚ) = ((16777216 : ℕ) : ℚ) := by
    rw [show (16777216 : ℚ) = ((16777216 : ℕ) : ℚ) from by norm_num]
    exact roundF32_nat_exact _ (by norm_num)
  rw [h1, Int.ceil_natCast]
  simp

/-- C4 (counterexample to the claim as frozen): at the f32-slip payload
`L = 2^24 + 1 = 16777217`, `B = 1`, the chunk count is `K = 16777216` (one
short of the exact ceiling, see C2), the first `K-1` systematic catches go
through, and the `K`-th catch — the one the claim says returns `Finished`
with the original payload — panics instead (indexing `data[0..16777217]` into
the `16777216`-byte reconstruction buffer), embedded as `none`. -/
theorem C4_counterexample :
    runCatch 16777215
      (Encoder.new (List.replicate 16777217 (0 : ℕ)) 1 EncoderType.Systematic
        (fun _ => 0) (fun _ => 0),
       Decoder.new (List.replicate 16777217 (0 : ℕ)).length 1) = none := by
  have hPlen : (List.replicate 16777217 (0 : ℕ)).length = 16777217 :=
    List.length_replicate _ _
  have hK : cntBlocksF32 (List.replicate 16777217 (0 : ℕ)).length 1 = 16777216 := by
    rw [hPlen]
    exact cntBlocks_pow24succ
  have hen : EncS (List.replicate 16777217 (0 : ℕ)) 1 16777216 0
      (Encoder.new (List.replicate 16777217 (0 : ℕ)) 1 EncoderType.Systematic
        (fun _ => 0) (fun _ => 0)) :=
    ⟨rfl, rfl, rfl, hK, rfl, fun _ => rfl⟩
  obtain ⟨en2, d, r, hrun, hen2, hI, hW, hunk, hmiss, _⟩ :=
    sysRun hK _ hen 16777214 (by omega) (fun h => absurd h (by omega))
  obtain ⟨en3, hnext, _⟩ :=
    EncS_next hen2 (show 16777214 + 1 < 16777216 by omega)
  have hwf : WellFormedRx (List.replicate 16777217 (0 : ℕ)) 1 16777216
      (resolveEdges 16777216 ⟨DropType.Edges [16777214 + 1],
        copyChunk (List.replicate 16777217 (0 : ℕ))
          (List.replicate 16777217 (0 : ℕ)).length 1 (16777214 + 1)⟩)
      (Droplet.data ⟨DropType.Edges [16777214 + 1],
        copyChunk (List.replicate 16777217 (0 : ℕ))
          (List.replicate 16777217 (0 : ℕ)).length 1 (16777214 + 1)⟩) := by
    refine ⟨List.nodup_singleton _, ?_, ?_⟩
    · intro b hb
      have hb2 : b ∈ [16777214 + 1] := hb
      rw [List.mem_singleton] at hb2
      subst hb2
      omega
    · exact (xorChunks_single (List.replicate 16777217 (0 : ℕ)) 1 (16777214 + 1)).symm
  obtain ⟨d2, hI2, hW2, _, _, htri⟩ := catch_master _ hI hW hwf
  have hI2' : InvCore (List.replicate 16777217 (0 : ℕ)) 1 16777216
      (List.replicate 16777217 (0 : ℕ)).length
      ((List.range (16777214 + 1)).map (fun j => ([j] : List ℕ)) ++ [[16777214 + 1]])
      d2 := hI2
  rw [origs_range_snoc (16777214 + 1)] at hI2'
  have hallk : ∀ b, b < 16777216 → knownAt d2 b = true := by
    intro b hb
    exact (known_iff_Peeled hI2' hW2 hb).2 ((Peeled_singletons (16777214 + 1 + 1) b).2
      (by omega))
  have hz : d2.unknown_chunks = 0 := all_known_unknown_zero hI2' hallk
  rcases htri with ⟨_, hLK, _⟩ | ⟨_, _, hcatch⟩ | ⟨hnz, _⟩
  · rw [hPlen] at hLK
    omega
  · rw [show (16777215 : ℕ) = 16777214 + 1 from by norm_num, runCatch, hrun]
    exact step_eval_none hnext hcatch
  · exact absurd hz hnz

/-- The Random-mode encoder invariant: fixed payload geometry and chunk count,
and the mode never leaves `Random`. -/
def EncR (P : List ℕ) (B : ℕ) (en : Encoder) : Prop :=
  en.data = P ∧ en.len = P.length ∧ en.blocksize = B ∧
  en.cnt_blocks = cntBlocksF32 P.length B ∧ en.encodertype = EncoderType.Random

/-- `Encoder::next` in `Random` mode: the invariant is preserved and the
emitted droplet is well-formed — its descriptor resolves (at the decoder's
chunk count) to exactly the neighbor set the encoder XOR-ed together. -/
theorem EncR_next {P : List ℕ} {B : ℕ} {en : Encoder} (h : EncR P B en) :
    ∃ dr en2, Encoder.next en = (dr, en2) ∧ EncR P B en2 ∧
      WellFormedRx P B (cntBlocksF32 P.length B)
        (resolveEdges (cntBlocksF32 P.length B) dr) dr.data := by
  obtain ⟨h1, h2, h3, h4, h5⟩ := h
  have hnext : Encoder.next en =
      (⟨DropType.Seeded (en.rng en.rngPos % 2 ^ 32)
          (idealSolitonNext en.solLimit (en.solStream en.solPos)),
        (get_sample_from_rng_by_seed (en.rng en.rngPos % 2 ^ 32) en.cnt_blocks
            (idealSolitonNext en.solLimit (en.solStream en.solPos))).foldl
          (fun r k => xorChunkInto r en.data en.len en.blocksize k)
          (zeroes en.blocksize)⟩,
       { en with solPos := en.solPos + 1, rngPos := en.rngPos + 1, cnt := en.cnt + 1 }) := by
    rw [Encoder.next, h5]
  refine ⟨_, _, hnext, ⟨h1, h2, h3, h4, h5⟩, ?_⟩
  show WellFormedRx P B (cntBlocksF32 P.length B)
    (get_sample_from_rng_by_seed (en.rng en.rngPos % 2 ^ 32) (cntBlocksF32 P.length B)
      (idealSolitonNext en.solLimit (en.solStream en.solPos)))
    ((get_sample_from_rng_by_seed (en.rng en.rngPos % 2 ^ 32) en.cnt_blocks
        (idealSolitonNext en.solLimit (en.solStream en.solPos))).foldl
      (fun r k => xorChunkInto r en.data en.len en.blocksize k) (zeroes en.blocksize))
  rw [h1, h2, h3, h4]
  refine ⟨(rngSample_nodup_bound _ _ _).1, (rngSample_nodup_bound _ _ _).2, ?_⟩
  exact encoder_random_payload P B _

/-- One pull-and-feed iteration in Random mode: both invariants are preserved
and any `Finished` result carries exactly the original payload. -/
theorem stepR_master {P : List ℕ} {B : ℕ} {en : Encoder} {d : Decoder}
    {origs : List (List ℕ)} (hE : EncR P B en)
    (hI : InvCore P B (cntBlocksF32 P.length B) P.length origs d)
    (hW : InvWl (cntBlocksF32 P.length B) d []) :
    ∀ e2 d2 r, step (en, d) = some (e2, d2, r) →
      EncR P B e2 ∧
      (∃ origs2, InvCore P B (cntBlocksF32 P.length B) P.length origs2 d2 ∧
        InvWl (cntBlocksF32 P.length B) d2 []) ∧
      ∀ pay st, r = CatchResult.Finished pay st → pay = P := by
  obtain ⟨dr, en2, hnext, hE2, hwf⟩ := EncR_next hE
  intro e2 d2 r hstep
  obtain ⟨s2, hI2, hW2, _, _, htri⟩ := catch_master dr hI hW hwf
  rcases htri with ⟨hz, hLK, hcatch⟩ | ⟨_, _, hcatch⟩ | ⟨hnz, hcatch⟩
  · have h := (step_eval hnext hcatch).symm.trans hstep
    rw [Option.some.injEq, Prod.mk.injEq, Prod.mk.injEq] at h
    obtain ⟨he, hd, hr⟩ := h
    subst he
    subst hd
    subst hr
    refine ⟨hE2, ⟨_, hI2, hW2⟩, ?_⟩
    intro pay st hf
    injection hf with hp hs
    rw [← hp]
    exact data_take_eq P B (cntBlocksF32 P.length B) s2.data hI2.hDataLen hLK
      (fun i hi => hI2.hChunkKnown i hi (unknown_zero_all_known hI2 hz i hi))
  · rw [step_eval_none hnext hcatch] at hstep
    cases hstep
  · have h := (step_eval hnext hcatch).symm.trans hstep
    rw [Option.some.injEq, Prod.mk.injEq, Prod.mk.injEq] at h
    obtain ⟨he, hd, hr⟩ := h
    subst he
    subst hd
    subst hr
    refine ⟨hE2, ⟨_, hI2, hW2⟩, ?_⟩
    intro pay st hf
    exact CatchResult.noConfusion hf

/-- The Random-mode pull-and-feed run preserves the invariants, and every
`Finished` result it ever produces carries exactly the original payload. -/
theorem runCatchR_master {P : List ℕ} {B : ℕ} :
    ∀ (n : ℕ) (en : Encoder) (d : Decoder) (origs : List (List ℕ)),
      EncR P B en → InvCore P B (cntBlocksF32 P.length B) P.length origs d →
      InvWl (cntBlocksF32 P.length B) d [] →
      ∀ e2 d2 r, runCatch n (en, d) = some (e2, d2, r) →
        EncR P B e2 ∧
        (∃ origs2, InvCore P B (cntBlocksF32 P.length B) P.length origs2 d2 ∧
          InvWl (cntBlocksF32 P.length B) d2 []) ∧
        ∀ pay st, r = CatchResult.Finished pay st → pay = P := by
  intro n
  induction n with
  | zero =>
    intro en d origs hE hI hW e2 d2 r h
    rw [runCatch] at h
    exact stepR_master hE hI hW e2 d2 r h
  | succ m ih =>
    intro en d origs hE hI hW e2 d2 r h
    rw [runCatch] at h
    cases hr : runCatch m (en, d) with
    | none =>
      rw [hr] at h
      cases h
    | some t =>
      obtain ⟨e1, d1, r1⟩ := t
      rw [hr] at h
      obtain ⟨hE1, ⟨origs1, hI1, hW1⟩, _⟩ := ih en d origs hE hI hW e1 d1 r1 hr
      exact stepR_master hE1 hI1 hW1 e2 d2 r h

/-- C1 (amended): partial round-trip correctness.  Whenever the pull-and-feed
loop `Encoder::new(P, B, Random)` / `Decoder::new(|P|, B)` returns
`Finished(P', stats)` after any number of catches, `P'` equals `P` byte for
byte — in particular `|P'| = |P|`, so the internal zero-padding of the last
chunk never leaks into the output.  (Eventual completion itself is not
guaranteed for every random stream: see the counterexample.) -/
theorem C1_amended (P : List ℕ) (B : ℕ) (rng : ℕ → ℕ) (sol : ℕ → ℚ)
    (n : ℕ) (e : Encoder) (d : Decoder) (pay : List ℕ) (st : Statistics)
    (h : runCatch n (Encoder.new P B EncoderType.Random rng sol,
      Decoder.new P.length B) = some (e, d, CatchResult.Finished pay st)) :
    pay = P ∧ pay.length = P.length := by
  have hE0 : EncR P B (Encoder.new P B EncoderType.Random rng sol) :=
    ⟨rfl, rfl, rfl, rfl, rfl⟩
  obtain ⟨_, _, hpay⟩ := runCatchR_master n _ _ [] hE0 (new_InvCore P B)
    (new_InvWl P.length B) e d _ h
  have hp := hpay pay st rfl
  exact ⟨hp, by rw [hp]⟩

/-- The encoder state after `k` pulls of `Encoder::new([3,5], 1, Random)` on
the all-zero random and soliton streams. -/
def cexEnc (k : ℕ) : Encoder :=
  ⟨[3, 5], 2, 1, fun _ => 0, k + 1, 2, fun _ => 0, k, idealSolitonLimit 2, k,
    EncoderType.Random⟩

theorem cexEnc_new :
    Encoder.new [3, 5] 1 EncoderType.Random (fun _ => 0) (fun _ => 0) = cexEnc 0 := by
  show ({ data := [3, 5]
          len := 2
          blocksize := 1
          rng := fun _ => 0
          rngPos := 1
          cnt_blocks := cntBlocksF32 2 1
          solStream := fun _ => 0
          solPos := 0
          solLimit := idealSolitonLimit (cntBlocksF32 2 1)
          cnt := 0
          encodertype := EncoderType.Random } : Encoder) = _
  rw [cntBlocks_two_one]
  rfl

/-- On the all-zero streams every pull emits the same degree-1 droplet
covering chunk 0 only. -/
theorem cexEnc_next (k : ℕ) :
    Encoder.next (cexEnc k) = (⟨DropType.Seeded 0 1, [3]⟩, cexEnc (k + 1)) := by
  have hdeg : idealSolitonNext (idealSolitonLimit 2) ((0 : ℚ)) = 1 := by
    rw [idealSolitonNext, if_neg (by rw [idealSolitonLimit]; norm_num)]
  rw [Encoder.next]
  dsimp only [cexEnc]
  rw [hdeg]
  rfl

/-- Against droplets that all resolve to the neighbor set `[0]`, chunk 1 is
never peeled, so every catch returns `Missing` and the run never finishes. -/
theorem cexRun : ∀ n : ℕ, ∃ d origs,
    runCatch n (cexEnc 0, Decoder.new 2 1) =
      some (cexEnc (n + 1), d, CatchResult.Missing (catchStats d)) ∧
    InvCore [3, 5] 1 2 2 origs d ∧ InvWl 2 d [] ∧ ∀ o ∈ origs, o = [0] := by
  have hwf : WellFormedRx [3, 5] 1 2
      (resolveEdges 2 (⟨DropType.Seeded 0 1, [3]⟩ : Droplet))
      (Droplet.data ⟨DropType.Seeded 0 1, [3]⟩) := by
    exact ⟨by decide, by decide, by decide⟩
  have hcatchstep : ∀ (d : Decoder) (origs : List (List ℕ)),
      InvCore [3, 5] 1 2 2 origs d → InvWl 2 d [] → (∀ o ∈ origs, o = [0]) →
      ∃ d2, Decoder.catch d ⟨DropType.Seeded 0 1, [3]⟩ =
          some (CatchResult.Missing (catchStats d2), d2) ∧
        InvCore [3, 5] 1 2 2 (origs ++ [[0]]) d2 ∧ InvWl 2 d2 [] ∧
        ∀ o ∈ origs ++ [[0]], o = [0] := by
    intro d origs hI hW hall
    obtain ⟨d2, hI2, hW2, _, _, htri⟩ := catch_master ⟨DropType.Seeded 0 1, [3]⟩ hI hW hwf
    have hres : resolveEdges 2 (⟨DropType.Seeded 0 1, [3]⟩ : Droplet) = [0] := by decide
    rw [hres] at hI2
    have hall2 : ∀ o ∈ origs ++ [[0]], o = [0] := by
      intro o ho
      rcases List.mem_append.1 ho with h | h
      · exact hall o h
      · rw [List.mem_singleton] at h
        exact h
    have hnz : d2.unknown_chunks ≠ 0 := by
      intro hz
      have hk1 := unknown_zero_all_known hI2 hz 1 (by norm_num)
      have hp := hI2.hPeeled 1 (by norm_num) hk1
      cases hp with
      | step o ho c hc hrest =>
        rw [hall2 o ho] at hc
        exact absurd hc (by decide)
    rcases htri with ⟨hz, _, _⟩ | ⟨hz, _, _⟩ | ⟨_, hcatch⟩
    · exact absurd hz hnz
    · exact absurd hz hnz
    · exact ⟨d2, hcatch, hI2, hW2, hall2⟩
  have hI0 : InvCore [3, 5] 1 2 2 [] (Decoder.new 2 1) := by
    have h := new_InvCore [3, 5] 1
    rw [show cntBlocksF32 ([3, 5] : List ℕ).length 1 = 2 from cntBlocks_two_one] at h
    exact h
  have hW0 : InvWl 2 (Decoder.new 2 1) [] := by
    have h := new_InvWl 2 1
    rw [cntBlocks_two_one] at h
    exact h
  intro n
  induction n with
  | zero =>
    obtain ⟨d2, hcatch, hI2, hW2, hall2⟩ :=
      hcatchstep (Decoder.new 2 1) [] hI0 hW0 (fun o ho => absurd ho (List.not_mem_nil o))
    refine ⟨d2, [] ++ [[0]], ?_, hI2, hW2, hall2⟩
    rw [runCatch]
    exact step_eval (cexEnc_next 0) hcatch
  | succ m ih =>
    obtain ⟨d, origs, hrun, hI, hW, hall⟩ := ih
    obtain ⟨d2, hcatch, hI2, hW2, hall2⟩ := hcatchstep d origs hI hW hall
    refine ⟨d2, origs ++ [[0]], ?_, hI2, hW2, hall2⟩
    rw [runCatch, hrun]
    exact step_eval (cexEnc_next (m + 1)) hcatch

/-- The pull-and-feed loop started from `p` returns `Missing` at every catch
index — it never returns `Finished` (and never panics). -/
def neverFinishes (p : Encoder × Decoder) : Prop :=
  ∀ n : ℕ, ∃ e d st, runCatch n p = some (e, d, CatchResult.Missing st)

/-- C1 (counterexample to unconditional eventual completion): with payload
`[3,5]`, blocksize 1 and the all-zero random/soliton streams, every droplet
the Random-mode encoder emits resolves to the neighbor set `[0]`, chunk 1 is
never recovered, and every catch of the pull-and-feed loop — at every index
`n` — returns `Missing`: the loop never returns `Finished`. -/
theorem C1_counterexample :
    neverFinishes (Encoder.new [3, 5] 1 EncoderType.Random (fun _ => 0) (fun _ => 0),
      Decoder.new ([3, 5] : List ℕ).length 1) := by
  intro n
  obtain ⟨d, origs, hrun, _, _, _⟩ := cexRun n
  refine ⟨cexEnc (n + 1), d, catchStats d, ?_⟩
  rw [cexEnc_new]
  exact hrun

theorem C1_amended_witness :
    runCatch 0 (Encoder.new [5] 1 EncoderType.Random (fun _ => 0) (fun _ => 0),
        Decoder.new ([5] : List ℕ).length 1) =
      some (⟨[5], 1, 1, fun _ => 0, 2, 1, fun _ => 0, 1, idealSolitonLimit 1, 1,
          EncoderType.Random⟩,
        ⟨1, 1, 0, 1, 1, [true], [[]], [⟨[], [0]⟩], [5]⟩,
        CatchResult.Finished [5]
          (catchStats ⟨1, 1, 0, 1, 1, [true], [[]], [⟨[], [0]⟩], [5]⟩)) ∧
    ([5] : List ℕ) = [5] ∧ ([5] : List ℕ).length = ([5] : List ℕ).length := by
  have hdeg : idealSolitonNext (idealSolitonLimit 1) ((0 : ℚ)) = 1 := by
    rw [idealSolitonNext, if_neg (by rw [idealSolitonLimit]; norm_num)]
  have hEnew : Encoder.new [5] 1 EncoderType.Random (fun _ => 0) (fun _ => 0) =
      ⟨[5], 1, 1, fun _ => 0, 1, 1, fun _ => 0, 0, idealSolitonLimit 1, 0,
        EncoderType.Random⟩ := by
    show ({ data := [5]
            len := 1
            blocksize := 1
            rng := fun _ => 0
            rngPos := 1
            cnt_blocks := cntBlocksF32 1 1
            solStream := fun _ => 0
            solPos := 0
            solLimit := idealSolitonLimit (cntBlocksF32 1 1)
            cnt := 0
            encodertype := EncoderType.Random } : Encoder) = _
    rw [cntBlocks_one_one]
  have hnext : Encoder.next
      (⟨[5], 1, 1, fun _ => 0, 1, 1, fun _ => 0, 0, idealSolitonLimit 1, 0,
        EncoderType.Random⟩ : Encoder) =
      (⟨DropType.Seeded 0 1, [5]⟩,
        ⟨[5], 1, 1, fun _ => 0, 2, 1, fun _ => 0, 1, idealSolitonLimit 1, 1,
          EncoderType.Random⟩) := by
    rw [Encoder.next]
    dsimp only
    rw [hdeg]
    rfl
  have hpo1 : procOne (⟨1, 1, 1, 1, 1, [false], [[]], [⟨[0], [5]⟩], [0]⟩ : Decoder) 0 =
      some (⟨1, 1, 0, 1, 1, [true], [[]], [⟨[0], [5]⟩], [5]⟩, [0]) := by decide
  have hpo2 : procOne (⟨1, 1, 0, 1, 1, [true], [[]], [⟨[0], [5]⟩], [5]⟩ : Decoder) 0 =
      some (⟨1, 1, 0, 1, 1, [true], [[]], [⟨[], [0]⟩], [5]⟩, []) := by decide
  have hpl1 : procLoop (⟨1, 1, 1, 1, 1, [false], [[]], [⟨[0], [5]⟩], [0]⟩ : Decoder) [0] =
      some ⟨1, 1, 0, 1, 1, [true], [[]], [⟨[], [0]⟩], [5]⟩ := by
    rw [procLoop_cons _ 0 [] hpo1]
    show procLoop (⟨1, 1, 0, 1, 1, [true], [[]], [⟨[0], [5]⟩], [5]⟩ : Decoder) [0] = _
    rw [procLoop_cons _ 0 [] hpo2]
    show procLoop (⟨1, 1, 0, 1, 1, [true], [[]], [⟨[], [0]⟩], [5]⟩ : Decoder) [] = _
    exact procLoop_nil _
  have hproc : processDroplet (⟨1, 1, 1, 1, 1, [false], [[]], [], [0]⟩ : Decoder)
      ⟨resolveEdges 1 ⟨DropType.Seeded 0 1, [5]⟩, [5]⟩ =
      some ⟨1, 1, 0, 1, 1, [true], [[]], [⟨[], [0]⟩], [5]⟩ := by
    rw [show (⟨resolveEdges 1 ⟨DropType.Seeded 0 1, [5]⟩, [5]⟩ : RxDroplet) = ⟨[0], [5]⟩
      from by decide]
    exact processDroplet_eval (by exact hpl1)
  have hc : Decoder.catch (⟨1, 1, 1, 1, 0, [false], [[]], [], [0]⟩ : Decoder)
      ⟨DropType.Seeded 0 1, [5]⟩ =
      some (CatchResult.Finished [5]
          (catchStats ⟨1, 1, 0, 1, 1, [true], [[]], [⟨[], [0]⟩], [5]⟩),
        ⟨1, 1, 0, 1, 1, [true], [[]], [⟨[], [0]⟩], [5]⟩) := by
    have h := @catch_eval ⟨1, 1, 1, 1, 0, [false], [[]], [], [0]⟩ ⟨DropType.Seeded 0 1, [5]⟩
      ⟨1, 1, 0, 1, 1, [true], [[]], [⟨[], [0]⟩], [5]⟩ (by exact hproc)
    exact h
  have hrun : runCatch 0 (Encoder.new [5] 1 EncoderType.Random (fun _ => 0) (fun _ => 0),
      Decoder.new ([5] : List ℕ).length 1) =
      some (⟨[5], 1, 1, fun _ => 0, 2, 1, fun _ => 0, 1, idealSolitonLimit 1, 1,
          EncoderType.Random⟩,
        ⟨1, 1, 0, 1, 1, [true], [[]], [⟨[], [0]⟩], [5]⟩,
        CatchResult.Finished [5]
          (catchStats ⟨1, 1, 0, 1, 1, [true], [[]], [⟨[], [0]⟩], [5]⟩)) := by
    rw [runCatch, hEnew,
      show Decoder.new ([5] : List ℕ).length 1 =
        (⟨1, 1, 1, 1, 0, [false], [[]], [], [0]⟩ : Decoder) from decoderNew_one_one]
    exact step_eval hnext hc
  exact ⟨hrun,
    C1_amended [5] 1 (fun _ => 0) (fun _ => 0) 0
      ⟨[5], 1, 1, fun _ => 0, 2, 1, fun _ => 0, 1, idealSolitonLimit 1, 1,
        EncoderType.Random⟩
      ⟨1, 1, 0, 1, 1, [true], [[]], [⟨[], [0]⟩], [5]⟩ [5]
      (catchStats ⟨1, 1, 0, 1, 1, [true], [[]], [⟨[], [0]⟩], [5]⟩) hrun⟩

end Fountain
